import Mathlib

/-!
Shallow embedding of the ApproximateQueryEngine core
(`src/aqe_backend/core/custom_bplus_db.cpp`, `custom_scheduler.cpp`,
`src/aqe_backend/executor.cpp`) and proofs about it.

Modelling conventions:
* C++ `double` values (record amounts, sample percentages) are modelled as `ℚ`.
  IEEE-754 rounding is not modelled; the claims treated here are about exact
  arithmetic structure, not rounding.
* `static_cast<int>` of a floating value truncates toward zero; it is modelled
  by `cppTrunc : ℚ → ℤ`.  Conversion of a (possibly negative) `int` to
  `size_t` wraps modulo `2^64`; it is modelled by `toUSize : ℤ → ℕ`.
  Overflow of `int` itself (values beyond `2^31`) is not modelled.
* Heap nodes (`std::shared_ptr<BPlusTreeNode>`) live in an arena
  (`List BPlusTreeNode`); a "pointer" is an index into the arena, and a null
  pointer is `Option.none`.  Allocation appends at the end of the arena.
  C++ recursion over the node graph terminates because the reachable graph is
  finite and acyclic; the embedding uses explicit fuel (the arena size is
  always sufficient on well-formed trees, as the invariants below show).
* `std::mt19937` together with `std::uniform_int_distribution` is modelled as
  an abstract seed-determined stream of draws `ℕ → ℕ` (the C++ draws are a
  pure function of the seed; their exact values are implementation defined).
* Wall-clock fields (`computation_time`) and the readers-writer lock are not
  modelled; locks only serialize access and do not change the functional
  result of the single-threaded executions considered here.
-/

/-- Truncation toward zero, the semantics of C++ `static_cast<int>(double)`. -/
def cppTrunc (q : ℚ) : ℤ := q.num.tdiv q.den

/-- Conversion of a C++ `int` value to `size_t` (wraps modulo `2^64`). -/
def toUSize (z : ℤ) : ℕ := (z % (2 : ℤ) ^ 64).toNat

/-- The row type (`struct Record`). -/
structure Record where
  id : Int
  amount : ℚ
  region : Int
  product_id : Int
  timestamp : Int
  deriving DecidableEq, Repr

/-- Default-constructed record (`Record() : id(0), amount(0.0), ...`). -/
def Record.default0 : Record := ⟨0, 0, 0, 0, 0⟩

/-- `BPlusTreeNode::MAX_KEYS`. -/
def MAX_KEYS : ℕ := 255

/-- A B+ tree node.  `children` and `next_leaf` hold arena indices in place of
`shared_ptr`s. -/
structure BPlusTreeNode where
  is_leaf : Bool
  key_count : ℕ
  subtree_record_count : ℕ
  keys : List Int
  records : List Record
  children : List ℕ
  next_leaf : Option ℕ
  deriving DecidableEq, Repr

/-- A fresh node (`BPlusTreeNode(bool leaf)`). -/
def BPlusTreeNode.mkNode (leaf : Bool) : BPlusTreeNode :=
  ⟨leaf, 0, 0, [], [], [], none⟩

/-- The node arena: index `i` stands for the heap object at "address" `i`. -/
abbrev Arena := List BPlusTreeNode

/-- Arena lookup (dereference of a node pointer). -/
def getNode (ar : Arena) (i : ℕ) : Option BPlusTreeNode := ar[i]?

/-- Linear realisation of `std::lower_bound(keys.begin(), keys.begin()+key_count, id)`
starting the scan at position `i`: first index in `[i, key_count)` whose key is
not less than `id`, else `key_count`. -/
def lowerBoundFrom (keys : List Int) (key_count : ℕ) (id : Int) (i : ℕ) : ℕ :=
  if h : i < key_count ∧ keys.getD i 0 < id then
    lowerBoundFrom keys key_count id (i + 1)
  else
    i
termination_by key_count - i
decreasing_by
  have := h.1
  omega

/-- `std::lower_bound` over the first `key_count` keys. -/
def lowerBound (keys : List Int) (key_count : ℕ) (id : Int) : ℕ :=
  lowerBoundFrom keys key_count id 0

/-- The descent loop of `CustomBPlusDB::insert_into_node`:
`while (i < key_count && record.id >= keys[i]) i++`. -/
def descendFrom (keys : List Int) (key_count : ℕ) (id : Int) (i : ℕ) : ℕ :=
  if h : i < key_count ∧ id ≥ keys.getD i 0 then
    descendFrom keys key_count id (i + 1)
  else
    i
termination_by key_count - i
decreasing_by
  have := h.1
  omega

/-- `BPlusTreeNode::insert_record` (leaf insertion at the `lower_bound`
position; internal nodes are untouched, as in the source). -/
def nodeInsertRecord (n : BPlusTreeNode) (r : Record) : BPlusTreeNode :=
  if n.is_leaf then
    let index := lowerBound n.keys n.key_count r.id
    { n with
      keys := n.keys.insertIdx index r.id
      records := n.records.insertIdx index r
      key_count := n.key_count + 1
      subtree_record_count := n.subtree_record_count + 1 }
  else
    n

/-- `BPlusTreeNode::split`.  The node at index `i` keeps the lower half; the
upper half moves to a freshly allocated node whose arena index is returned.
For a leaf, the new node is linked into the leaf chain
(`new->next = old->next; old->next = new`). -/
def splitNode (ar : Arena) (i : ℕ) : Arena × ℕ :=
  match getNode ar i with
  | none => (ar, 0)
  | some n =>
    let mid := MAX_KEYS / 2
    let newId := ar.length
    if n.is_leaf then
      let newNode : BPlusTreeNode :=
        { is_leaf := true
          key_count := n.key_count - mid
          subtree_record_count := 0
          keys := (n.keys.take n.key_count).drop mid
          records := (n.records.take n.key_count).drop mid
          children := []
          next_leaf := n.next_leaf }
      let self : BPlusTreeNode :=
        { n with
          keys := n.keys.take mid
          records := n.records.take mid
          key_count := mid
          next_leaf := some newId }
      (ar.set i self ++ [newNode], newId)
    else
      let newNode : BPlusTreeNode :=
        { is_leaf := false
          key_count := n.key_count - mid - 1
          subtree_record_count := 0
          keys := (n.keys.take n.key_count).drop (mid + 1)
          records := []
          children := (n.children.take (n.key_count + 1)).drop (mid + 1)
          next_leaf := none }
      let self : BPlusTreeNode :=
        { n with
          keys := n.keys.take mid
          children := n.children.take (mid + 1)
          key_count := mid }
      (ar.set i self ++ [newNode], newId)

/-- `CustomBPlusDB::insert_into_node`, with explicit recursion fuel.
Returns the updated arena and whether the node at `i` now needs a split. -/
def insertIntoNode : ℕ → Arena → ℕ → Record → Arena × Bool
  | 0, ar, _, _ => (ar, false)
  | fuel + 1, ar, i, r =>
    match getNode ar i with
    | none => (ar, false)
    | some n =>
      if n.is_leaf then
        let n' := nodeInsertRecord n r
        (ar.set i n', decide (n'.key_count ≥ MAX_KEYS))
      else
        let j := descendFrom n.keys n.key_count r.id 0
        match n.children[j]? with
        | none => (ar, false)
        | some ci =>
          let res := insertIntoNode fuel ar ci r
          let ar1 := res.1
          if res.2 then
            let sp := splitNode ar1 ci
            let ar2 := sp.1
            let newId := sp.2
            match getNode ar2 i, getNode ar2 newId with
            | some n2, some newChild =>
              let parent :=
                { n2 with
                  keys := n2.keys.insertIdx j (newChild.keys.headD 0)
                  children := n2.children.insertIdx (j + 1) newId
                  key_count := n2.key_count + 1 }
              (ar2.set i parent, decide (parent.key_count ≥ MAX_KEYS))
            | _, _ => (ar2, false)
          else
            (ar1, false)

/-- The leftmost-leaf descent of `collect_leaf_records`:
`while (!current->is_leaf && !current->children.empty()) current = children[0]`. -/
def leftmostFrom (ar : Arena) : ℕ → ℕ → ℕ
  | 0, i => i
  | fuel + 1, i =>
    match getNode ar i with
    | none => i
    | some n =>
      if n.is_leaf = false ∧ n.children ≠ [] then
        leftmostFrom ar fuel (n.children.headD 0)
      else
        i

/-- The leaf-chain walk of `collect_leaf_records`: emit the first `key_count`
records of each leaf, then follow `next_leaf`. -/
def walkLeaves (ar : Arena) : ℕ → Option ℕ → List Record
  | 0, _ => []
  | _, none => []
  | fuel + 1, some i =>
    match getNode ar i with
    | none => []
    | some n => n.records.take n.key_count ++ walkLeaves ar fuel n.next_leaf

/-- `BPlusTreeNode::get_all_records` (recursive in-order collection), with
fuel for the arena recursion. -/
def getAllRecords (ar : Arena) : ℕ → ℕ → List Record
  | 0, _ => []
  | fuel + 1, i =>
    match getNode ar i with
    | none => []
    | some n =>
      if n.is_leaf then
        n.records.take n.key_count
      else
        ((n.children.take (n.key_count + 1)).map (getAllRecords ar fuel)).flatten

/-- The database object (`class CustomBPlusDB`).  `db_path_` and the raw
address caches are irrelevant to the verified claims and omitted. -/
structure CustomBPlusDB where
  nodes : Arena
  root : ℕ
  total_records : ℕ
  tree_height : ℕ
  memory_mapped : Bool
  cached_records : List Record
  deriving Repr

/-- A fresh database: a single empty leaf root (`CustomBPlusDB()` /
`create_database`). -/
def emptyDB : CustomBPlusDB :=
  { nodes := [BPlusTreeNode.mkNode true]
    root := 0
    total_records := 0
    tree_height := 1
    memory_mapped := false
    cached_records := [] }

/-- `CustomBPlusDB::collect_leaf_records`. -/
def collectLeafRecords (db : CustomBPlusDB) : List Record :=
  walkLeaves db.nodes db.nodes.length
    (some (leftmostFrom db.nodes db.nodes.length db.root))

/-- `CustomBPlusDB::collect_all_records` (delegates to
`root->get_all_records()`). -/
def collectAllRecords (db : CustomBPlusDB) : List Record :=
  getAllRecords db.nodes db.nodes.length db.root

/-- `CustomBPlusDB::insert_record`.  Returns the updated database and the
boolean result (the source returns `true` unconditionally). -/
def insertRecord (db : CustomBPlusDB) (r : Record) : CustomBPlusDB × Bool :=
  let res := insertIntoNode db.nodes.length db.nodes db.root r
  let db1 :=
    if res.2 then
      let sp := splitNode res.1 db.root
      let newRoot : BPlusTreeNode :=
        { is_leaf := false
          key_count := 1
          subtree_record_count := 0
          keys := [((getNode sp.1 sp.2).getD (BPlusTreeNode.mkNode true)).keys.headD 0]
          records := []
          children := [db.root, sp.2]
          next_leaf := none }
      { db with
        nodes := sp.1 ++ [newRoot]
        root := sp.1.length
        tree_height := db.tree_height + 1 }
    else
      { db with nodes := res.1 }
  let total' := db.total_records + 1
  let db2 := { db1 with total_records := total' }
  let db3 :=
    if total' % 1000 = 0 then
      { db2 with cached_records := collectLeafRecords db2, memory_mapped := true }
    else
      db2
  (db3, true)

/-- The insertion loop of `CustomBPlusDB::insert_batch` (aborts on the first
`false`, which the source can never produce). -/
def insertList (db : CustomBPlusDB) : List Record → CustomBPlusDB × Bool
  | [] => (db, true)
  | r :: rest =>
    let res := insertRecord db r
    if res.2 then insertList res.1 rest else (res.1, false)

/-- `CustomBPlusDB::insert_batch`: sort by `id`, then insert sequentially.
`std::sort` with comparator `a.id < b.id` is modelled by a stable merge sort
producing an `id`-nondecreasing permutation (the C++ sort is unstable, i.e.
unspecified on ties; any `id`-sorted permutation is a faithful model). -/
def insertBatch (db : CustomBPlusDB) (records : List Record) : CustomBPlusDB × Bool :=
  insertList db (records.mergeSort (fun a b => a.id ≤ b.id))

/-- `CustomBPlusDB::get_total_records`. -/
def getTotalRecords (db : CustomBPlusDB) : ℕ := db.total_records

/-- The snapshot file contents written by `save_to_file`: header
`(total_records, tree_height, record_count)` followed by the records.
The byte-level little-endian layout is abstracted into the field values;
`record_count` is the length of `records`. -/
structure SnapshotFile where
  total_records : ℕ
  tree_height : ℕ
  records : List Record

/-- `CustomBPlusDB::save_to_file` (the I/O stream is abstracted to the
written contents; a successful write returns the file). -/
def saveToFile (db : CustomBPlusDB) : SnapshotFile :=
  { total_records := db.total_records
    tree_height := db.tree_height
    records := collectAllRecords db }

/-- `CustomBPlusDB::load_from_file`: reset to a fresh tree, then
`insert_batch` the records read from the file. -/
def loadFromFile (db : CustomBPlusDB) (f : SnapshotFile) : CustomBPlusDB × Bool :=
  let db0 : CustomBPlusDB :=
    { db with
      nodes := [BPlusTreeNode.mkNode true]
      root := 0
      total_records := 0
      tree_height := 1 }
  insertBatch db0 f.records

/-! ## Sampling strategies

Each pointer-based sampler first materializes the leaf sequence
(`collect_leaf_records`) and then works on the vector; the list-level cores
below take that vector as `L`. -/

/-- The stride emission loop shared by the pointer samplers:
`for (size_t i = start; i < endB && samples.size() < target; i += stp)`.
`rem` is the remaining sample budget (`target - samples.size()`). -/
def strideGo (L : List Record) (stp : ℕ) (endB : ℕ) : ℕ → ℕ → List Record
  | 0, _ => []
  | rem + 1, i =>
    if i < endB then L.getD i Record.default0 :: strideGo L stp endB rem (i + stp)
    else []

/-- `CustomBPlusDB::slow_pointer_sample`, list-level core. -/
def slowPointerCore (L : List Record) (sample_percent : ℚ) : List Record :=
  if L = [] then []
  else
    let target_count := cppTrunc ((L.length : ℚ) * sample_percent / 100)
    if target_count = 0 then []
    else
      let step := max 1 (L.length / toUSize target_count)
      strideGo L step L.length (toUSize target_count) 0

/-- `CustomBPlusDB::slow_pointer_sample`. -/
def slowPointerSample (db : CustomBPlusDB) (sample_percent : ℚ) : List Record :=
  slowPointerCore (collectLeafRecords db) sample_percent

/-- `CustomBPlusDB::fast_pointer_sample`, list-level core
(`step = max(1, N/target) * step_size`). -/
def fastPointerCore (L : List Record) (sample_percent : ℚ) (step_size : ℕ) : List Record :=
  if L = [] then []
  else
    let target_count := cppTrunc ((L.length : ℚ) * sample_percent / 100)
    if target_count = 0 then []
    else
      let step := max 1 (L.length / toUSize target_count) * step_size
      strideGo L step L.length (toUSize target_count) 0

/-- `CustomBPlusDB::fast_pointer_sample`. -/
def fastPointerSample (db : CustomBPlusDB) (sample_percent : ℚ) (step_size : ℕ) : List Record :=
  fastPointerCore (collectLeafRecords db) sample_percent step_size

/-- `CustomBPlusDB::dual_pointer_sample`, list-level core.  When
`target_count / 3 == 0` the source divides `all_records.size()` by zero
(`size_t` division), which is undefined behaviour; that path is modelled as
`none`. -/
def dualPointerCore (L : List Record) (sample_percent : ℚ) : Option (List Record) :=
  if L = [] then some []
  else
    let target_count := cppTrunc ((L.length : ℚ) * sample_percent / 100)
    if target_count = 0 then some []
    else
      let fast_target := target_count.tdiv 3
      let slow_target := target_count - fast_target
      if toUSize fast_target = 0 then none
      else
        let fast_step := max 1 (L.length / toUSize fast_target) * 3
        let fastSamples := strideGo L fast_step L.length (toUSize fast_target) 0
        if toUSize slow_target = 0 then none
        else
          let slow_step := max 1 (L.length / toUSize slow_target)
          let offset := fast_step / 2
          let slowSamples :=
            strideGo L slow_step L.length (toUSize target_count - fastSamples.length) offset
          some (fastSamples ++ slowSamples)

/-- `CustomBPlusDB::dual_pointer_sample`. -/
def dualPointerSample (db : CustomBPlusDB) (sample_percent : ℚ) : Option (List Record) :=
  dualPointerCore (collectLeafRecords db) sample_percent

/-- The block emission loop of `block_sample`: visit block `block_idx`,
emit its records subject to the remaining budget, advance by `interval`. -/
def blockGo (L : List Record) (block_size interval total_blocks : ℕ) :
    ℕ → ℕ → ℕ → List Record
  | 0, _, _ => []
  | _ + 1, _, 0 => []
  | fuel + 1, block_idx, rem + 1 =>
    if block_idx < total_blocks then
      let chunk := ((L.drop (block_idx * block_size)).take block_size).take (rem + 1)
      chunk ++ blockGo L block_size interval total_blocks fuel
        (block_idx + interval) (rem + 1 - chunk.length)
    else []

/-- `CustomBPlusDB::block_sample`, list-level core.  A zero `block_size`
makes the source divide by zero (undefined behaviour), modelled as `none`. -/
def blockSampleCore (L : List Record) (sample_percent : ℚ) (block_size : ℕ) :
    Option (List Record) :=
  if L = [] then some []
  else
    let target_count := cppTrunc ((L.length : ℚ) * sample_percent / 100)
    if target_count = 0 then some []
    else if block_size = 0 then none
    else
      let total_blocks := (L.length + block_size - 1) / block_size
      let blocks_to_sample :=
        max 1 (cppTrunc ((total_blocks : ℚ) * sample_percent / 100)).toNat
      let block_interval := max 1 (total_blocks / blocks_to_sample)
      some (blockGo L block_size block_interval total_blocks
        (total_blocks + 1) 0 (toUSize target_count))

/-- `CustomBPlusDB::block_sample`. -/
def blockSample (db : CustomBPlusDB) (sample_percent : ℚ) (block_size : ℕ) :
    Option (List Record) :=
  blockSampleCore (collectLeafRecords db) sample_percent block_size

/-- Insertion into a `std::set<size_t>`: sorted ascending, duplicates ignored. -/
def insertSortedNodup (x : ℕ) : List ℕ → List ℕ
  | [] => [x]
  | y :: ys =>
    if x < y then x :: y :: ys
    else if x = y then y :: ys
    else y :: insertSortedNodup x ys

/-- The draw loop of `random_pointer_sample`:
`while (set.size() < target && set.size() < N) set.insert(dist(rng))`.
The `mt19937` + `uniform_int_distribution` pipeline is modelled by the
seed-determined stream `stream`; each draw lies in `[0, n)` via `% n`.
`fuel` bounds the loop (the C++ loop is not guaranteed to terminate for an
adversarial stream; for any fuel the emitted properties below hold). -/
def randomPositionsGo (stream : ℕ → ℕ) (n tgt : ℕ) : ℕ → ℕ → List ℕ → List ℕ
  | 0, _, acc => acc
  | fuel + 1, k, acc =>
    if acc.length < tgt ∧ acc.length < n then
      randomPositionsGo stream n tgt fuel (k + 1) (insertSortedNodup (stream k % n) acc)
    else acc

/-- `CustomBPlusDB::random_pointer_sample`, list-level core: draw distinct
positions into a `std::set`, then emit the records at those positions in
the set's ascending order. -/
def randomPointerCore (L : List Record) (sample_percent : ℚ) (stream : ℕ → ℕ)
    (fuel : ℕ) : List Record :=
  if L = [] then []
  else
    let target_count := cppTrunc ((L.length : ℚ) * sample_percent / 100)
    if target_count = 0 then []
    else
      let positions := randomPositionsGo stream L.length (toUSize target_count) fuel 0 []
      positions.map (fun pos => L.getD pos Record.default0)

/-- The sorted position set drawn by `random_pointer_sample` (exposed for the
statement of the ordering property). -/
def randomPointerPositions (L : List Record) (sample_percent : ℚ) (stream : ℕ → ℕ)
    (fuel : ℕ) : List ℕ :=
  randomPositionsGo stream L.length (toUSize (cppTrunc ((L.length : ℚ) * sample_percent / 100)))
    fuel 0 []

/-- `CustomBPlusDB::random_pointer_sample`. -/
def randomPointerSample (db : CustomBPlusDB) (sample_percent : ℚ) (stream : ℕ → ℕ)
    (fuel : ℕ) : List Record :=
  randomPointerCore (collectLeafRecords db) sample_percent stream fuel

/-- State of the traversal in `optimized_sequential_sample`. -/
structure OptSeqState where
  current_count : ℕ
  next_point : ℚ
  sampled : List Record
  deriving Repr

/-- The per-leaf loop of `optimized_sequential_sample`: count every record,
emit when the running count passes the next sample point, stop as soon as the
target is reached. -/
def optSeqLeafLoop (step : ℚ) (tgt : ℕ) : List Record → OptSeqState → OptSeqState
  | [], st => st
  | r :: rest, st =>
    let cc := st.current_count + 1
    let hit := (cc : ℚ) ≥ st.next_point ∧ st.sampled.length < tgt
    let st' : OptSeqState :=
      if hit then ⟨cc, st.next_point + step, st.sampled ++ [r]⟩
      else ⟨cc, st.next_point, st.sampled⟩
    if st'.sampled.length ≥ tgt then st' else optSeqLeafLoop step tgt rest st'

mutual
/-- The recursive lambda `traverse_and_sample` of
`optimized_sequential_sample`. -/
def optSeqTraverse : ℕ → Arena → ℚ → ℕ → ℕ → OptSeqState → OptSeqState
  | 0, _, _, _, _, st => st
  | fuel + 1, ar, step, tgt, i, st =>
    match getNode ar i with
    | none => st
    | some n =>
      if n.is_leaf then optSeqLeafLoop step tgt n.records st
      else optSeqChildren fuel ar step tgt n.children st
termination_by fuel _ _ _ _ _ => (fuel, 0)

/-- Child iteration of `traverse_and_sample`, with the early-exit check after
each child. -/
def optSeqChildren : ℕ → Arena → ℚ → ℕ → List ℕ → OptSeqState → OptSeqState
  | _, _, _, _, [], st => st
  | fuel, ar, step, tgt, c :: rest, st =>
    let st' := optSeqTraverse fuel ar step tgt c st
    if st'.sampled.length ≥ tgt then st'
    else optSeqChildren fuel ar step tgt rest st'
termination_by fuel _ _ _ cs _ => (fuel, cs.length + 1)
end

/-- `CustomBPlusDB::optimized_sequential_sample`.  `start_offset` stands for
the `std::random_device`-seeded draw `dis(gen) ∈ [0, step)`. -/
def optimizedSequentialSample (db : CustomBPlusDB) (sample_percent : ℚ)
    (start_offset : ℚ) : List Record :=
  if sample_percent ≥ 100 then collectAllRecords db
  else if sample_percent ≤ 0 then []
  else
    let total_count := getTotalRecords db
    let target_samples := (cppTrunc ((total_count : ℚ) * sample_percent / 100)).toNat
    if target_samples = 0 then []
    else
      let step := 100 / sample_percent
      (optSeqTraverse db.nodes.length db.nodes step target_samples db.root
        ⟨0, start_offset, []⟩).sampled

/-! ## The multithreaded memory-stride partition (CLT controller ranges) -/

/-- The per-worker range computed by `multithreaded_memory_stride_sample` and
`fast_aggregated_memory_stride_sum`:
`region_start = t * region_size`, size `region_size + (t < remainder ? 1 : 0)`,
end clamped to `total_rows`. -/
def regionRange (total_rows num_threads t : ℕ) : ℕ × ℕ :=
  let region_size := total_rows / num_threads
  let remaining_rows := total_rows % num_threads
  let region_start := t * region_size
  let thread_region_size := region_size + if t < remaining_rows then 1 else 0
  let region_end := region_start + thread_region_size
  (region_start, if region_end > total_rows then total_rows else region_end)

/-- The record sequence the stride workers read: the cached materialization if
initialized, else a fresh `collect_leaf_records`. -/
def mmapRecords (db : CustomBPlusDB) : List Record :=
  if db.memory_mapped = false ∨ db.cached_records = [] then collectLeafRecords db
  else db.cached_records

/-- Worker `t` of the two memory-stride functions: range, per-region target at
`sample_percent / num_threads`, random start within a bounded prefix
(`starts t` models the `std::random_device` draw), stride emission. -/
def strideWorkerSamples (L : List Record) (sample_percent : ℚ) (num_threads : ℕ)
    (starts : ℕ → ℕ) (t : ℕ) : List Record :=
  let total_rows := L.length
  let se := regionRange total_rows num_threads t
  if se.1 ≥ total_rows then []
  else
    let region_total := se.2 - se.1
    let per_thread_percent := sample_percent / (num_threads : ℚ)
    let target_samples := (cppTrunc ((region_total : ℚ) * per_thread_percent / 100)).toNat
    if target_samples = 0 then []
    else
      let thread_start := se.1 + starts t % (min (region_total / 10) 100 + 1)
      let stride := max 1 (region_total / target_samples)
      strideGo L stride se.2 target_samples thread_start

/-- `CustomBPlusDB::multithreaded_memory_stride_sample` (worker results are
concatenated in thread order by the join loop). -/
def multithreadedMemoryStrideSample (db : CustomBPlusDB) (sample_percent : ℚ)
    (num_threads : ℕ) (starts : ℕ → ℕ) : List Record :=
  let L := mmapRecords db
  if L = [] then []
  else ((List.range num_threads).map
    (strideWorkerSamples L sample_percent num_threads starts)).flatten

/-- `CustomBPlusDB::fast_aggregated_memory_stride_sum`: the same per-worker
stride walk, but summing `amount` directly into atomic accumulators. -/
def fastAggregatedMemoryStrideSum (db : CustomBPlusDB) (sample_percent : ℚ)
    (num_threads : ℕ) (starts : ℕ → ℕ) : ℚ :=
  let L := mmapRecords db
  if L = [] then 0
  else
    let perThread := (List.range num_threads).map
      (strideWorkerSamples L sample_percent num_threads starts)
    let total_count := (perThread.map List.length).sum
    let total_sum := (perThread.map (fun s => (s.map Record.amount).sum)).sum
    if total_count > 0 then total_sum else 0

/-! ## Scheduler façade (`custom_scheduler.cpp`) -/

/-- `CustomBPlusDB::sample_records` (random shuffle sampling).  The
`std::random_device`-seeded shuffle is the oracle `shuffle`. -/
def sampleRecords (db : CustomBPlusDB) (shuffle : List Record → List Record)
    (sample_percent : ℚ) : List Record :=
  let all_records := collectAllRecords db
  if all_records = [] ∨ sample_percent ≥ 100 then all_records
  else
    let sample_size := (cppTrunc ((all_records.length : ℚ) * sample_percent / 100)).toNat
    (shuffle all_records).take (min sample_size all_records.length)

/-- `CustomBPlusDB::partition_records_for_threads` (round-robin by index). -/
def partitionRecordsForThreads (records : List Record) (num_threads : ℕ) :
    List (List Record) :=
  (List.range num_threads).map fun t =>
    ((records.enum.filter fun p => p.1 % num_threads = t).map fun p => p.2)

/-- `CustomBPlusDB::parallel_sum_sample`: per-partition sums, combined and
scaled by `100 / sample_percent`. -/
def parallelSumSample (db : CustomBPlusDB) (shuffle : List Record → List Record)
    (sample_percent : ℚ) (num_threads : ℕ) : ℚ :=
  let sampled_records := sampleRecords db shuffle sample_percent
  if sampled_records = [] then 0
  else
    let partitions := partitionRecordsForThreads sampled_records num_threads
    let total_sum := (partitions.map (fun part => (part.map Record.amount).sum)).sum
    total_sum * (100 / sample_percent)

/-- `CustomBPlusDB::parallel_avg_sample`. -/
def parallelAvgSample (db : CustomBPlusDB) (shuffle : List Record → List Record)
    (sample_percent : ℚ) (num_threads : ℕ) : ℚ :=
  let sum := parallelSumSample db shuffle sample_percent num_threads
  let total := getTotalRecords db
  if total > 0 then sum / (total : ℚ) else 0

/-- `CustomBPlusDB::parallel_count_sample`. -/
def parallelCountSample (db : CustomBPlusDB) (shuffle : List Record → List Record)
    (sample_percent : ℚ) (num_threads : ℕ) : ℕ :=
  let sampled_records := sampleRecords db shuffle sample_percent
  (cppTrunc ((sampled_records.length : ℚ) * (100 / sample_percent))).toNat

/-- `CustomBPlusDB::parallel_sum_where_sample`. -/
def parallelSumWhereSample (db : CustomBPlusDB) (shuffle : List Record → List Record)
    (min_amount max_amount sample_percent : ℚ) (num_threads : ℕ) : ℚ :=
  let sampled_records := sampleRecords db shuffle sample_percent
  if sampled_records = [] then 0
  else
    let partitions := partitionRecordsForThreads sampled_records num_threads
    let total_sum := (partitions.map (fun part =>
      ((part.filter fun r => min_amount ≤ r.amount ∧ r.amount ≤ max_amount).map
        Record.amount).sum)).sum
    total_sum * (100 / sample_percent)

/-- `CustomApproximationStatus`. -/
inductive CustomApproximationStatus where
  | STABLE
  | DRIFTING
  | INSUFFICIENT_DATA
  | ERROR
  deriving DecidableEq, Repr

/-- `CustomValidationResult` (without the wall-clock field). -/
structure CustomValidationResult where
  value : ℚ
  status : CustomApproximationStatus
  confidence_level : ℚ
  error_margin : ℚ
  samples_used : ℤ
  deriving Repr

/-- `CustomApproximateScheduler::calculate_confidence_level`. -/
def calculateConfidenceLevel (sample_percent : ℚ) (total_records : ℕ) : ℚ :=
  let sample_size := (total_records : ℚ) * sample_percent / 100
  if sample_size ≥ 1000 then 95 / 100
  else if sample_size ≥ 500 then 90 / 100
  else if sample_size ≥ 100 then 85 / 100
  else if sample_size ≥ 50 then 80 / 100
  else 70 / 100

/-- `CustomApproximateScheduler::execute_sum_query`.  `where_conditions`
stands for the pair returned by `extract_where_conditions` on the query text
(`(-1, -1)` when no recognized WHERE clause is present); the regex parsing
itself is outside the modelled boundary.  The try-body is total in the model,
so the catch branch (status `ERROR`) is unreachable. -/
def executeSumQuery (db : CustomBPlusDB) (shuffle : List Record → List Record)
    (where_conditions : ℚ × ℚ) (sample_percent : ℚ) (num_threads : ℕ) :
    CustomValidationResult :=
  let sum_result :=
    if where_conditions.1 ≠ -1 ∧ where_conditions.2 ≠ -1 then
      parallelSumWhereSample db shuffle where_conditions.1 where_conditions.2
        sample_percent num_threads
    else
      parallelSumSample db shuffle sample_percent num_threads
  { value := sum_result
    status := .STABLE
    confidence_level := calculateConfidenceLevel sample_percent (getTotalRecords db)
    error_margin := sample_percent / 100
    samples_used := cppTrunc ((getTotalRecords db : ℚ) * sample_percent / 100) }

/-- `CustomApproximateScheduler::execute_avg_query`. -/
def executeAvgQuery (db : CustomBPlusDB) (shuffle : List Record → List Record)
    (sample_percent : ℚ) (num_threads : ℕ) : CustomValidationResult :=
  { value := parallelAvgSample db shuffle sample_percent num_threads
    status := .STABLE
    confidence_level := calculateConfidenceLevel sample_percent (getTotalRecords db)
    error_margin := sample_percent / 100
    samples_used := cppTrunc ((getTotalRecords db : ℚ) * sample_percent / 100) }

/-- `CustomApproximateScheduler::execute_count_query`. -/
def executeCountQuery (db : CustomBPlusDB) (shuffle : List Record → List Record)
    (sample_percent : ℚ) (num_threads : ℕ) : CustomValidationResult :=
  { value := (parallelCountSample db shuffle sample_percent num_threads : ℚ)
    status := .STABLE
    confidence_level := calculateConfidenceLevel sample_percent (getTotalRecords db)
    error_margin := sample_percent / 100
    samples_used := cppTrunc ((getTotalRecords db : ℚ) * sample_percent / 100) }

/-! ## Executor confidence-interval path (`executor.cpp`) -/

/-- The aggregate kinds for which `execute_query_with_ci` computes a CI. -/
inductive AggKind where
  | SUM
  | AVG
  deriving DecidableEq, Repr

/-- `executor.cpp`: the sample mean `sum / count` computed by
`execute_query_with_ci`. -/
def ciMean (count sum : ℚ) : ℚ := sum / count

/-- `executor.cpp`: `variance = (sum_sq - (sum * sum / count)) / (count - 1)`. -/
def ciVariance (count sum sum_sq : ℚ) : ℚ :=
  (sum_sq - sum * sum / count) / (count - 1)

/-- The estimate (first component) returned by `execute_query_with_ci` when
`count ≥ 2`: the sample mean, multiplied by `scale = 100 / sample_percent`
for `SUM` queries. -/
def ciEstimate (agg : AggKind) (sample_percent count sum : ℚ) : ℚ :=
  if agg = AggKind.SUM then ciMean count sum * (100 / sample_percent)
  else ciMean count sum

/-- The estimate the specification prescribes for a sampled `SUM`:
the sampled sum scaled by `100 / p`.  (Written from the spec text
`SUM(x) estimate = (Σ_{r∈S} x(r)) · (100/p)`, for comparison with
`ciEstimate`.) -/
def specSumEstimate (sample_percent sum : ℚ) : ℚ :=
  sum * (100 / sample_percent)

/-! ## Basic facts about the numeric conversions -/

/-- For a nonnegative value, C++ truncation toward zero agrees with `⌊·⌋`. -/
theorem cppTrunc_eq_floor_of_nonneg (q : ℚ) (h : 0 ≤ q) : cppTrunc q = ⌊q⌋ := by
  rw [cppTrunc, Rat.floor_def]
  exact Int.tdiv_eq_ediv (Rat.num_nonneg.mpr h) (by positivity)

theorem cppTrunc_zero : cppTrunc 0 = 0 := by
  rw [cppTrunc_eq_floor_of_nonneg 0 le_rfl]
  norm_num

/-! ## Evaluation of the façade on the empty tree -/

theorem collectAllRecords_emptyDB : collectAllRecords emptyDB = [] := rfl

theorem getTotalRecords_emptyDB : getTotalRecords emptyDB = 0 := rfl

theorem sampleRecords_emptyDB (shuffle : List Record → List Record)
    (sample_percent : ℚ) : sampleRecords emptyDB shuffle sample_percent = [] := by
  unfold sampleRecords
  rw [collectAllRecords_emptyDB]
  simp

theorem parallelSumSample_emptyDB (shuffle : List Record → List Record)
    (p : ℚ) (T : ℕ) : parallelSumSample emptyDB shuffle p T = 0 := by
  unfold parallelSumSample
  rw [sampleRecords_emptyDB]
  simp

theorem parallelSumWhereSample_emptyDB (shuffle : List Record → List Record)
    (lo hi p : ℚ) (T : ℕ) : parallelSumWhereSample emptyDB shuffle lo hi p T = 0 := by
  unfold parallelSumWhereSample
  rw [sampleRecords_emptyDB]
  simp

theorem parallelAvgSample_emptyDB (shuffle : List Record → List Record)
    (p : ℚ) (T : ℕ) : parallelAvgSample emptyDB shuffle p T = 0 := by
  unfold parallelAvgSample
  simp [getTotalRecords_emptyDB]

theorem parallelCountSample_emptyDB (shuffle : List Record → List Record)
    (p : ℚ) (T : ℕ) : parallelCountSample emptyDB shuffle p T = 0 := by
  unfold parallelCountSample
  rw [sampleRecords_emptyDB]
  simp [cppTrunc_zero]

/-- C4 (amended).  Any approximate query on an empty tree succeeds with
`value = 0` and status `STABLE` (not `INSUFFICIENT_DATA` as the claim
states): the scheduler's try-body cannot fail on the empty tree, and its
success branch unconditionally assigns `STABLE`. -/
theorem emptyTree_query_value_zero_status_stable
    (shuffle : List Record → List Record) (wc : ℚ × ℚ) (p : ℚ) (T : ℕ)
    (hp : 0 < p) :
    ((executeSumQuery emptyDB shuffle wc p T).value = 0 ∧
      (executeSumQuery emptyDB shuffle wc p T).status = .STABLE) ∧
    ((executeAvgQuery emptyDB shuffle p T).value = 0 ∧
      (executeAvgQuery emptyDB shuffle p T).status = .STABLE) ∧
    ((executeCountQuery emptyDB shuffle p T).value = 0 ∧
      (executeCountQuery emptyDB shuffle p T).status = .STABLE) := by
  refine ⟨⟨?_, rfl⟩, ⟨?_, rfl⟩, ⟨?_, rfl⟩⟩
  · show (if wc.1 ≠ -1 ∧ wc.2 ≠ -1 then _ else _) = 0
    rw [parallelSumWhereSample_emptyDB, parallelSumSample_emptyDB]
    simp
  · exact parallelAvgSample_emptyDB shuffle p T
  · show ((parallelCountSample emptyDB shuffle p T : ℕ) : ℚ) = 0
    rw [parallelCountSample_emptyDB]
    norm_num

/-- C4 (counterexample to the claim as stated): on the empty tree the
returned status is `STABLE`, which is not `INSUFFICIENT_DATA`. -/
theorem emptyTree_status_not_insufficient :
    (executeSumQuery emptyDB (fun L => L) (-1, -1) 10 4).status =
      CustomApproximationStatus.STABLE ∧
    CustomApproximationStatus.STABLE ≠ CustomApproximationStatus.INSUFFICIENT_DATA := by
  exact ⟨rfl, by simp⟩

/-- Witness for `emptyTree_query_value_zero_status_stable` at `p = 10`. -/
theorem emptyTree_query_value_zero_status_stable_witness :
    (0 : ℚ) < 10 ∧
    ((executeSumQuery emptyDB (fun L => L) (-1, -1) 10 4).value = 0 ∧
      (executeSumQuery emptyDB (fun L => L) (-1, -1) 10 4).status = .STABLE) :=
  ⟨by norm_num,
    (emptyTree_query_value_zero_status_stable (fun L => L) (-1, -1) 10 4
      (by norm_num)).1⟩

/-! ## C9: insertion never reports failure -/

theorem insertList_snd_true (l : List Record) (db : CustomBPlusDB) :
    (insertList db l).2 = true := by
  induction l generalizing db with
  | nil => rfl
  | cons r rest ih =>
      show (let res := insertRecord db r;
        if res.2 then insertList res.1 rest else (res.1, false)).2 = true
      simp only [insertRecord]
      exact ih _

/-- C9.  `insert_record` returns `true` for every record (duplicates
included), hence `insert_batch` returns `true` for every list. -/
theorem insert_always_reports_success :
    (∀ (db : CustomBPlusDB) (r : Record), (insertRecord db r).2 = true) ∧
    (∀ (db : CustomBPlusDB) (l : List Record), (insertBatch db l).2 = true) :=
  ⟨fun _ _ => rfl, fun db l => insertList_snd_true _ db⟩

/-! ## C7: the multithreaded stride partition -/

/-- C7 (failing input).  With `total_rows = 5` and `num_threads = 2` the
per-worker ranges computed by `multithreaded_memory_stride_sample` /
`fast_aggregated_memory_stride_sum` are `[0, 3)` and `[2, 4)`: index `2`
belongs to both workers (overlap) and index `4` belongs to no worker
(the last `total_rows % num_threads` records are never covered), refuting
the claimed non-overlapping exact partition. -/
theorem regionRange_overlap_and_gap :
    regionRange 5 2 0 = (0, 3) ∧
    regionRange 5 2 1 = (2, 4) ∧
    ((regionRange 5 2 0).1 ≤ 2 ∧ 2 < (regionRange 5 2 0).2) ∧
    ((regionRange 5 2 1).1 ≤ 2 ∧ 2 < (regionRange 5 2 1).2) ∧
    (¬ ((regionRange 5 2 0).1 ≤ 4 ∧ 4 < (regionRange 5 2 0).2)) ∧
    (¬ ((regionRange 5 2 1).1 ≤ 4 ∧ 4 < (regionRange 5 2 1).2)) := by
  decide

/-! ## C3: the executor's confidence-interval estimate -/

/-- C3 (failing input).  For a `SUM` query over the sample `{1.0, 3.0}` at
`sample_percent = 50` (so `count = 2`, `sum = 4`), `execute_query_with_ci`
returns the scaled sample mean `(4/2)·(100/50) = 4` as its estimate, while
the specification's estimate is the scaled sample sum `4·(100/50) = 8`. -/
theorem ciEstimate_is_scaled_mean_not_scaled_sum :
    ciEstimate AggKind.SUM 50 2 4 = 4 ∧
    specSumEstimate 50 4 = 8 ∧
    ciEstimate AggKind.SUM 50 2 4 ≠ specSumEstimate 50 4 := by
  refine ⟨?_, ?_, ?_⟩ <;> norm_num [ciEstimate, ciMean, specSumEstimate]

/-! ## C10: `samples_used` and `error_margin` come from the requested rate -/

/-- C10.  On the (always successful) approximate path, `samples_used` is
`⌊total_records · p / 100⌋` and `error_margin` is `p / 100`, computed from
the requested rate and the total record count — independent of the records
the sampler actually drew (both fields ignore the sampler and the shuffle). -/
theorem samples_used_and_error_margin_from_rate
    (db : CustomBPlusDB) (shuffle : List Record → List Record)
    (wc : ℚ × ℚ) (p : ℚ) (T : ℕ) (hp : 0 ≤ p) :
    ((executeSumQuery db shuffle wc p T).samples_used =
        ⌊(getTotalRecords db : ℚ) * p / 100⌋ ∧
      (executeSumQuery db shuffle wc p T).error_margin = p / 100) ∧
    ((executeCountQuery db shuffle p T).samples_used =
        ⌊(getTotalRecords db : ℚ) * p / 100⌋ ∧
      (executeCountQuery db shuffle p T).error_margin = p / 100) := by
  have hfl : cppTrunc ((getTotalRecords db : ℚ) * p / 100) =
      ⌊(getTotalRecords db : ℚ) * p / 100⌋ :=
    cppTrunc_eq_floor_of_nonneg _ (by positivity)
  exact ⟨⟨hfl, rfl⟩, ⟨hfl, rfl⟩⟩

/-- Witness for `samples_used_and_error_margin_from_rate` at the empty tree
and `p = 10`. -/
theorem samples_used_and_error_margin_from_rate_witness :
    (0 : ℚ) ≤ 10 ∧
    ((executeSumQuery emptyDB (fun L => L) (-1, -1) 10 4).samples_used =
        ⌊(getTotalRecords emptyDB : ℚ) * 10 / 100⌋ ∧
      (executeSumQuery emptyDB (fun L => L) (-1, -1) 10 4).error_margin = 10 / 100) :=
  ⟨by norm_num,
    (samples_used_and_error_margin_from_rate emptyDB (fun L => L) (-1, -1) 10 4
      (by norm_num)).1⟩

/-! ## Characterisation of the scan loops -/

theorem List.map_insertIdx' {α β : Type _} (f : α → β) (a : α) :
    ∀ (n : ℕ) (l : List α), n ≤ l.length →
      (l.insertIdx n a).map f = (l.map f).insertIdx n (f a)
  | 0, l, _ => by simp
  | n + 1, [], h => by simp at h
  | n + 1, x :: l, h => by
      simp only [List.insertIdx_succ_cons, List.map_cons]
      rw [List.map_insertIdx' f a n l (by simpa using h)]

theorem insertIdx_takeWhile_length {α : Type _} (p : α → Bool) (a : α) :
    ∀ l : List α, l.insertIdx (l.takeWhile p).length a =
      l.takeWhile p ++ a :: l.dropWhile p
  | [] => by simp
  | x :: l => by
      by_cases hx : p x
      · simp only [List.takeWhile_cons_of_pos hx, List.dropWhile_cons_of_pos hx,
          List.length_cons, List.insertIdx_succ_cons]
        rw [insertIdx_takeWhile_length p a l]
        simp
      · simp [List.takeWhile_cons_of_neg hx, List.dropWhile_cons_of_neg hx]

theorem lowerBoundFrom_eq_takeWhile (keys : List Int) (id : Int) :
    ∀ i, i ≤ keys.length →
      lowerBoundFrom keys keys.length id i =
        i + ((keys.drop i).takeWhile (fun k => k < id)).length := by
  intro i
  generalize hgen : keys.length - i = fuel
  induction fuel generalizing i with
  | zero =>
      intro hi
      have hi' : i = keys.length := by omega
      subst hi'
      rw [lowerBoundFrom]
      simp
  | succ m ih =>
      intro hi
      have hlt : i < keys.length := by omega
      rw [lowerBoundFrom]
      have hdrop : keys.drop i = keys[i] :: keys.drop (i + 1) :=
        List.drop_eq_getElem_cons hlt
      have hgetD : keys.getD i 0 = keys[i] := List.getD_eq_getElem keys 0 hlt
      by_cases hk : keys[i] < id
      · rw [dif_pos ⟨hlt, by rw [hgetD]; exact hk⟩]
        rw [ih (i + 1) (by omega) (by omega)]
        rw [hdrop, List.takeWhile_cons_of_pos (by simpa using hk)]
        simp
        omega
      · rw [dif_neg (by rw [hgetD]; tauto)]
        rw [hdrop, List.takeWhile_cons_of_neg (by simpa using hk)]
        simp

/-- The leaf insertion position: `lower_bound` inserts exactly where
`List.orderedInsert (· ≤ ·)` does. -/
theorem insertIdx_lowerBound_eq_orderedInsert (keys : List Int) (id : Int) :
    keys.insertIdx (lowerBound keys keys.length id) id =
      List.orderedInsert (· ≤ ·) id keys := by
  rw [lowerBound, lowerBoundFrom_eq_takeWhile keys id 0 (by omega)]
  simp only [List.drop_zero, Nat.zero_add]
  rw [insertIdx_takeWhile_length, List.orderedInsert_eq_take_drop]
  have : (fun b : Int => decide ¬ id ≤ b) = (fun k : Int => decide (k < id)) := by
    funext b
    simp [not_le]
  rw [this]

/-- The `lower_bound` position is within the list. -/
theorem lowerBound_le_length (keys : List Int) (id : Int) :
    lowerBound keys keys.length id ≤ keys.length := by
  rw [lowerBound, lowerBoundFrom_eq_takeWhile keys id 0 (by omega)]
  simp only [List.drop_zero, Nat.zero_add]
  exact (List.takeWhile_sublist _).length_le

/-- If every scanned key is at most `id`, the descent loop runs to
`key_count` (the rightmost child). -/
theorem descendFrom_eq_of_all_le (keys : List Int) (kc : ℕ) (id : Int)
    (hall : ∀ m, m < kc → keys.getD m 0 ≤ id) :
    ∀ i, i ≤ kc → descendFrom keys kc id i = kc := by
  intro i
  generalize hgen : kc - i = fuel
  induction fuel generalizing i with
  | zero =>
      intro hi
      have : i = kc := by omega
      subst this
      rw [descendFrom]
      simp
  | succ m ih =>
      intro hi
      have hlt : i < kc := by omega
      rw [descendFrom]
      rw [dif_pos ⟨hlt, hall i hlt⟩]
      exact ih (i + 1) (by omega) (by omega)

/-- General characterisation of the descent loop. -/
theorem descendFrom_spec (keys : List Int) (kc : ℕ) (id : Int) :
    ∀ i, i ≤ kc →
      i ≤ descendFrom keys kc id i ∧ descendFrom keys kc id i ≤ kc ∧
      (∀ m, i ≤ m → m < descendFrom keys kc id i → keys.getD m 0 ≤ id) ∧
      (descendFrom keys kc id i < kc → id < keys.getD (descendFrom keys kc id i) 0) := by
  intro i
  generalize hgen : kc - i = fuel
  induction fuel generalizing i with
  | zero =>
      intro hi
      have : i = kc := by omega
      subst this
      rw [descendFrom]
      simp only [lt_self_iff_false, false_and, dite_false]
      exact ⟨le_rfl, le_rfl, fun m h1 h2 => by omega, fun h => h.elim⟩
  | succ m ih =>
      intro hi
      have hlt : i < kc := by omega
      rw [descendFrom]
      by_cases hk : id ≥ keys.getD i 0
      · rw [dif_pos ⟨hlt, hk⟩]
        obtain ⟨h1, h2, h3, h4⟩ := ih (i + 1) (by omega) (by omega)
        refine ⟨by omega, h2, ?_, h4⟩
        intro m hm1 hm2
        rcases Nat.eq_or_lt_of_le hm1 with h | h
        · subst h
          exact hk
        · exact h3 m h hm2
      · rw [dif_neg (by tauto)]
        exact ⟨le_rfl, by omega, fun m h1 h2 => by omega,
          fun _ => lt_of_not_ge hk⟩

/-! ## The tree representation invariant

`RepN ar i ids lvs rs` states that arena index `i` roots a well-formed
subtree whose node ids (in preorder) are `ids`, whose leaf ids in in-order
are `lvs`, and whose in-order record sequence is `rs`.  It captures exactly
the structural facts maintained by `insert_record`; deliberately, it contains
no key-separator conditions between siblings (the source's internal split
does not preserve them — see the analysis at `Inv2` below). -/

/-- The forward leaf-chain pointer at arena index `a`. -/
def nextOf (ar : Arena) (a : ℕ) : Option ℕ :=
  match getNode ar a with
  | some n => n.next_leaf
  | none => none

/-- Well-formedness of a leaf node object: counts agree with the vectors,
keys mirror the record ids, and the keys are nondecreasing. -/
def LeafShape (n : BPlusTreeNode) : Prop :=
  n.is_leaf = true ∧ n.key_count = n.keys.length ∧
  n.records.length = n.keys.length ∧ n.keys = n.records.map Record.id ∧
  List.Sorted (· ≤ ·) n.keys

/-- Every key of an internal node is bounded by the id of some record of the
subtree (all separator keys are copies of record ids). -/
def KeysLe (keys : List Int) (rs : List Record) : Prop :=
  ∀ k ∈ keys, ∃ r ∈ rs, k ≤ r.id
mutual
inductive RepN : Arena → ℕ → List ℕ → List ℕ → List Record → List Int → Prop
  | leaf (ar : Arena) (i : ℕ) (n : BPlusTreeNode)
      (hget : getNode ar i = some n)
      (hshape : LeafShape n)
      (hcap : n.keys.length < MAX_KEYS) :
      RepN ar i [i] [i] n.records n.keys
  | internal (ar : Arena) (i : ℕ) (n : BPlusTreeNode) (ids' lvs : List ℕ)
      (rs : List Record) (ks : List Int)
      (hget : getNode ar i = some n)
      (hleaf : n.is_leaf = false)
      (hkc : n.key_count = n.keys.length)
      (hcl : n.children.length = n.keys.length + 1)
      (hcap : n.keys.length < MAX_KEYS)
      (hch : RepChildren ar n.children ids' lvs rs ks)
      (hnd : (i :: ids').Nodup) :
      RepN ar i (i :: ids') lvs rs (n.keys ++ ks)

inductive RepChildren : Arena → List ℕ → List ℕ → List ℕ → List Record → List Int → Prop
  | nil (ar : Arena) : RepChildren ar [] [] [] [] []
  | cons (ar : Arena) (c : ℕ) (cs : List ℕ) (ids1 lvs1 ids2 lvs2 : List ℕ)
      (rs1 rs2 : List Record) (ks1 ks2 : List Int)
      (h1 : RepN ar c ids1 lvs1 rs1 ks1)
      (h2 : RepChildren ar cs ids2 lvs2 rs2 ks2) :
      RepChildren ar (c :: cs) (ids1 ++ ids2) (lvs1 ++ lvs2) (rs1 ++ rs2) (ks1 ++ ks2)
end

theorem RepN.ids_ne_nil {ar i ids lvs rs ks} (h : RepN ar i ids lvs rs ks) :
    ids ≠ [] := by
  cases h <;> simp

theorem RepN.ids_length_pos {ar i ids lvs rs ks} (h : RepN ar i ids lvs rs ks) :
    1 ≤ ids.length := by
  cases h <;> simp

/-- Joint induction principle for the mutual pair `RepN` / `RepChildren`
(by strong induction on a size measure; the `induction` tactic does not
handle mutual inductives directly). -/
theorem rep_mutual_ind
    (motive1 : Arena → ℕ → List ℕ → List ℕ → List Record → List Int → Prop)
    (motive2 : Arena → List ℕ → List ℕ → List ℕ → List Record → List Int → Prop)
    (hleaf : ∀ ar i n, getNode ar i = some n → LeafShape n →
        n.keys.length < MAX_KEYS → motive1 ar i [i] [i] n.records n.keys)
    (hinternal : ∀ ar i n ids' lvs rs ks, getNode ar i = some n → n.is_leaf = false →
        n.key_count = n.keys.length → n.children.length = n.keys.length + 1 →
        n.keys.length < MAX_KEYS →
        RepChildren ar n.children ids' lvs rs ks → (i :: ids').Nodup →
        motive2 ar n.children ids' lvs rs ks →
        motive1 ar i (i :: ids') lvs rs (n.keys ++ ks))
    (hnil : ∀ ar, motive2 ar [] [] [] [] [])
    (hcons : ∀ ar c cs ids1 lvs1 ids2 lvs2 rs1 rs2 ks1 ks2,
        RepN ar c ids1 lvs1 rs1 ks1 → RepChildren ar cs ids2 lvs2 rs2 ks2 →
        motive1 ar c ids1 lvs1 rs1 ks1 → motive2 ar cs ids2 lvs2 rs2 ks2 →
        motive2 ar (c :: cs) (ids1 ++ ids2) (lvs1 ++ lvs2) (rs1 ++ rs2) (ks1 ++ ks2)) :
    (∀ ar i ids lvs rs ks, RepN ar i ids lvs rs ks → motive1 ar i ids lvs rs ks) ∧
    (∀ ar cs ids lvs rs ks, RepChildren ar cs ids lvs rs ks →
      motive2 ar cs ids lvs rs ks) := by
  have key : ∀ M : ℕ,
      (∀ ar i ids lvs rs ks, 2 * ids.length ≤ M → RepN ar i ids lvs rs ks →
        motive1 ar i ids lvs rs ks) ∧
      (∀ ar cs ids lvs rs ks, 2 * ids.length + 1 ≤ M →
        RepChildren ar cs ids lvs rs ks → motive2 ar cs ids lvs rs ks) := by
    intro M
    induction M using Nat.strong_induction_on with
    | _ M ih =>
        constructor
        · intro ar i ids lvs rs ks hlen h
          cases h with
          | leaf i n hget hshape hcap => exact hleaf ar i n hget hshape hcap
          | internal i n ids2 lvsDrop rsDrop ksDrop hget hl hkc hcl hcap hch hnd =>
              have hM : 2 * ids2.length + 1 < M := by
                simp only [List.length_cons] at hlen
                omega
              exact hinternal ar i n ids2 lvs rs _ hget hl hkc hcl hcap hch hnd
                (((ih _ hM).2) ar n.children ids2 lvs rs _ le_rfl hch)
        · intro ar cs ids lvs rs ks hlen h
          cases h with
          | nil => exact hnil ar
          | cons c cs' ids1 lvs1 ids2 lvs2 rs1 rs2 ks1 ks2 h1 h2 =>
              have hpos : 1 ≤ ids1.length := h1.ids_length_pos
              have hM1 : 2 * ids1.length < M := by
                simp only [List.length_append] at hlen
                omega
              have hM2 : 2 * ids2.length + 1 < M := by
                simp only [List.length_append] at hlen
                omega
              exact hcons ar c cs' ids1 lvs1 ids2 lvs2 rs1 rs2 ks1 ks2 h1 h2
                (((ih _ hM1).1) ar c ids1 lvs1 rs1 ks1 le_rfl h1)
                (((ih _ hM2).2) ar cs' ids2 lvs2 rs2 ks2 le_rfl h2)
  exact ⟨fun ar i ids lvs rs ks h =>
      (key (2 * ids.length)).1 ar i ids lvs rs ks le_rfl h,
    fun ar cs ids lvs rs ks h =>
      (key (2 * ids.length + 1)).2 ar cs ids lvs rs ks le_rfl h⟩

/-- Every id mentioned by the representation is a valid arena index. -/
theorem rep_ids_bound :
    (∀ ar i ids lvs rs ks, RepN ar i ids lvs rs ks → ∀ j ∈ ids, j < ar.length) ∧
    (∀ ar cs ids lvs rs ks, RepChildren ar cs ids lvs rs ks →
      ∀ j ∈ ids, j < ar.length) := by
  refine rep_mutual_ind
    (fun ar _ ids _ _ _ => ∀ j ∈ ids, j < ar.length)
    (fun ar _ ids _ _ _ => ∀ j ∈ ids, j < ar.length) ?_ ?_ ?_ ?_
  · intro ar i n hget _ _ j hj
    simp only [List.mem_singleton] at hj
    subst hj
    exact (List.getElem?_eq_some_iff.mp hget).1
  · intro ar i n ids' lvs rs ks hget _ _ _ _ _ _ ih j hj
    rcases List.mem_cons.mp hj with h | h
    · subst h
      exact (List.getElem?_eq_some_iff.mp hget).1
    · exact ih j h
  · intro ar j hj
    simp at hj
  · intro ar c cs ids1 lvs1 ids2 lvs2 rs1 rs2 ks1 ks2 _ _ ih1 ih2 j hj
    rcases List.mem_append.mp hj with h | h
    · exact ih1 j h
    · exact ih2 j h

/-- The in-order leaf id list is a sublist of the id list (hence inherits
distinctness). -/
theorem rep_lvs_sublist :
    (∀ ar i ids lvs rs ks, RepN ar i ids lvs rs ks → lvs.Sublist ids) ∧
    (∀ ar cs ids lvs rs ks, RepChildren ar cs ids lvs rs ks → lvs.Sublist ids) := by
  refine rep_mutual_ind
    (fun _ _ ids lvs _ _ => lvs.Sublist ids)
    (fun _ _ ids lvs _ _ => lvs.Sublist ids) ?_ ?_ ?_ ?_
  · intro ar i n _ _ _
    exact List.Sublist.refl _
  · intro ar i n ids' lvs rs ks _ _ _ _ _ _ _ ih
    exact ih.trans (List.sublist_cons_self _ _)
  · intro ar
    exact List.Sublist.refl _
  · intro ar c cs ids1 lvs1 ids2 lvs2 rs1 rs2 ks1 ks2 _ _ ih1 ih2
    exact List.Sublist.append ih1 ih2

/-- Every subtree owns at least one leaf. -/
theorem rep_lvs_ne_nil {ar i ids lvs rs ks} (h : RepN ar i ids lvs rs ks) :
    lvs ≠ [] := by
  revert h
  have key :
      (∀ ar i ids lvs rs ks, RepN ar i ids lvs rs ks → lvs ≠ []) ∧
      (∀ ar cs ids lvs rs ks, RepChildren ar cs ids lvs rs ks → cs ≠ [] → lvs ≠ []) := by
    refine rep_mutual_ind
      (fun _ _ _ lvs _ _ => lvs ≠ [])
      (fun _ cs _ lvs _ _ => cs ≠ [] → lvs ≠ []) ?_ ?_ ?_ ?_
    · intro ar i n _ _ _
      simp
    · intro ar i n ids' lvs rs ks _ _ _ hcl _ _ _ ih
      refine ih ?_
      intro hnil
      rw [hnil] at hcl
      simp at hcl
    · intro ar h
      simp at h
    · intro ar c cs ids1 lvs1 ids2 lvs2 rs1 rs2 ks1 ks2 h1 _ ih1 _ _
      simp only [ne_eq, List.append_eq_nil]
      intro hcon
      exact ih1 hcon.1
  exact key.1 ar i ids lvs rs ks

/-- The arena can be replaced by any arena that agrees on the subtree's ids. -/
theorem rep_frame :
    (∀ ar i ids lvs rs ks, RepN ar i ids lvs rs ks →
      ∀ ar' : Arena, (∀ j ∈ ids, getNode ar' j = getNode ar j) →
        RepN ar' i ids lvs rs ks) ∧
    (∀ ar cs ids lvs rs ks, RepChildren ar cs ids lvs rs ks →
      ∀ ar' : Arena, (∀ j ∈ ids, getNode ar' j = getNode ar j) →
        RepChildren ar' cs ids lvs rs ks) := by
  refine rep_mutual_ind
    (fun ar i ids lvs rs ks => ∀ ar' : Arena,
      (∀ j ∈ ids, getNode ar' j = getNode ar j) → RepN ar' i ids lvs rs ks)
    (fun ar cs ids lvs rs ks => ∀ ar' : Arena,
      (∀ j ∈ ids, getNode ar' j = getNode ar j) → RepChildren ar' cs ids lvs rs ks)
    ?_ ?_ ?_ ?_
  · intro ar i n hget hshape hcap ar' hagree
    exact RepN.leaf ar' i n (by rw [hagree i (by simp)]; exact hget) hshape hcap
  · intro ar i n ids' lvs rs ks hget hl hkc hcl hcap hch hnd ih ar' hagree
    exact RepN.internal ar' i n ids' lvs rs ks
      (by rw [hagree i (by simp)]; exact hget) hl hkc hcl hcap
      (ih ar' fun j hj => hagree j (List.mem_cons_of_mem i hj)) hnd
  · intro ar ar' _
    exact RepChildren.nil ar'
  · intro ar c cs ids1 lvs1 ids2 lvs2 rs1 rs2 ks1 ks2 _ _ ih1 ih2 ar' hagree
    exact RepChildren.cons ar' c cs ids1 lvs1 ids2 lvs2 rs1 rs2 ks1 ks2
      (ih1 ar' fun j hj => hagree j (List.mem_append_left _ hj))
      (ih2 ar' fun j hj => hagree j (List.mem_append_right _ hj))

/-- `get_all_records` collects exactly the in-order record sequence, given
enough fuel. -/
theorem rep_getAllRecords :
    (∀ ar i ids lvs rs ks, RepN ar i ids lvs rs ks →
      ∀ fuel, ids.length ≤ fuel → getAllRecords ar fuel i = rs) ∧
    (∀ ar cs ids lvs rs ks, RepChildren ar cs ids lvs rs ks →
      ∀ fuel, ids.length ≤ fuel → (cs.map (getAllRecords ar fuel)).flatten = rs) := by
  refine rep_mutual_ind
    (fun ar i ids _ rs _ => ∀ fuel, ids.length ≤ fuel → getAllRecords ar fuel i = rs)
    (fun ar cs ids _ rs _ => ∀ fuel, ids.length ≤ fuel →
      (cs.map (getAllRecords ar fuel)).flatten = rs) ?_ ?_ ?_ ?_
  · intro ar i n hget hshape _ fuel hfuel
    match fuel, hfuel with
    | fuel + 1, _ =>
      show getAllRecords ar (fuel + 1) i = n.records
      unfold getAllRecords
      rw [hget]
      simp only [hshape.1, if_true]
      rw [hshape.2.1, ← hshape.2.2.1]
      exact List.take_length n.records
  · intro ar i n ids' lvs rs ks hget hl hkc hcl _ hch _ ih fuel hfuel
    match fuel, hfuel with
    | fuel + 1, hfuel =>
      show getAllRecords ar (fuel + 1) i = rs
      unfold getAllRecords
      rw [hget]
      simp only [hl, Bool.false_eq_true, if_false]
      have htake : n.children.take (n.key_count + 1) = n.children :=
        List.take_of_length_le (by rw [hcl, hkc])
      rw [htake]
      exact ih fuel (by simp only [List.length_cons] at hfuel; omega)
  · intro ar fuel _
    simp
  · intro ar c cs ids1 lvs1 ids2 lvs2 rs1 rs2 ks1 ks2 h1 _ ih1 ih2 fuel hfuel
    simp only [List.map_cons, List.flatten_cons]
    have hl1 : ids1.length ≤ fuel := by
      simp only [List.length_append] at hfuel
      omega
    have hl2 : ids2.length ≤ fuel := by
      simp only [List.length_append] at hfuel
      omega
    rw [ih1 fuel hl1, ih2 fuel hl2]

/-- A leaf id together with its record block. -/
def LeafRecordsAt (ar : Arena) (i : ℕ) (rsi : List Record) : Prop :=
  ∃ n, getNode ar i = some n ∧ LeafShape n ∧ n.records = rsi

/-- The leaves of a represented subtree, with their record blocks. -/
theorem rep_leaves :
    (∀ ar i ids lvs rs ks, RepN ar i ids lvs rs ks →
      ∃ rss : List (List Record),
        List.Forall₂ (LeafRecordsAt ar) lvs rss ∧ rss.flatten = rs) ∧
    (∀ ar cs ids lvs rs ks, RepChildren ar cs ids lvs rs ks →
      ∃ rss : List (List Record),
        List.Forall₂ (LeafRecordsAt ar) lvs rss ∧ rss.flatten = rs) := by
  refine rep_mutual_ind
    (fun ar _ _ lvs rs _ => ∃ rss, List.Forall₂ (LeafRecordsAt ar) lvs rss ∧
      rss.flatten = rs)
    (fun ar _ _ lvs rs _ => ∃ rss, List.Forall₂ (LeafRecordsAt ar) lvs rss ∧
      rss.flatten = rs) ?_ ?_ ?_ ?_
  · intro ar i n hget hshape _
    exact ⟨[n.records], by
      constructor
      · exact List.forall₂_cons.mpr ⟨⟨n, hget, hshape, rfl⟩, List.Forall₂.nil⟩
      · simp⟩
  · intro ar i n ids' lvs rs ks _ _ _ _ _ _ _ ih
    exact ih
  · intro ar
    exact ⟨[], List.Forall₂.nil, rfl⟩
  · intro ar c cs ids1 lvs1 ids2 lvs2 rs1 rs2 ks1 ks2 _ _ ih1 ih2
    obtain ⟨rss1, hf1, he1⟩ := ih1
    obtain ⟨rss2, hf2, he2⟩ := ih2
    refine ⟨rss1 ++ rss2, ?_, by simp [he1, he2]⟩
    exact List.rel_append hf1 hf2

/-- Unfolding step for `leftmostFrom` at a resolved node. -/
theorem leftmostFrom_step (ar : Arena) (fuel i : ℕ) (n : BPlusTreeNode)
    (hget : getNode ar i = some n) :
    leftmostFrom ar (fuel + 1) i =
      if n.is_leaf = false ∧ n.children ≠ [] then
        leftmostFrom ar fuel (n.children.headD 0)
      else i := by
  simp only [leftmostFrom]
  rw [hget]

/-- Unfolding step for `walkLeaves` at a resolved node. -/
theorem walkLeaves_step (ar : Arena) (fuel i : ℕ) (n : BPlusTreeNode)
    (hget : getNode ar i = some n) :
    walkLeaves ar (fuel + 1) (some i) =
      n.records.take n.key_count ++ walkLeaves ar fuel n.next_leaf := by
  simp only [walkLeaves]
  rw [hget]

/-- The leftmost descent lands on the first leaf of the subtree. -/
theorem rep_leftmost :
    (∀ ar i ids lvs rs ks, RepN ar i ids lvs rs ks →
      ∀ fuel, ids.length ≤ fuel → some (leftmostFrom ar fuel i) = lvs.head?) ∧
    (∀ ar cs ids lvs rs ks, RepChildren ar cs ids lvs rs ks →
      ∀ fuel, ids.length ≤ fuel → ∀ c0, cs.headD 0 = c0 → cs ≠ [] →
        some (leftmostFrom ar fuel c0) = lvs.head?) := by
  refine rep_mutual_ind
    (fun ar i ids lvs _ _ => ∀ fuel, ids.length ≤ fuel →
      some (leftmostFrom ar fuel i) = lvs.head?)
    (fun ar cs ids lvs _ _ => ∀ fuel, ids.length ≤ fuel → ∀ c0, cs.headD 0 = c0 →
      cs ≠ [] → some (leftmostFrom ar fuel c0) = lvs.head?) ?_ ?_ ?_ ?_
  · intro ar i n hget hshape _ fuel hfuel
    match fuel, hfuel with
    | fuel + 1, _ =>
      rw [leftmostFrom_step ar fuel i n hget]
      simp [hshape.1]
  · intro ar i n ids' lvs rs ks hget hl hkc hcl _ hch _ ih fuel hfuel
    match fuel, hfuel with
    | fuel + 1, hfuel =>
      rw [leftmostFrom_step ar fuel i n hget]
      have hne : n.children ≠ [] := by
        intro hc
        rw [hc] at hcl
        simp at hcl
      rw [if_pos ⟨hl, hne⟩]
      exact ih fuel (by simp only [List.length_cons] at hfuel; omega)
        (n.children.headD 0) rfl hne
  · intro ar fuel _ c0 _ hne
    simp at hne
  · intro ar c cs ids1 lvs1 ids2 lvs2 rs1 rs2 ks1 ks2 h1 _ ih1 _ fuel hfuel c0 hc0 _
    simp only [List.headD_cons] at hc0
    subst hc0
    rw [List.head?_append_of_ne_nil _ (rep_lvs_ne_nil h1)]
    exact ih1 fuel (by simp only [List.length_append] at hfuel; omega)

/-- Walking the leaf chain from the first leaf yields the concatenation of
the leaf record blocks, provided consecutive leaves are linked and the last
link is null. -/
theorem walkLeaves_eq (ar : Arena) :
    ∀ (lvs : List ℕ) (rss : List (List Record)) (fuel : ℕ),
      lvs.length ≤ fuel →
      List.Forall₂ (LeafRecordsAt ar) lvs rss →
      List.Chain' (fun a b => nextOf ar a = some b) lvs →
      (∀ a, lvs.getLast? = some a → nextOf ar a = none) →
      walkLeaves ar fuel lvs.head? = rss.flatten := by
  intro lvs rss fuel hfuel hf
  induction hf generalizing fuel with
  | nil =>
      intro _ _
      cases fuel <;> rfl
  | @cons i rsi lvs' rss' hat hf' ih =>
      intro hchain hlast
      obtain ⟨n, hget, hshape, hrec⟩ := hat
      match fuel, hfuel with
      | fuel + 1, hfuel =>
        simp only [List.head?_cons]
        rw [walkLeaves_step ar fuel i n hget]
        have htake : n.records.take n.key_count = n.records := by
          rw [hshape.2.1, ← hshape.2.2.1]
          exact List.take_length n.records
        rw [htake, hrec]
        simp only [List.flatten_cons]
        congr 1
        cases lvs' with
        | nil =>
            have hnone : nextOf ar i = none := hlast i rfl
            have : n.next_leaf = none := by
              unfold nextOf at hnone
              rw [hget] at hnone
              exact hnone
            rw [this]
            cases hf'
            cases fuel <;> rfl
        | cons b rest =>
            have hnext : nextOf ar i = some b :=
              (List.chain'_cons.mp hchain).1
            have : n.next_leaf = some b := by
              unfold nextOf at hnext
              rw [hget] at hnext
              exact hnext
            rw [this]
            have hh : (b :: rest).head? = some b := rfl
            rw [← hh]
            exact ih fuel (by simp only [List.length_cons] at hfuel ⊢; omega)
              (List.chain'_cons.mp hchain).2
              (fun a ha => hlast a (by
                rw [List.getLast?_cons_cons]
                exact ha))

theorem RepN.ids_nodup {ar i ids lvs rs ks} (h : RepN ar i ids lvs rs ks) :
    ids.Nodup := by
  cases h with
  | leaf i n hget hshape hcap => simp
  | internal i n ids2 lvsD rsD ksD hget hl hkc hcl hcap hch hnd => exact hnd

theorem nodup_length_le_of_lt (l : List ℕ) (n : ℕ) (hnd : l.Nodup)
    (hlt : ∀ x ∈ l, x < n) : l.length ≤ n := by
  classical
  calc l.length = l.toFinset.card := (List.toFinset_card_of_nodup hnd).symm
  _ ≤ (Finset.range n).card := by
      apply Finset.card_le_card
      intro x hx
      rw [List.mem_toFinset] at hx
      exact Finset.mem_range.mpr (hlt x hx)
  _ = n := Finset.card_range n

/-- The database-level invariant: a represented tree under the root, a
correctly linked leaf chain ending in a null pointer, the record counter,
global `id`-sortedness of the record sequence, and the global bound that
every separator key is at most the id of some record. -/
structure DBInv (db : CustomBPlusDB) (ids lvs : List ℕ) (rs : List Record)
    (ks : List Int) : Prop where
  rep : RepN db.nodes db.root ids lvs rs ks
  chain : List.Chain' (fun a b => nextOf db.nodes a = some b) lvs
  lastNone : ∀ a, lvs.getLast? = some a → nextOf db.nodes a = none
  total : db.total_records = rs.length
  sorted : List.Sorted (fun x y : Record => x.id ≤ y.id) rs
  keysLe : KeysLe ks rs

theorem DBInv.ids_le_nodes {db ids lvs rs ks} (h : DBInv db ids lvs rs ks) :
    ids.length ≤ db.nodes.length :=
  nodup_length_le_of_lt ids db.nodes.length h.rep.ids_nodup
    (rep_ids_bound.1 _ _ _ _ _ _ h.rep)

/-- Under the invariant, `collect_leaf_records` returns the in-order record
sequence. -/
theorem DBInv.collectLeaf {db ids lvs rs ks} (h : DBInv db ids lvs rs ks) :
    collectLeafRecords db = rs := by
  obtain ⟨rss, hf, hflat⟩ := rep_leaves.1 _ _ _ _ _ _ h.rep
  have hlen : ids.length ≤ db.nodes.length := h.ids_le_nodes
  have hlvslen : lvs.length ≤ db.nodes.length :=
    le_trans (List.Sublist.length_le (rep_lvs_sublist.1 _ _ _ _ _ _ h.rep)) hlen
  have hleft : some (leftmostFrom db.nodes db.nodes.length db.root) = lvs.head? :=
    rep_leftmost.1 _ _ _ _ _ _ h.rep db.nodes.length hlen
  unfold collectLeafRecords
  have hwalk := walkLeaves_eq db.nodes lvs rss db.nodes.length hlvslen hf h.chain h.lastNone
  rw [hleft, hwalk, hflat]

/-- Under the invariant, `collect_all_records` agrees with
`collect_leaf_records`. -/
theorem DBInv.collectAll {db ids lvs rs ks} (h : DBInv db ids lvs rs ks) :
    collectAllRecords db = rs :=
  rep_getAllRecords.1 _ _ _ _ _ _ h.rep db.nodes.length h.ids_le_nodes

/-! ## Arena access helpers -/

theorem getNode_lt {ar : Arena} {i : ℕ} {n : BPlusTreeNode}
    (h : getNode ar i = some n) : i < ar.length :=
  (List.getElem?_eq_some_iff.mp h).1

theorem getNode_set_append_self (ar : Arena) (i : ℕ) (nL x : BPlusTreeNode)
    (hi : i < ar.length) : getNode (ar.set i nL ++ [x]) i = some nL := by
  unfold getNode
  rw [List.getElem?_append_left (by simpa using hi)]
  exact List.getElem?_set_self (by simpa using hi)

theorem getNode_set_append_new (ar : Arena) (i : ℕ) (nL x : BPlusTreeNode) :
    getNode (ar.set i nL ++ [x]) ar.length = some x := by
  unfold getNode
  have : ar.length = (ar.set i nL).length := by simp
  rw [this]
  exact List.getElem?_concat_length _ _

theorem getNode_set_append_other (ar : Arena) (i j : ℕ) (nL x : BPlusTreeNode)
    (hne : j ≠ i) (hj : j < ar.length) :
    getNode (ar.set i nL ++ [x]) j = getNode ar j := by
  unfold getNode
  rw [List.getElem?_append_left (by simpa using hj)]
  exact List.getElem?_set_ne (Ne.symm hne)

theorem getNode_append_frame (ar : Arena) (x : BPlusTreeNode) (j : ℕ)
    (hj : j < ar.length) : getNode (ar ++ [x]) j = getNode ar j := by
  unfold getNode
  exact List.getElem?_append_left hj

theorem getNode_append_new (ar : Arena) (x : BPlusTreeNode) :
    getNode (ar ++ [x]) ar.length = some x := by
  unfold getNode
  exact List.getElem?_concat_length _ _

/-! ## Split lemmas -/

/-- The arena produced by `split()` on a leaf node. -/
theorem splitNode_leaf_step (ar : Arena) (i : ℕ) (n : BPlusTreeNode)
    (hget : getNode ar i = some n) (hl : n.is_leaf = true) :
    splitNode ar i =
      (ar.set i
        { n with
          keys := n.keys.take (MAX_KEYS / 2)
          records := n.records.take (MAX_KEYS / 2)
          key_count := MAX_KEYS / 2
          next_leaf := some ar.length } ++
        [{ is_leaf := true
           key_count := n.key_count - MAX_KEYS / 2
           subtree_record_count := 0
           keys := (n.keys.take n.key_count).drop (MAX_KEYS / 2)
           records := (n.records.take n.key_count).drop (MAX_KEYS / 2)
           children := []
           next_leaf := n.next_leaf }], ar.length) := by
  unfold splitNode
  rw [hget]
  dsimp only
  rw [if_pos hl]

/-- The arena produced by `split()` on an internal node. -/
theorem splitNode_internal_step (ar : Arena) (i : ℕ) (n : BPlusTreeNode)
    (hget : getNode ar i = some n) (hl : n.is_leaf = false) :
    splitNode ar i =
      (ar.set i
        { n with
          keys := n.keys.take (MAX_KEYS / 2)
          children := n.children.take (MAX_KEYS / 2 + 1)
          key_count := MAX_KEYS / 2 } ++
        [{ is_leaf := false
           key_count := n.key_count - MAX_KEYS / 2 - 1
           subtree_record_count := 0
           keys := (n.keys.take n.key_count).drop (MAX_KEYS / 2 + 1)
           records := []
           children := (n.children.take (n.key_count + 1)).drop (MAX_KEYS / 2 + 1)
           next_leaf := none }], ar.length) := by
  unfold splitNode
  rw [hget]
  dsimp only
  rw [if_neg (by rw [hl]; exact Bool.false_ne_true)]

/-- Effect of `split()` on a full leaf: the lower half stays at `i`, the
upper half moves to the fresh node, and the chain is relinked through it. -/
theorem splitNode_leaf_spec (ar : Arena) (i : ℕ) (n : BPlusTreeNode)
    (hget : getNode ar i = some n) (hsh : LeafShape n)
    (hfull : n.keys.length = MAX_KEYS) :
    ∃ nL nR,
      (splitNode ar i).2 = ar.length ∧
      (splitNode ar i).1.length = ar.length + 1 ∧
      (∀ j, j ≠ i → j < ar.length →
        getNode (splitNode ar i).1 j = getNode ar j) ∧
      getNode (splitNode ar i).1 i = some nL ∧
      getNode (splitNode ar i).1 ar.length = some nR ∧
      LeafShape nL ∧ LeafShape nR ∧
      nL.keys.length = MAX_KEYS / 2 ∧
      nR.keys.length = MAX_KEYS - MAX_KEYS / 2 ∧
      nL.records = n.records.take (MAX_KEYS / 2) ∧
      nR.records = n.records.drop (MAX_KEYS / 2) ∧
      nL.next_leaf = some ar.length ∧
      nR.next_leaf = n.next_leaf := by
  obtain ⟨hl, hkc, hrl, hmap, hsort⟩ := hsh
  have hi : i < ar.length := getNode_lt hget
  have hrecfull : n.records.length = MAX_KEYS := by rw [hrl, hfull]
  have hkctake : n.keys.take n.key_count = n.keys := by
    rw [hkc]
    exact List.take_length _
  have hrectake : n.records.take n.key_count = n.records := by
    rw [hkc, ← hrl]
    exact List.take_length _
  rw [splitNode_leaf_step ar i n hget hl]
  refine ⟨_, _, rfl, by simp, fun j hne hj => getNode_set_append_other ar i j _ _ hne hj,
    getNode_set_append_self ar i _ _ hi, getNode_set_append_new ar i _ _,
    ?_, ?_, ?_, ?_, rfl, by simp [hrectake], rfl, rfl⟩
  · refine ⟨hl, ?_, ?_, ?_, ?_⟩
    · simp [hfull, MAX_KEYS]
    · simp [hfull, hrecfull, MAX_KEYS]
    · show n.keys.take (MAX_KEYS / 2) = (n.records.take (MAX_KEYS / 2)).map Record.id
      rw [hmap, List.map_take]
    · exact List.Pairwise.sublist (List.take_sublist _ _) hsort
  · refine ⟨rfl, ?_, ?_, ?_, ?_⟩
    · simp [hkctake, hrectake, hkc, hrl]
    · simp [hkctake, hrectake, hrl]
    · show (n.keys.take n.key_count).drop (MAX_KEYS / 2) =
        ((n.records.take n.key_count).drop (MAX_KEYS / 2)).map Record.id
      rw [hkctake, hrectake, hmap, List.map_drop]
    · exact List.Pairwise.sublist
        (show List.Sublist ((n.keys.take n.key_count).drop (MAX_KEYS / 2)) n.keys by
          rw [hkctake]
          exact List.drop_sublist _ _) hsort
  · simp [hfull, MAX_KEYS]
  · simp [hkctake, hfull, MAX_KEYS]

/-! ## RepChildren composition -/

theorem repChildren_single {ar c ids lvs rs ks} (h : RepN ar c ids lvs rs ks) :
    RepChildren ar [c] ids lvs rs ks := by
  have := RepChildren.cons ar c [] ids lvs [] [] rs [] ks []
    h (RepChildren.nil ar)
  simpa using this

theorem repChildren_append {ar : Arena} :
    ∀ (cs1 : List ℕ) {cs2 ids1 lvs1 ids2 lvs2 rs1 rs2 ks1 ks2},
      RepChildren ar cs1 ids1 lvs1 rs1 ks1 →
      RepChildren ar cs2 ids2 lvs2 rs2 ks2 →
      RepChildren ar (cs1 ++ cs2) (ids1 ++ ids2) (lvs1 ++ lvs2) (rs1 ++ rs2)
        (ks1 ++ ks2) := by
  intro cs1
  induction cs1 with
  | nil =>
      intro cs2 ids1 lvs1 ids2 lvs2 rs1 rs2 ks1 ks2 h1 h2
      cases h1
      simpa using h2
  | cons d cs' ih =>
      intro cs2 ids1 lvs1 ids2 lvs2 rs1 rs2 ks1 ks2 h1 h2
      cases h1 with
      | cons cDrop csDrop idsa lvsa idsb lvsb rsa rsb ksa ksb hd htl =>
          have := RepChildren.cons ar d (cs' ++ cs2) idsa lvsa (idsb ++ ids2)
            (lvsb ++ lvs2) rsa (rsb ++ rs2) ksa (ksb ++ ks2) hd (ih htl h2)
          simpa [List.append_assoc] using this

theorem repChildren_snoc_inv {ar : Arena} :
    ∀ (cs : List ℕ) {c ids lvs rs ks},
      RepChildren ar (cs ++ [c]) ids lvs rs ks →
      ∃ ids0 ids1 lvs0 lvs1 rs0 rs1 ks0 ks1,
        ids = ids0 ++ ids1 ∧ lvs = lvs0 ++ lvs1 ∧ rs = rs0 ++ rs1 ∧
        ks = ks0 ++ ks1 ∧
        RepChildren ar cs ids0 lvs0 rs0 ks0 ∧ RepN ar c ids1 lvs1 rs1 ks1 := by
  intro cs
  induction cs with
  | nil =>
      intro c ids lvs rs ks h
      rw [List.nil_append] at h
      cases h with
      | cons cDrop csDrop idsa lvsa idsb lvsb rsa rsb ksa ksb hd htl =>
          cases htl
          exact ⟨[], idsa, [], lvsa, [], rsa, [], ksa, by simp, by simp, by simp,
            by simp, RepChildren.nil ar, hd⟩
  | cons d cs' ih =>
      intro c ids lvs rs ks h
      rw [List.cons_append] at h
      cases h with
      | cons cDrop csDrop idsa lvsa idsb lvsb rsa rsb ksa ksb hd htl =>
          obtain ⟨ids0, ids1, lvs0, lvs1, rs0, rs1, ks0, ks1, hi, hl, hr, hk,
            hcs, hcN⟩ := ih htl
          exact ⟨idsa ++ ids0, ids1, lvsa ++ lvs0, lvs1, rsa ++ rs0, rs1,
            ksa ++ ks0, ks1, by rw [hi, List.append_assoc],
            by rw [hl, List.append_assoc], by rw [hr, List.append_assoc],
            by rw [hk, List.append_assoc],
            RepChildren.cons ar d cs' idsa lvsa ids0 lvs0 rsa rs0 ksa ks0 hd hcs,
            hcN⟩

/-! ## Leaf insertion and node splitting at the representation level -/

/-- A subtree that is fully well-formed except that its top node has just
reached `MAX_KEYS` keys and must be split (the transient state right after
`insert_into_node` returns `true`). -/
def RepFull (ar : Arena) (i : ℕ) (ids lvs : List ℕ) (rs : List Record)
    (ks : List Int) : Prop :=
  (∃ n, getNode ar i = some n ∧ LeafShape n ∧ n.keys.length = MAX_KEYS ∧
    n.records = rs ∧ ids = [i] ∧ lvs = [i] ∧ ks = n.keys) ∨
  (∃ n ids' ks', getNode ar i = some n ∧ n.is_leaf = false ∧
    n.key_count = n.keys.length ∧ n.children.length = n.keys.length + 1 ∧
    n.keys.length = MAX_KEYS ∧
    RepChildren ar n.children ids' lvs rs ks' ∧ (i :: ids').Nodup ∧
    ids = i :: ids' ∧ ks = n.keys ++ ks')

/-- Effect of the leaf insertion `BPlusTreeNode::insert_record` on a
well-shaped leaf. -/
theorem nodeInsertRecord_spec (n : BPlusTreeNode) (r : Record) (hsh : LeafShape n) :
    LeafShape (nodeInsertRecord n r) ∧
    (nodeInsertRecord n r).keys.length = n.keys.length + 1 ∧
    (nodeInsertRecord n r).records.Perm (r :: n.records) ∧
    (nodeInsertRecord n r).next_leaf = n.next_leaf ∧
    (nodeInsertRecord n r).keys = List.orderedInsert (· ≤ ·) r.id n.keys := by
  obtain ⟨hl, hkc, hrl, hmap, hsort⟩ := hsh
  have hstep : nodeInsertRecord n r =
      { n with
        keys := n.keys.insertIdx (lowerBound n.keys n.key_count r.id) r.id
        records := n.records.insertIdx (lowerBound n.keys n.key_count r.id) r
        key_count := n.key_count + 1
        subtree_record_count := n.subtree_record_count + 1 } := by
    unfold nodeInsertRecord
    rw [if_pos hl]
  have hp : lowerBound n.keys n.key_count r.id ≤ n.keys.length := by
    rw [hkc]
    exact lowerBound_le_length n.keys r.id
  have hpr : lowerBound n.keys n.key_count r.id ≤ n.records.length := by
    rw [hrl]
    exact hp
  have hoi : n.keys.insertIdx (lowerBound n.keys n.key_count r.id) r.id =
      List.orderedInsert (· ≤ ·) r.id n.keys := by
    rw [hkc]
    exact insertIdx_lowerBound_eq_orderedInsert n.keys r.id
  rw [hstep]
  refine ⟨⟨hl, ?_, ?_, ?_, ?_⟩, ?_, ?_, rfl, hoi⟩
  · show n.key_count + 1 = (n.keys.insertIdx _ r.id).length
    rw [List.length_insertIdx _ _ hp, hkc]
  · show (n.records.insertIdx _ r).length = (n.keys.insertIdx _ r.id).length
    rw [List.length_insertIdx _ _ hp, List.length_insertIdx _ _ hpr, hrl]
  · show n.keys.insertIdx _ r.id = (n.records.insertIdx _ r).map Record.id
    rw [List.map_insertIdx' Record.id r _ _ hpr, ← hmap]
  · show List.Sorted (· ≤ ·) (n.keys.insertIdx _ r.id)
    rw [hoi]
    exact hsort.orderedInsert r.id n.keys
  · show (n.keys.insertIdx _ r.id).length = n.keys.length + 1
    rw [List.length_insertIdx _ _ hp]
  · show (n.records.insertIdx _ r).Perm (r :: n.records)
    exact List.perm_insertIdx r n.records hpr

theorem chain'_congr_mem {α : Type _} {R S : α → α → Prop} :
    ∀ l : List α, (∀ a ∈ l, ∀ b, R a b → S a b) → List.Chain' R l → List.Chain' S l
  | [], _, _ => List.chain'_nil
  | [_], _, _ => List.chain'_singleton _
  | a :: b :: t, hab, hc => by
      rw [List.chain'_cons] at hc ⊢
      exact ⟨hab a (by simp) b hc.1,
        chain'_congr_mem (b :: t) (fun x hx => hab x (by simp [hx])) hc.2⟩

theorem repChildren_append_inv {ar : Arena} :
    ∀ (csA : List ℕ) {csB ids lvs rs ks},
      RepChildren ar (csA ++ csB) ids lvs rs ks →
      ∃ idsA idsB lvsA lvsB rsA rsB ksA ksB,
        ids = idsA ++ idsB ∧ lvs = lvsA ++ lvsB ∧ rs = rsA ++ rsB ∧
        ks = ksA ++ ksB ∧
        RepChildren ar csA idsA lvsA rsA ksA ∧
        RepChildren ar csB idsB lvsB rsB ksB := by
  intro csA
  induction csA with
  | nil =>
      intro csB ids lvs rs ks h
      exact ⟨[], ids, [], lvs, [], rs, [], ks, by simp, by simp, by simp, by simp,
        RepChildren.nil ar, by simpa using h⟩
  | cons d cs' ih =>
      intro csB ids lvs rs ks h
      rw [List.cons_append] at h
      cases h with
      | cons cDrop csDrop idsa lvsa idsb lvsb rsa rsb ksa ksb hd htl =>
          obtain ⟨idsA, idsB, lvsA, lvsB, rsA, rsB, ksA, ksB, hi, hl, hr, hk,
            hA, hB⟩ := ih htl
          exact ⟨idsa ++ idsA, idsB, lvsa ++ lvsA, lvsB, rsa ++ rsA, rsB,
            ksa ++ ksA, ksB, by rw [hi, List.append_assoc],
            by rw [hl, List.append_assoc], by rw [hr, List.append_assoc],
            by rw [hk, List.append_assoc],
            RepChildren.cons ar d cs' idsa lvsa idsA lvsA rsa rsA ksa ksA hd hA,
            hB⟩

/-- Splitting a just-filled node yields two represented subtrees: the lower
half stays at `i`, the upper half lives at the fresh index `ar.length`.
For a leaf the chain is relinked through the new leaf; an internal split
does not touch any leaf. -/
theorem splitNode_of_repFull {ar : Arena} {i : ℕ} {ids lvs : List ℕ}
    {rs : List Record} {ks : List Int}
    (h : RepFull ar i ids lvs rs ks)
    (hbound : ∀ j ∈ ids, j < ar.length) :
    ∃ idsL idsR lvsL lvsR rsL rsR ksL ksR,
      (splitNode ar i).2 = ar.length ∧
      (splitNode ar i).1.length = ar.length + 1 ∧
      (∀ j, j ≠ i → j < ar.length →
        getNode (splitNode ar i).1 j = getNode ar j) ∧
      RepN (splitNode ar i).1 i idsL lvsL rsL ksL ∧
      RepN (splitNode ar i).1 ar.length idsR lvsR rsR ksR ∧
      rs = rsL ++ rsR ∧ lvsL ≠ [] ∧
      (∀ j ∈ idsL, j ∈ ids) ∧ (∀ j ∈ idsR, j ∈ ids ∨ j = ar.length) ∧
      idsL.Disjoint idsR ∧
      (∀ k ∈ ksL, k ∈ ks) ∧ (∀ k ∈ ksR, k ∈ ks) ∧
      (∃ nR, getNode (splitNode ar i).1 ar.length = some nR ∧
        (nR.keys.headD 0 ∈ ks ∨ ∃ x ∈ rsR, nR.keys.headD 0 ≤ x.id)) ∧
      ((lvsL ++ lvsR = lvs ∧
          (∀ a ∈ lvs, nextOf (splitNode ar i).1 a = nextOf ar a)) ∨
        (lvs = [i] ∧ lvsL = [i] ∧ lvsR = [ar.length] ∧
          nextOf (splitNode ar i).1 i = some ar.length ∧
          nextOf (splitNode ar i).1 ar.length = nextOf ar i)) := by
  rcases h with ⟨n, hget, hsh, hfull, hrecs, hids, hlvs, hks⟩ |
    ⟨n, ids', ks', hget, hl, hkc, hcl, hfull, hch, hnd, hids, hks⟩
  · -- leaf split
    obtain ⟨nL, nR, hsp2, hsplen, hframe, hgetL, hgetR, hshL, hshR, hlenL, hlenR,
      hrecL, hrecR, hnextL, hnextR⟩ := splitNode_leaf_spec ar i n hget hsh hfull
    have hi : i < ar.length := getNode_lt hget
    have hrecfull : n.records.length = MAX_KEYS := by
      rw [hsh.2.2.1, hfull]
    have hlenRrec : nR.records.length = MAX_KEYS - MAX_KEYS / 2 := by
      rw [hrecR, List.length_drop, hrecfull]
    have hrsRne : nR.records ≠ [] := by
      intro hcon
      rw [hcon] at hlenRrec
      simp only [List.length_nil] at hlenRrec
      norm_num [MAX_KEYS] at hlenRrec
    refine ⟨[i], [ar.length], [i], [ar.length], nL.records, nR.records,
      nL.keys, nR.keys, hsp2, hsplen, hframe, ?_, ?_, ?_, by simp,
      by simp [hids], ?_, ?_, ?_, ?_, ?_, ?_⟩
    · exact RepN.leaf _ i nL hgetL hshL
        (by rw [hlenL]; norm_num [MAX_KEYS])
    · exact RepN.leaf _ ar.length nR hgetR hshR
        (by rw [hlenR]; norm_num [MAX_KEYS])
    · rw [← hrecs, hrecL, hrecR, List.take_append_drop]
    · intro j hj
      simp only [List.mem_singleton] at hj
      subst hj
      right
      rfl
    · intro a ha hb
      simp only [List.mem_singleton] at ha hb
      omega
    · intro k hk
      rw [hks]
      have hkeq : nL.keys = (n.records.take (MAX_KEYS / 2)).map Record.id := by
        rw [← hrecL]
        exact hshL.2.2.2.1
      rw [hkeq, List.map_take, ← hsh.2.2.2.1] at hk
      exact List.mem_of_mem_take hk
    · intro k hk
      rw [hks]
      have hkeq : nR.keys = (n.records.drop (MAX_KEYS / 2)).map Record.id := by
        rw [← hrecR]
        exact hshR.2.2.2.1
      rw [hkeq, List.map_drop, ← hsh.2.2.2.1] at hk
      exact List.mem_of_mem_drop hk
    · refine ⟨nR, hgetR, Or.inr ?_⟩
      rcases hx : nR.records with _ | ⟨x, t⟩
      · exact absurd hx hrsRne
      · refine ⟨x, by simp, ?_⟩
        have hkeq : nR.keys = nR.records.map Record.id := hshR.2.2.2.1
        rw [hkeq, hx]
        simp
    · right
      refine ⟨hlvs, rfl, rfl, ?_, ?_⟩
      · unfold nextOf
        rw [hgetL]
        exact hnextL
      · unfold nextOf
        rw [hgetR, hget]
        exact hnextR
  · -- internal split
    have hi : i < ar.length := getNode_lt hget
    have hstep := splitNode_internal_step ar i n hget hl
    have hchfull : n.children.length = MAX_KEYS + 1 := by rw [hcl, hfull]
    have hmidlt : MAX_KEYS / 2 + 1 ≤ n.children.length := by
      rw [hchfull]
      norm_num [MAX_KEYS]
    have hchdec : n.children =
        n.children.take (MAX_KEYS / 2 + 1) ++ n.children.drop (MAX_KEYS / 2 + 1) :=
      (List.take_append_drop _ _).symm
    obtain ⟨idsA, idsB, lvsA, lvsB, rsA, rsB, ksA, ksB, hidsp, hlvsp, hrsp, hksp,
      hA, hB⟩ := repChildren_append_inv (n.children.take (MAX_KEYS / 2 + 1))
        (hchdec ▸ hch)
    set ar2 := (splitNode ar i).1 with har2
    have hsp2 : (splitNode ar i).2 = ar.length := by rw [hstep]
    have hsplen : ar2.length = ar.length + 1 := by rw [har2, hstep]; simp
    have hframe : ∀ j, j ≠ i → j < ar.length → getNode ar2 j = getNode ar j := by
      intro j hne hj
      rw [har2, hstep]
      exact getNode_set_append_other ar i j _ _ hne hj
    have hgetL : getNode ar2 i = some
        { n with
          keys := n.keys.take (MAX_KEYS / 2)
          children := n.children.take (MAX_KEYS / 2 + 1)
          key_count := MAX_KEYS / 2 } := by
      rw [har2, hstep]
      exact getNode_set_append_self ar i _ _ hi
    have hgetR : getNode ar2 ar.length = some
        { is_leaf := false
          key_count := n.key_count - MAX_KEYS / 2 - 1
          subtree_record_count := 0
          keys := (n.keys.take n.key_count).drop (MAX_KEYS / 2 + 1)
          records := []
          children := (n.children.take (n.key_count + 1)).drop (MAX_KEYS / 2 + 1)
          next_leaf := none } := by
      rw [har2, hstep]
      exact getNode_set_append_new ar i _ _
    have hkctake : n.keys.take n.key_count = n.keys := by
      rw [hkc]
      exact List.take_length _
    have hchtake : n.children.take (n.key_count + 1) = n.children := by
      rw [hkc, ← hcl]
      exact List.take_length _
    have hndA : i ∉ ids' := by
      have hx := hnd
      rw [List.nodup_cons] at hx
      exact hx.1
    have hnd' : ids'.Nodup := by
      have hx := hnd
      rw [List.nodup_cons] at hx
      exact hx.2
    have hABdisj : idsA.Disjoint idsB := by
      rw [hidsp, List.nodup_append] at hnd'
      exact hnd'.2.2
    have hndA2 : idsA.Nodup := by
      have hx : ids'.Nodup := by
        have hy := hnd
        rw [List.nodup_cons] at hy
        exact hy.2
      rw [hidsp, List.nodup_append] at hx
      exact hx.1
    have hndB2 : idsB.Nodup := by
      have hx : ids'.Nodup := by
        have hy := hnd
        rw [List.nodup_cons] at hy
        exact hy.2
      rw [hidsp, List.nodup_append] at hx
      exact hx.2.1
    have hboundA : ∀ j ∈ idsA, j < ar.length := by
      intro j hj
      exact hbound j (by rw [hids, hidsp]; simp [hj])
    have hboundB : ∀ j ∈ idsB, j < ar.length := by
      intro j hj
      exact hbound j (by rw [hids, hidsp]; simp [hj])
    have hiA : i ∉ idsA := fun hmem => hndA (by rw [hidsp]; simp [hmem])
    have hiB : i ∉ idsB := fun hmem => hndA (by rw [hidsp]; simp [hmem])
    have hframeA : RepChildren ar2 (n.children.take (MAX_KEYS / 2 + 1))
        idsA lvsA rsA ksA :=
      rep_frame.2 _ _ _ _ _ _ hA ar2
        (fun j hj => hframe j (fun he => hiA (he ▸ hj)) (hboundA j hj))
    have hframeB : RepChildren ar2 (n.children.drop (MAX_KEYS / 2 + 1))
        idsB lvsB rsB ksB :=
      rep_frame.2 _ _ _ _ _ _ hB ar2
        (fun j hj => hframe j (fun he => hiB (he ▸ hj)) (hboundB j hj))
    have hlenTakeC : (n.children.take (MAX_KEYS / 2 + 1)).length = MAX_KEYS / 2 + 1 :=
      List.length_take_of_le hmidlt
    have hlenTakeK : (n.keys.take (MAX_KEYS / 2)).length = MAX_KEYS / 2 :=
      List.length_take_of_le (by rw [hfull]; norm_num [MAX_KEYS])
    have hrepL : RepN ar2 i (i :: idsA) lvsA rsA
        (n.keys.take (MAX_KEYS / 2) ++ ksA) := by
      refine RepN.internal ar2 i _ idsA lvsA rsA ksA hgetL hl ?_ ?_ ?_ hframeA ?_
      · show MAX_KEYS / 2 = (n.keys.take (MAX_KEYS / 2)).length
        rw [hlenTakeK]
      · show (n.children.take (MAX_KEYS / 2 + 1)).length =
          (n.keys.take (MAX_KEYS / 2)).length + 1
        rw [hlenTakeC, hlenTakeK]
      · rw [hlenTakeK]
        norm_num [MAX_KEYS]
      · rw [List.nodup_cons]
        exact ⟨hiA, hndA2⟩
    have hkeysRlen : ((n.keys.take n.key_count).drop (MAX_KEYS / 2 + 1)).length =
        MAX_KEYS - MAX_KEYS / 2 - 1 := by
      rw [hkctake, List.length_drop, hfull]
      omega
    have hrepR : RepN ar2 ar.length (ar.length :: idsB) lvsB rsB
        ((n.keys.take n.key_count).drop (MAX_KEYS / 2 + 1) ++ ksB) := by
      refine RepN.internal ar2 ar.length _ idsB lvsB rsB ksB hgetR rfl ?_ ?_ ?_
        ?_ ?_
      · show n.key_count - MAX_KEYS / 2 - 1 =
          ((n.keys.take n.key_count).drop (MAX_KEYS / 2 + 1)).length
        rw [hkeysRlen, hkc, hfull]
      · show ((n.children.take (n.key_count + 1)).drop (MAX_KEYS / 2 + 1)).length =
          ((n.keys.take n.key_count).drop (MAX_KEYS / 2 + 1)).length + 1
        rw [hkeysRlen, hchtake, List.length_drop, hchfull]
        norm_num [MAX_KEYS]
      · rw [hkeysRlen]
        norm_num [MAX_KEYS]
      · rw [hchtake]
        exact hframeB
      · rw [List.nodup_cons]
        exact ⟨fun hmem => absurd (hboundB _ hmem) (by omega), hndB2⟩
    refine ⟨i :: idsA, ar.length :: idsB, lvsA, lvsB, rsA, rsB,
      n.keys.take (MAX_KEYS / 2) ++ ksA,
      (n.keys.take n.key_count).drop (MAX_KEYS / 2 + 1) ++ ksB,
      hsp2, hsplen, hframe, hrepL, hrepR, hrsp,
      rep_lvs_ne_nil hrepL, ?_, ?_, ?_, ?_, ?_, ?_, ?_⟩
    · intro j hj
      rcases List.mem_cons.mp hj with h | h
      · subst h
        rw [hids]
        simp
      · rw [hids, hidsp]
        simp [h]
    · intro j hj
      rcases List.mem_cons.mp hj with h | h
      · subst h
        right
        rfl
      · left
        rw [hids, hidsp]
        simp [h]
    · intro j hjL hjR
      rcases List.mem_cons.mp hjL with h | h
      · subst h
        rcases List.mem_cons.mp hjR with h2 | h2
        · omega
        · exact hiB h2
      · rcases List.mem_cons.mp hjR with h2 | h2
        · exact absurd (hboundA _ h) (by rw [← h2]; omega)
        · exact hABdisj h h2
    · intro k hk
      rw [hks, hksp]
      rcases List.mem_append.mp hk with h | h
      · exact List.mem_append_left _ (List.mem_of_mem_take h)
      · simp [h]
    · intro k hk
      rw [hks, hksp]
      rcases List.mem_append.mp hk with h | h
      · rw [hkctake] at h
        exact List.mem_append_left _ (List.mem_of_mem_drop h)
      · simp [h]
    · refine ⟨_, hgetR, Or.inl ?_⟩
      show ((n.keys.take n.key_count).drop (MAX_KEYS / 2 + 1)).headD 0 ∈ ks
      have hne : (n.keys.take n.key_count).drop (MAX_KEYS / 2 + 1) ≠ [] := by
        intro hcon
        have hx := congrArg List.length hcon
        rw [hkeysRlen] at hx
        norm_num [MAX_KEYS] at hx
      rcases hx : (n.keys.take n.key_count).drop (MAX_KEYS / 2 + 1) with _ | ⟨k0, t⟩
      · exact absurd hx hne
      · have hk0 : k0 ∈ n.keys := by
          have hy : k0 ∈ (n.keys.take n.key_count).drop (MAX_KEYS / 2 + 1) := by
            rw [hx]
            simp
          rw [hkctake] at hy
          exact List.mem_of_mem_drop hy
        rw [hks]
        simp [hk0]
    · left
      refine ⟨hlvsp.symm, ?_⟩
      intro a ha
      have haids : a ∈ ids' := by
        have hsub := rep_lvs_sublist.2 _ _ _ _ _ _ hch
        exact hsub.mem ha
      have hane : a ≠ i := fun he => hndA (he ▸ haids)
      have halt : a < ar.length := hbound a (by rw [hids]; simp [haids])
      unfold nextOf
      rw [hframe a hane halt]

/-! ## Leaf-chain bookkeeping across one insertion -/

theorem nextOf_congr {ar ar' : Arena} {a : ℕ}
    (h : getNode ar' a = getNode ar a) : nextOf ar' a = nextOf ar a := by
  unfold nextOf
  rw [h]

theorem getNode_set_self (ar : Arena) (i : ℕ) (x : BPlusTreeNode)
    (hi : i < ar.length) : getNode (ar.set i x) i = some x := by
  unfold getNode
  exact List.getElem?_set_self (by simpa using hi)

theorem getNode_set_ne (ar : Arena) (i j : ℕ) (x : BPlusTreeNode)
    (hne : j ≠ i) : getNode (ar.set i x) j = getNode ar j := by
  unfold getNode
  exact List.getElem?_set_ne (Ne.symm hne)

/-- How one insertion changes the leaf chain of a subtree: either no leaf was
split (all forward pointers of the subtree's leaves unchanged), or the last
leaf was split, a fresh leaf `m` was appended after it, and the chain was
relinked through `m`. -/
def ChainUpd (ar ar' : Arena) (lvs lvs' : List ℕ) : Prop :=
  (lvs' = lvs ∧ ∀ a ∈ lvs, nextOf ar' a = nextOf ar a) ∨
  (∃ L m, lvs.getLast? = some L ∧ lvs' = lvs ++ [m] ∧
    nextOf ar' L = some m ∧ nextOf ar' m = nextOf ar L ∧
    (∀ a ∈ lvs, a ≠ L → nextOf ar' a = nextOf ar a))

theorem chainUpd_refl {ar ar' : Arena} {lvs : List ℕ}
    (h : ∀ a ∈ lvs, nextOf ar' a = nextOf ar a) : ChainUpd ar ar' lvs lvs :=
  Or.inl ⟨rfl, h⟩

theorem ChainUpd.pres_right {ar1 ar2 ar3 : Arena} {lvs1 lvs2 : List ℕ}
    (h1 : ChainUpd ar1 ar2 lvs1 lvs2)
    (h2 : ∀ a ∈ lvs2, nextOf ar3 a = nextOf ar2 a) :
    ChainUpd ar1 ar3 lvs1 lvs2 := by
  rcases h1 with ⟨heq, hp⟩ | ⟨L, m, hL, heq, hLm, hmn, hp⟩
  · subst heq
    exact Or.inl ⟨rfl, fun a ha => (h2 a ha).trans (hp a ha)⟩
  · subst heq
    refine Or.inr ⟨L, m, hL, rfl, ?_, ?_, ?_⟩
    · rw [h2 L (List.mem_append_left _ (List.mem_of_mem_getLast? hL))]
      exact hLm
    · rw [h2 m (List.mem_append_right _ (by simp))]
      exact hmn
    · intro a ha hane
      rw [h2 a (List.mem_append_left _ ha)]
      exact hp a ha hane

theorem ChainUpd.pres_left {ar1 ar2 ar3 : Arena} {lvs1 lvs2 : List ℕ}
    (h1 : ∀ a ∈ lvs1, nextOf ar2 a = nextOf ar1 a)
    (h2 : ChainUpd ar2 ar3 lvs1 lvs2) :
    ChainUpd ar1 ar3 lvs1 lvs2 := by
  rcases h2 with ⟨heq, hp⟩ | ⟨L, m, hL, heq, hLm, hmn, hp⟩
  · subst heq
    exact Or.inl ⟨rfl, fun a ha => (hp a ha).trans (h1 a ha)⟩
  · subst heq
    refine Or.inr ⟨L, m, hL, rfl, hLm, ?_, ?_⟩
    · rw [hmn]
      exact h1 L (List.mem_of_mem_getLast? hL)
    · intro a ha hane
      rw [hp a ha hane]
      exact h1 a ha

theorem ChainUpd.append_left {ar ar' : Arena} {lvs0 lvs1 lvs1' : List ℕ}
    (h : ChainUpd ar ar' lvs1 lvs1')
    (hp0 : ∀ a ∈ lvs0, nextOf ar' a = nextOf ar a)
    (hne : lvs1 ≠ []) :
    ChainUpd ar ar' (lvs0 ++ lvs1) (lvs0 ++ lvs1') := by
  rcases h with ⟨heq, hp⟩ | ⟨L, m, hL, heq, hLm, hmn, hp⟩
  · subst heq
    refine Or.inl ⟨rfl, ?_⟩
    intro a ha
    rcases List.mem_append.mp ha with h | h
    · exact hp0 a h
    · exact hp a h
  · subst heq
    refine Or.inr ⟨L, m, ?_, by rw [List.append_assoc], hLm, hmn, ?_⟩
    · rw [List.getLast?_append, hL]
      rfl
    · intro a ha hane
      rcases List.mem_append.mp ha with h | h
      · exact hp0 a h
      · exact hp a h hane

theorem chainUpd_of_split_cases {ar ar' : Arena} {lvs lvsL lvsR : List ℕ}
    {i m : ℕ}
    (h : (lvsL ++ lvsR = lvs ∧ ∀ a ∈ lvs, nextOf ar' a = nextOf ar a) ∨
      (lvs = [i] ∧ lvsL = [i] ∧ lvsR = [m] ∧
        nextOf ar' i = some m ∧ nextOf ar' m = nextOf ar i)) :
    ChainUpd ar ar' lvs (lvsL ++ lvsR) := by
  rcases h with ⟨heq, hp⟩ | ⟨hlv, hL, hR, hn1, hn2⟩
  · exact Or.inl ⟨heq, hp⟩
  · subst hlv hL hR
    refine Or.inr ⟨i, m, rfl, rfl, hn1, hn2, ?_⟩
    intro a ha hane
    simp only [List.mem_singleton] at ha
    exact absurd ha hane

/-- One step of `insert_into_node` at a leaf. -/
theorem insertIntoNode_step_leaf (fuel : ℕ) (ar : Arena) (i : ℕ) (r : Record)
    (n : BPlusTreeNode) (hget : getNode ar i = some n) (hl : n.is_leaf = true) :
    insertIntoNode (fuel + 1) ar i r =
      (ar.set i (nodeInsertRecord n r),
        decide ((nodeInsertRecord n r).key_count ≥ MAX_KEYS)) := by
  simp only [insertIntoNode]
  rw [hget]
  dsimp only
  rw [if_pos hl]

/-- One step of `insert_into_node` at an internal node whose recursive call
did not request a split. -/
theorem insertIntoNode_step_internal_nosplit (fuel : ℕ) (ar : Arena) (i c : ℕ)
    (r : Record) (n : BPlusTreeNode) (arC : Arena)
    (hget : getNode ar i = some n) (hl : n.is_leaf = false)
    (hc : n.children[descendFrom n.keys n.key_count r.id 0]? = some c)
    (hres : insertIntoNode fuel ar c r = (arC, false)) :
    insertIntoNode (fuel + 1) ar i r = (arC, false) := by
  simp only [insertIntoNode]
  rw [hget]
  dsimp only
  rw [if_neg (by rw [hl]; exact Bool.false_ne_true)]
  rw [hc]
  dsimp only
  rw [hres]
  dsimp only
  rw [if_neg Bool.false_ne_true]

/-- One step of `insert_into_node` at an internal node whose recursive call
returned a full child: the child is split and the new separator and child
pointer are spliced into this node. -/
theorem insertIntoNode_step_internal_split (fuel : ℕ) (ar : Arena) (i c : ℕ)
    (r : Record) (n n2 newChild : BPlusTreeNode) (arC : Arena)
    (hget : getNode ar i = some n) (hl : n.is_leaf = false)
    (hc : n.children[descendFrom n.keys n.key_count r.id 0]? = some c)
    (hres : insertIntoNode fuel ar c r = (arC, true))
    (hgi : getNode (splitNode arC c).1 i = some n2)
    (hgn : getNode (splitNode arC c).1 (splitNode arC c).2 = some newChild) :
    insertIntoNode (fuel + 1) ar i r =
      ((splitNode arC c).1.set i
        { n2 with
          keys := n2.keys.insertIdx (descendFrom n.keys n.key_count r.id 0)
            (newChild.keys.headD 0)
          children := n2.children.insertIdx
            (descendFrom n.keys n.key_count r.id 0 + 1) (splitNode arC c).2
          key_count := n2.key_count + 1 },
        decide (n2.key_count + 1 ≥ MAX_KEYS)) := by
  simp only [insertIntoNode]
  rw [hget]
  dsimp only
  rw [if_neg (by rw [hl]; exact Bool.false_ne_true)]
  rw [hc]
  dsimp only
  rw [hres]
  dsimp only
  rw [if_pos rfl]
  rw [hgi, hgn]

theorem RepN.self_mem {ar : Arena} {i : ℕ} {ids lvs : List ℕ}
    {rs : List Record} {ks : List Int} (h : RepN ar i ids lvs rs ks) :
    i ∈ ids := by
  cases h with
  | leaf i n hget hshape hcap => simp
  | internal i n ids2 lvsD rsD ksD hget hl hkc hcl hcap hch hnd => simp

/-- Inserting a record whose id dominates every record and every separator
key of a represented subtree.  The insertion descends to the rightmost leaf;
the subtree gains exactly the new record, stays sorted, and the node and
leaf-chain bookkeeping changes only as described.  The boolean result selects
between a still-valid subtree (`RepN`) and a just-filled one (`RepFull`). -/
theorem insertIntoNode_mono :
    ∀ (fuel : ℕ) (ar : Arena) (i : ℕ) (r : Record) (ids lvs : List ℕ)
      (rs : List Record) (ks : List Int),
      RepN ar i ids lvs rs ks →
      ids.length ≤ fuel →
      (∀ x ∈ rs, x.id ≤ r.id) →
      (∀ k ∈ ks, k ≤ r.id) →
      List.Sorted (fun x y : Record => x.id ≤ y.id) rs →
      ∃ ids' lvs' rs' ks',
        ar.length ≤ (insertIntoNode fuel ar i r).1.length ∧
        (∀ j, j < ar.length → j ∉ ids →
          getNode (insertIntoNode fuel ar i r).1 j = getNode ar j) ∧
        ((insertIntoNode fuel ar i r).2 = true →
          RepFull (insertIntoNode fuel ar i r).1 i ids' lvs' rs' ks') ∧
        ((insertIntoNode fuel ar i r).2 = false →
          RepN (insertIntoNode fuel ar i r).1 i ids' lvs' rs' ks') ∧
        rs'.Perm (r :: rs) ∧
        List.Sorted (fun x y : Record => x.id ≤ y.id) rs' ∧
        (∀ j ∈ ids', j ∈ ids ∨ (ar.length ≤ j ∧
          j < (insertIntoNode fuel ar i r).1.length)) ∧
        ids'.Nodup ∧
        (∀ k ∈ ks', k ∈ ks ∨ ∃ x ∈ r :: rs, k ≤ x.id) ∧
        ChainUpd ar (insertIntoNode fuel ar i r).1 lvs lvs' := by
  intro fuel
  induction fuel with
  | zero =>
      intro ar i r ids lvs rs ks h hfuel _ _ _
      have := h.ids_length_pos
      omega
  | succ fuel ih =>
      intro ar i r ids lvs rs ks h hfuel hmono hks hsorted
      cases h with
      | leaf i n hget hsh hcap =>
        have hi : i < ar.length := getNode_lt hget
        obtain ⟨hshape', hklen', hperm', hnext', hkeys'⟩ :=
          nodeInsertRecord_spec n r hsh
        have hstep := insertIntoNode_step_leaf fuel ar i r n hget hsh.1
        rw [hstep]
        dsimp only
        refine ⟨[i], [i], (nodeInsertRecord n r).records, (nodeInsertRecord n r).keys,
          by simp, ?_, ?_, ?_, hperm', ?_, ?_, by simp, ?_, ?_⟩
        · intro j hj hjne
          exact getNode_set_ne ar i j _ (by simpa using hjne)
        · intro hfull
          rw [decide_eq_true_eq] at hfull
          left
          refine ⟨nodeInsertRecord n r,
            getNode_set_self ar i _ hi, hshape', ?_, rfl, rfl, rfl, rfl⟩
          have h1 := hshape'.2.1
          omega
        · intro hnotfull
          rw [decide_eq_false_iff_not] at hnotfull
          refine RepN.leaf _ i (nodeInsertRecord n r)
            (getNode_set_self ar i _ hi) hshape' ?_
          have h1 := hshape'.2.1
          omega
        · have hmapeq := hshape'.2.2.2.1
          have hsortk := hshape'.2.2.2.2
          rw [hmapeq] at hsortk
          exact List.pairwise_map.mp hsortk
        · intro j hj
          simp only [List.mem_singleton] at hj
          subst hj
          left
          simp
        · intro k hk
          rw [hkeys', List.mem_orderedInsert] at hk
          rcases hk with h | h
          · subst h
            exact Or.inr ⟨r, by simp, le_refl _⟩
          · exact Or.inl h
        · refine Or.inl ⟨rfl, ?_⟩
          intro a ha
          simp only [List.mem_singleton] at ha
          subst ha
          unfold nextOf
          rw [getNode_set_self ar a _ hi, hget]
          exact hnext' 
      | internal i n ids2 lvsD rsD ksD hget hl hkc hcl hcap hch hnd =>
        have hi : i < ar.length := getNode_lt hget
        rcases List.eq_nil_or_concat n.children with hnil | ⟨init, c, hdec⟩
        · rw [hnil] at hcl
          simp only [List.length_nil] at hcl
          omega
        rw [List.concat_eq_append] at hdec
        have hinit : init.length = n.key_count := by
          have := hcl
          rw [hdec] at this
          simp only [List.length_append, List.length_singleton] at this
          omega
        have hj : descendFrom n.keys n.key_count r.id 0 = n.key_count := by
          refine descendFrom_eq_of_all_le n.keys n.key_count r.id ?_ 0 (Nat.zero_le _)
          intro m hm
          have hmlt : m < n.keys.length := by omega
          have hmem : n.keys.getD m 0 ∈ n.keys := by
            rw [List.getD_eq_getElem n.keys 0 hmlt]
            exact List.getElem_mem hmlt
          exact hks _ (List.mem_append_left _ hmem)
        have hc' : n.children[descendFrom n.keys n.key_count r.id 0]? = some c := by
          rw [hj, hdec, ← hinit]
          exact List.getElem?_concat_length init c
        rw [hdec] at hch
        obtain ⟨ids0, ids1, lvs0, lvs1, rs0, rs1, ks0, ks1, hI, hL, hR, hK,
          hch0, hchild⟩ := repChildren_snoc_inv init hch
        have hbound0 : ∀ j ∈ ids0, j < ar.length :=
          rep_ids_bound.2 _ _ _ _ _ _ hch0
        have hbound1 : ∀ j ∈ ids1, j < ar.length :=
          rep_ids_bound.1 _ _ _ _ _ _ hchild
        have hcmem : c ∈ ids1 := hchild.self_mem
        have hnd' : i ∉ ids0 ++ ids1 ∧ ids0.Nodup ∧ ids1.Nodup ∧
            ids0.Disjoint ids1 := by
          rw [List.nodup_cons, hI, List.nodup_append] at hnd
          exact ⟨hnd.1, hnd.2.1, hnd.2.2.1, hnd.2.2.2⟩
        have hni0 : i ∉ ids0 := fun hmem => hnd'.1 (List.mem_append_left _ hmem)
        have hni1 : i ∉ ids1 := fun hmem => hnd'.1 (List.mem_append_right _ hmem)
        have hic : i ≠ c := fun he => hni1 (he ▸ hcmem)
        obtain ⟨ids1', lvs1', rs1', ks1', hlen1, hframe1, hfullrep, hnorep,
          hperm1, hsort1, hmem1, hnd1, hksm1, hcu1⟩ :=
          ih ar c r ids1 lvs1 rs1 ks1 hchild
            (by
              have h1 : ids1.length ≤ ids2.length := by
                rw [hI]
                simp
              simp only [List.length_cons] at hfuel
              omega)
            (fun x hx => hmono x (by rw [hR]; exact List.mem_append_right _ hx))
            (fun k hk => hks k
              (List.mem_append_right _ (by rw [hK]; exact List.mem_append_right _ hk)))
            (by
              rw [hR] at hsorted
              exact (List.pairwise_append.mp hsorted).2.1)
        have hgA : getNode (insertIntoNode fuel ar c r).1 i = getNode ar i :=
          hframe1 i hi hni1
        have hframe01 : ∀ j ∈ ids0, getNode (insertIntoNode fuel ar c r).1 j = getNode ar j :=
          fun j hjm => hframe1 j (hbound0 j hjm) (fun hmem => hnd'.2.2.2 hjm hmem)
        have hlvs0sub : lvs0.Sublist ids0 := rep_lvs_sublist.2 _ _ _ _ _ _ hch0
        have hlvs1ne : lvs1 ≠ [] := rep_lvs_ne_nil hchild
        have hsorted01 : List.Sorted (fun x y : Record => x.id ≤ y.id) rs0 ∧
            List.Sorted (fun x y : Record => x.id ≤ y.id) rs1 ∧
            ∀ a ∈ rs0, ∀ b ∈ rs1, a.id ≤ b.id := by
          rw [hR] at hsorted
          exact List.pairwise_append.mp hsorted
        have hsort0 : List.Sorted (fun x y : Record => x.id ≤ y.id) rs0 :=
          hsorted01.1
        have hcross : ∀ a ∈ rs0, ∀ b ∈ rs1', a.id ≤ b.id := by
          intro a ha b hb
          have hbmem : b ∈ r :: rs1 := hperm1.mem_iff.mp hb
          rcases List.mem_cons.mp hbmem with hbr | hbm
          · subst hbr
            exact hmono a (by rw [hR]; exact List.mem_append_left _ ha)
          · exact hsorted01.2.2 a ha b hbm
        have hsortApp : List.Sorted (fun x y : Record => x.id ≤ y.id) (rs0 ++ rs1') :=
          List.pairwise_append.mpr ⟨hsort0, hsort1, hcross⟩
        have hpermApp : (rs0 ++ rs1').Perm (r :: rs) := by
          rw [hR]
          exact (hperm1.append_left rs0).trans List.perm_middle
        cases hfull2 : (insertIntoNode fuel ar c r).2 with
        | false =>
          have hres : insertIntoNode fuel ar c r =
              ((insertIntoNode fuel ar c r).1, false) := by
            rw [← hfull2]
          have hstep := insertIntoNode_step_internal_nosplit fuel ar i c r n
            (insertIntoNode fuel ar c r).1 hget hl hc' hres
          rw [hstep]
          dsimp only
          have hrepC : RepN (insertIntoNode fuel ar c r).1 c ids1' lvs1' rs1' ks1' :=
            hnorep hfull2
          have hch0A : RepChildren (insertIntoNode fuel ar c r).1 init
              ids0 lvs0 rs0 ks0 :=
            rep_frame.2 _ _ _ _ _ _ hch0 _ hframe01
          refine ⟨i :: (ids0 ++ ids1'), lvs0 ++ lvs1', rs0 ++ rs1',
            n.keys ++ (ks0 ++ ks1'), hlen1, ?_, ?_, ?_, hpermApp, hsortApp,
            ?_, ?_, ?_, ?_⟩
          · intro j hjlt hjni
            refine hframe1 j hjlt ?_
            intro hmem
            refine hjni ?_
            rw [hI]
            exact List.mem_cons_of_mem i (List.mem_append_right _ hmem)
          · intro hcon
            exact absurd hcon (by simp)
          · intro _
            refine RepN.internal _ i n (ids0 ++ ids1') (lvs0 ++ lvs1')
              (rs0 ++ rs1') (ks0 ++ ks1') (by rw [hgA]; exact hget) hl hkc hcl hcap
              ?_ ?_
            · rw [hdec]
              exact repChildren_append init hch0A (repChildren_single hrepC)
            · rw [List.nodup_cons, List.nodup_append]
              refine ⟨?_, hnd'.2.1, hnd1, ?_⟩
              · intro hmem
                rcases List.mem_append.mp hmem with h | h
                · exact hni0 h
                · rcases hmem1 i h with h2 | h2
                  · exact hni1 h2
                  · omega
              · intro a ha hamem
                rcases hmem1 a hamem with h2 | h2
                · exact hnd'.2.2.2 ha h2
                · exact absurd (hbound0 a ha) (by omega)
          · intro j hjm
            rcases List.mem_cons.mp hjm with h | h
            · subst h
              left
              simp
            · rcases List.mem_append.mp h with h2 | h2
              · left
                rw [hI]
                exact List.mem_cons_of_mem i (List.mem_append_left _ h2)
              · rcases hmem1 j h2 with h3 | h3
                · left
                  rw [hI]
                  exact List.mem_cons_of_mem i (List.mem_append_right _ h3)
                · right
                  exact h3
          · rw [List.nodup_cons, List.nodup_append]
            refine ⟨?_, hnd'.2.1, hnd1, ?_⟩
            · intro hmem
              rcases List.mem_append.mp hmem with h | h
              · exact hni0 h
              · rcases hmem1 i h with h2 | h2
                · exact hni1 h2
                · omega
            · intro a ha hamem
              rcases hmem1 a hamem with h2 | h2
              · exact hnd'.2.2.2 ha h2
              · exact absurd (hbound0 a ha) (by omega)
          · intro k hk
            rcases List.mem_append.mp hk with h | h
            · exact Or.inl (List.mem_append_left _ h)
            · rcases List.mem_append.mp h with h2 | h2
              · exact Or.inl (List.mem_append_right _
                  (by rw [hK]; exact List.mem_append_left _ h2))
              · rcases hksm1 k h2 with h3 | ⟨x, hx, hxle⟩
                · exact Or.inl (List.mem_append_right _
                    (by rw [hK]; exact List.mem_append_right _ h3))
                · refine Or.inr ⟨x, ?_, hxle⟩
                  rcases List.mem_cons.mp hx with h4 | h4
                  · subst h4
                    simp
                  · refine List.mem_cons_of_mem r ?_
                    rw [hR]
                    exact List.mem_append_right _ h4
          · rw [hL]
            refine ChainUpd.append_left hcu1 ?_ hlvs1ne
            intro a ha
            exact nextOf_congr (hframe01 a (hlvs0sub.mem ha))
        | true =>
          have hres : insertIntoNode fuel ar c r =
              ((insertIntoNode fuel ar c r).1, true) := by
            rw [← hfull2]
          have hrepF : RepFull (insertIntoNode fuel ar c r).1 c ids1' lvs1' rs1' ks1' :=
            hfullrep hfull2
          have hboundC : ∀ j ∈ ids1', j < (insertIntoNode fuel ar c r).1.length := by
            intro j hjm
            rcases hmem1 j hjm with h2 | h2
            · exact lt_of_lt_of_le (hbound1 j h2) hlen1
            · exact h2.2
          obtain ⟨idsL, idsR, lvsL, lvsR, rsL, rsR, ksL, ksR, hsp2, hsplen,
            hframeS, hrepL, hrepR, hrsLR, hlvsLne, hidsLmem, hidsRmem, hdisjLR,
            hksLmem, hksRmem, ⟨nR, hgetnR, hsep⟩, hchainS⟩ :=
            splitNode_of_repFull hrepF hboundC
          have hgi : getNode (splitNode (insertIntoNode fuel ar c r).1 c).1 i =
              some n := by
            rw [hframeS i hic (lt_of_lt_of_le hi hlen1), hgA]
            exact hget
          have hgn : getNode (splitNode (insertIntoNode fuel ar c r).1 c).1
              (splitNode (insertIntoNode fuel ar c r).1 c).2 = some nR := by
            rw [hsp2]
            exact hgetnR
          have hstep := insertIntoNode_step_internal_split fuel ar i c r n n nR
            (insertIntoNode fuel ar c r).1 hget hl hc' hres hgi hgn
          rw [hstep]
          dsimp only
          rw [hj, hsp2]
          have hkeyIdx : n.keys.insertIdx n.key_count (nR.keys.headD 0) =
              n.keys ++ [nR.keys.headD 0] := by
            rw [hkc]
            exact List.insertIdx_length_self n.keys _
          have hchIdx : n.children.insertIdx (n.key_count + 1)
              (insertIntoNode fuel ar c r).1.length =
              (init ++ [c]) ++ [(insertIntoNode fuel ar c r).1.length] := by
            rw [show n.key_count + 1 = n.children.length from by rw [hkc, hcl],
              List.insertIdx_length_self, hdec]
          rw [hkeyIdx, hchIdx]
          -- frames into the final arena
          have hidsLout : ∀ j ∈ idsL, j ≠ i := by
            intro j hjm he
            rcases hmem1 j (hidsLmem j hjm) with h2 | h2
            · exact hni1 (he ▸ h2)
            · subst he
              omega
          have hidsRout : ∀ j ∈ idsR, j ≠ i := by
            intro j hjm he
            rcases hidsRmem j hjm with h2 | h2
            · rcases hmem1 j h2 with h3 | h3
              · exact hni1 (he ▸ h3)
              · subst he
                omega
            · subst he
              rw [h2] at hi
              have := hlen1
              omega
          have hArFinal : ∀ j, j ≠ i →
              j < (splitNode (insertIntoNode fuel ar c r).1 c).1.length →
              getNode ((splitNode (insertIntoNode fuel ar c r).1 c).1.set i
                { n with
                  keys := n.keys ++ [nR.keys.headD 0]
                  children := (init ++ [c]) ++ [(insertIntoNode fuel ar c r).1.length]
                  key_count := n.key_count + 1 }) j =
              getNode (splitNode (insertIntoNode fuel ar c r).1 c).1 j := by
            intro j hne _
            exact getNode_set_ne _ i j _ hne
          have hrepL' : RepN ((splitNode (insertIntoNode fuel ar c r).1 c).1.set i
              { n with
                keys := n.keys ++ [nR.keys.headD 0]
                children := (init ++ [c]) ++ [(insertIntoNode fuel ar c r).1.length]
                key_count := n.key_count + 1 }) c idsL lvsL rsL ksL := by
            refine rep_frame.1 _ _ _ _ _ _ hrepL _ ?_
            intro j hjm
            exact getNode_set_ne _ i j _ (hidsLout j hjm)
          have hrepR' : RepN ((splitNode (insertIntoNode fuel ar c r).1 c).1.set i
              { n with
                keys := n.keys ++ [nR.keys.headD 0]
                children := (init ++ [c]) ++ [(insertIntoNode fuel ar c r).1.length]
                key_count := n.key_count + 1 })
              (insertIntoNode fuel ar c r).1.length idsR lvsR rsR ksR := by
            refine rep_frame.1 _ _ _ _ _ _ hrepR _ ?_
            intro j hjm
            exact getNode_set_ne _ i j _ (hidsRout j hjm)
          have hframe0F : ∀ j ∈ ids0,
              getNode ((splitNode (insertIntoNode fuel ar c r).1 c).1.set i
                { n with
                  keys := n.keys ++ [nR.keys.headD 0]
                  children := (init ++ [c]) ++ [(insertIntoNode fuel ar c r).1.length]
                  key_count := n.key_count + 1 }) j = getNode ar j := by
            intro j hjm
            have hjc : j ≠ c := fun he => hnd'.2.2.2 hjm (he ▸ hcmem)
            have hji : j ≠ i := fun he => hni0 (he ▸ hjm)
            rw [getNode_set_ne _ i j _ hji,
              hframeS j hjc (lt_of_lt_of_le (hbound0 j hjm) hlen1)]
            exact hframe01 j hjm
          have hch0F : RepChildren ((splitNode (insertIntoNode fuel ar c r).1 c).1.set i
              { n with
                keys := n.keys ++ [nR.keys.headD 0]
                children := (init ++ [c]) ++ [(insertIntoNode fuel ar c r).1.length]
                key_count := n.key_count + 1 }) init ids0 lvs0 rs0 ks0 :=
            rep_frame.2 _ _ _ _ _ _ hch0 _ hframe0F
          have hchAll : RepChildren ((splitNode (insertIntoNode fuel ar c r).1 c).1.set i
              { n with
                keys := n.keys ++ [nR.keys.headD 0]
                children := (init ++ [c]) ++ [(insertIntoNode fuel ar c r).1.length]
                key_count := n.key_count + 1 })
              ((init ++ [c]) ++ [(insertIntoNode fuel ar c r).1.length])
              (ids0 ++ (idsL ++ idsR)) (lvs0 ++ (lvsL ++ lvsR))
              (rs0 ++ (rsL ++ rsR)) (ks0 ++ (ksL ++ ksR)) := by
            have hmid := repChildren_append [c] (repChildren_single hrepL')
              (repChildren_single hrepR')
            have := repChildren_append init hch0F hmid
            simpa [List.append_assoc] using this
          have hsetlen : ((splitNode (insertIntoNode fuel ar c r).1 c).1.set i
              { n with
                keys := n.keys ++ [nR.keys.headD 0]
                children := (init ++ [c]) ++ [(insertIntoNode fuel ar c r).1.length]
                key_count := n.key_count + 1 }).length =
              (insertIntoNode fuel ar c r).1.length + 1 := by
            rw [List.length_set, hsplen]
          have hiS : i < (splitNode (insertIntoNode fuel ar c r).1 c).1.length := by
            rw [hsplen]
            exact lt_of_lt_of_le (lt_of_lt_of_le hi hlen1) (Nat.le_succ _)
          have hndAll : (i :: (ids0 ++ (idsL ++ idsR))).Nodup := by
            have hndL := hrepL.ids_nodup
            have hndR := hrepR.ids_nodup
            have hmemL : ∀ j ∈ idsL, j ∈ ids1 ∨
                ((insertIntoNode fuel ar c r).1.length ≤ j ∧
                  j < (insertIntoNode fuel ar c r).1.length + 1) ∨
                (ar.length ≤ j ∧ j < (insertIntoNode fuel ar c r).1.length) := by
              intro j hjm
              rcases hmem1 j (hidsLmem j hjm) with h2 | h2
              · exact Or.inl h2
              · exact Or.inr (Or.inr h2)
            have hmemR : ∀ j ∈ idsR, j ∈ ids1 ∨
                (ar.length ≤ j) := by
              intro j hjm
              rcases hidsRmem j hjm with h2 | h2
              · rcases hmem1 j h2 with h3 | h3
                · exact Or.inl h3
                · exact Or.inr h3.1
              · refine Or.inr ?_
                rw [h2]
                exact hlen1
            rw [List.nodup_cons, List.nodup_append]
            refine ⟨?_, hnd'.2.1, ?_, ?_⟩
            · intro hmem
              rcases List.mem_append.mp hmem with h | h
              · exact hni0 h
              · rcases List.mem_append.mp h with h2 | h2
                · rcases hmemL i h2 with h3 | h3 | h3
                  · exact hni1 h3
                  · have := hlen1
                    omega
                  · omega
                · rcases hmemR i h2 with h3 | h3
                  · exact hni1 h3
                  · omega
            · rw [List.nodup_append]
              refine ⟨hndL, hndR, hdisjLR⟩
            · intro a ha hamem
              have halt : a < ar.length := hbound0 a ha
              rcases List.mem_append.mp hamem with h2 | h2
              · rcases hmemL a h2 with h3 | h3 | h3
                · exact hnd'.2.2.2 ha h3
                · omega
                · omega
              · rcases hmemR a h2 with h3 | h3
                · exact hnd'.2.2.2 ha h3
                · omega
          have hseplift : nR.keys.headD 0 ∈ n.keys ++ ksD ∨
              ∃ x ∈ r :: rs, nR.keys.headD 0 ≤ x.id := by
            rcases hsep with h | ⟨x, hx, hxle⟩
            · rcases hksm1 _ h with h2 | ⟨x, hx, hxle⟩
              · exact Or.inl (List.mem_append_right _
                  (by rw [hK]; exact List.mem_append_right _ h2))
              · refine Or.inr ⟨x, ?_, hxle⟩
                rcases List.mem_cons.mp hx with h4 | h4
                · subst h4
                  simp
                · refine List.mem_cons_of_mem r ?_
                  rw [hR]
                  exact List.mem_append_right _ h4
            · refine Or.inr ⟨x, ?_, hxle⟩
              have hx1 : x ∈ rs1' := by
                rw [hrsLR]
                exact List.mem_append_right _ hx
              rcases List.mem_cons.mp (hperm1.mem_iff.mp hx1) with h4 | h4
              · subst h4
                simp
              · refine List.mem_cons_of_mem r ?_
                rw [hR]
                exact List.mem_append_right _ h4
          have hcuComp : ChainUpd ar
              ((splitNode (insertIntoNode fuel ar c r).1 c).1.set i
                { n with
                  keys := n.keys ++ [nR.keys.headD 0]
                  children := (init ++ [c]) ++ [(insertIntoNode fuel ar c r).1.length]
                  key_count := n.key_count + 1 }) lvs1 (lvsL ++ lvsR) := by
            have hpresSet : ∀ a,
                nextOf ((splitNode (insertIntoNode fuel ar c r).1 c).1.set i
                  { n with
                    keys := n.keys ++ [nR.keys.headD 0]
                    children := (init ++ [c]) ++ [(insertIntoNode fuel ar c r).1.length]
                    key_count := n.key_count + 1 }) a =
                nextOf (splitNode (insertIntoNode fuel ar c r).1 c).1 a := by
              intro a
              by_cases hai : a = i
              · rw [hai]
                unfold nextOf
                rw [getNode_set_self _ i _ hiS, hgi]
              · exact nextOf_congr (getNode_set_ne _ i a _ hai)
            have hmid : ChainUpd ar (splitNode (insertIntoNode fuel ar c r).1 c).1
                lvs1 (lvsL ++ lvsR) := by
              rcases hchainS with ⟨heq, hpres⟩ | ⟨hlv1, hLeq, hReq, hn1, hn2⟩
              · rw [heq]
                exact hcu1.pres_right hpres
              · rcases hcu1 with ⟨heq1, hpres1⟩ | ⟨L, m, hLa, heq2, _, _, _⟩
                · have hlvs1c : lvs1 = [c] := by rw [← heq1, hlv1]
                  rw [hLeq, hReq]
                  refine Or.inr ⟨c, (insertIntoNode fuel ar c r).1.length, ?_,
                    by rw [hlvs1c], hn1, ?_, ?_⟩
                  · rw [hlvs1c]
                    rfl
                  · rw [hn2]
                    exact hpres1 c (by rw [hlvs1c]; simp)
                  · intro a ha hane
                    rw [hlvs1c] at ha
                    simp only [List.mem_singleton] at ha
                    exact absurd ha hane
                · rw [hlv1] at heq2
                  have := congrArg List.length heq2
                  simp only [List.length_append, List.length_singleton] at this
                  have hlen0 : lvs1.length = 0 := by omega
                  rw [List.length_eq_zero] at hlen0
                  exact absurd hlen0 hlvs1ne
            exact hmid.pres_right (fun a _ => hpresSet a)
          refine ⟨i :: (ids0 ++ (idsL ++ idsR)), lvs0 ++ (lvsL ++ lvsR),
            rs0 ++ (rsL ++ rsR), (n.keys ++ [nR.keys.headD 0]) ++ (ks0 ++ (ksL ++ ksR)),
            ?_, ?_, ?_, ?_, ?_, ?_, ?_, hndAll, ?_, ?_⟩
          · rw [hsetlen]
            omega
          · intro j hjlt hjni
            have hji : j ≠ i := fun he => hjni (by rw [he]; simp)
            have hjc : j ≠ c := fun he => hjni (by
              rw [he, hI]
              exact List.mem_cons_of_mem i (List.mem_append_right _ hcmem))
            rw [getNode_set_ne _ i j _ hji,
              hframeS j hjc (lt_of_lt_of_le hjlt hlen1)]
            refine hframe1 j hjlt ?_
            intro hmem
            refine hjni ?_
            rw [hI]
            exact List.mem_cons_of_mem i (List.mem_append_right _ hmem)
          · intro hfullP
            rw [decide_eq_true_eq] at hfullP
            right
            refine ⟨_, ids0 ++ (idsL ++ idsR), ks0 ++ (ksL ++ ksR),
              getNode_set_self _ i _ hiS, hl, ?_, ?_, ?_, hchAll, hndAll, rfl, rfl⟩
            · show n.key_count + 1 = (n.keys ++ [nR.keys.headD 0]).length
              rw [List.length_append, List.length_singleton, hkc]
            · show ((init ++ [c]) ++ [(insertIntoNode fuel ar c r).1.length]).length =
                (n.keys ++ [nR.keys.headD 0]).length + 1
              rw [List.length_append, List.length_singleton, ← hdec, hcl,
                List.length_append, List.length_singleton]
            · show (n.keys ++ [nR.keys.headD 0]).length = MAX_KEYS
              rw [List.length_append, List.length_singleton]
              omega
          · intro hnotfullP
            rw [decide_eq_false_iff_not] at hnotfullP
            refine RepN.internal _ i _ (ids0 ++ (idsL ++ idsR))
              (lvs0 ++ (lvsL ++ lvsR)) (rs0 ++ (rsL ++ rsR)) (ks0 ++ (ksL ++ ksR))
              (getNode_set_self _ i _ hiS) hl ?_ ?_ ?_ hchAll hndAll
            · show n.key_count + 1 = (n.keys ++ [nR.keys.headD 0]).length
              rw [List.length_append, List.length_singleton, hkc]
            · show ((init ++ [c]) ++ [(insertIntoNode fuel ar c r).1.length]).length =
                (n.keys ++ [nR.keys.headD 0]).length + 1
              rw [List.length_append, List.length_singleton, ← hdec, hcl,
                List.length_append, List.length_singleton]
            · show (n.keys ++ [nR.keys.headD 0]).length < MAX_KEYS
              rw [List.length_append, List.length_singleton]
              omega
          · rw [← hrsLR]
            exact hpermApp
          · rw [← hrsLR]
            exact hsortApp
          · intro j hjm
            rcases List.mem_cons.mp hjm with h | h
            · subst h
              left
              simp
            · rcases List.mem_append.mp h with h2 | h2
              · left
                rw [hI]
                exact List.mem_cons_of_mem i (List.mem_append_left _ h2)
              · have hlift : ∀ a, a ∈ ids1' ∨ a = (insertIntoNode fuel ar c r).1.length →
                    a ∈ (i :: ids2) ∨ (ar.length ≤ a ∧
                      a < ((splitNode (insertIntoNode fuel ar c r).1 c).1.set i
                        { n with
                          keys := n.keys ++ [nR.keys.headD 0]
                          children := (init ++ [c]) ++
                            [(insertIntoNode fuel ar c r).1.length]
                          key_count := n.key_count + 1 }).length) := by
                  intro a ha
                  rcases ha with ha | ha
                  · rcases hmem1 a ha with h3 | h3
                    · left
                      rw [hI]
                      exact List.mem_cons_of_mem i (List.mem_append_right _ h3)
                    · right
                      rw [hsetlen]
                      omega
                  · right
                    rw [hsetlen, ha]
                    have := hlen1
                    omega
                rcases List.mem_append.mp h2 with h3 | h3
                · exact hlift j (Or.inl (hidsLmem j h3))
                · exact hlift j (hidsRmem j h3)
          · intro k hk
            rcases List.mem_append.mp hk with h | h
            · rcases List.mem_append.mp h with h2 | h2
              · exact Or.inl (List.mem_append_left _ h2)
              · simp only [List.mem_singleton] at h2
                subst h2
                exact hseplift
            · have hlift : ∀ k0, k0 ∈ ks1' → k0 ∈ n.keys ++ ksD ∨
                  ∃ x ∈ r :: rs, k0 ≤ x.id := by
                intro k0 hk0
                rcases hksm1 k0 hk0 with h3 | ⟨x, hx, hxle⟩
                · exact Or.inl (List.mem_append_right _
                    (by rw [hK]; exact List.mem_append_right _ h3))
                · refine Or.inr ⟨x, ?_, hxle⟩
                  rcases List.mem_cons.mp hx with h4 | h4
                  · subst h4
                    simp
                  · refine List.mem_cons_of_mem r ?_
                    rw [hR]
                    exact List.mem_append_right _ h4
              rcases List.mem_append.mp h with h2 | h2
              · exact Or.inl (List.mem_append_right _
                  (by rw [hK]; exact List.mem_append_left _ h2))
              · rcases List.mem_append.mp h2 with h3 | h3
                · exact hlift k (hksLmem k h3)
                · exact hlift k (hksRmem k h3)
          · rw [hL]
            refine ChainUpd.append_left hcuComp ?_ hlvs1ne
            intro a ha
            exact nextOf_congr (hframe0F a (hlvs0sub.mem ha))

/-- The chain bookkeeping of an insertion composed with the bookkeeping of a
subsequent split of the subtree root. -/
theorem chainUpd_split_compose {ar A sp1 : Arena} {lvs lvs' lvsL lvsR : List ℕ}
    {c m : ℕ}
    (hcu : ChainUpd ar A lvs lvs')
    (hlvsne : lvs ≠ [])
    (hchainS : (lvsL ++ lvsR = lvs' ∧ ∀ a ∈ lvs', nextOf sp1 a = nextOf A a) ∨
      (lvs' = [c] ∧ lvsL = [c] ∧ lvsR = [m] ∧ nextOf sp1 c = some m ∧
        nextOf sp1 m = nextOf A c)) :
    ChainUpd ar sp1 lvs (lvsL ++ lvsR) := by
  rcases hchainS with ⟨heq, hpres⟩ | ⟨hlv1, hLeq, hReq, hn1, hn2⟩
  · rw [heq]
    exact hcu.pres_right hpres
  · rcases hcu with ⟨heq1, hpres1⟩ | ⟨L, m0, hLa, heq2, _, _, _⟩
    · have hlvsc : lvs = [c] := by rw [← heq1, hlv1]
      rw [hLeq, hReq]
      refine Or.inr ⟨c, m, ?_, by rw [hlvsc], hn1, ?_, ?_⟩
      · rw [hlvsc]
        rfl
      · rw [hn2]
        exact hpres1 c (by rw [hlvsc]; simp)
      · intro a ha hane
        rw [hlvsc] at ha
        simp only [List.mem_singleton] at ha
        exact absurd ha hane
    · rw [hlv1] at heq2
      have := congrArg List.length heq2
      simp only [List.length_append, List.length_singleton] at this
      have hlen0 : lvs.length = 0 := by omega
      rw [List.length_eq_zero] at hlen0
      exact absurd hlen0 hlvsne

/-- A `ChainUpd` carries a correctly terminated chain across the update. -/
theorem chainUpd_chain {ar ar' : Arena} {lvs lvs' : List ℕ}
    (hcu : ChainUpd ar ar' lvs lvs')
    (hchain : List.Chain' (fun a b => nextOf ar a = some b) lvs)
    (hlast : ∀ a, lvs.getLast? = some a → nextOf ar a = none) :
    List.Chain' (fun a b => nextOf ar' a = some b) lvs' ∧
    (∀ a, lvs'.getLast? = some a → nextOf ar' a = none) := by
  rcases hcu with ⟨heq, hpres⟩ | ⟨L, m, hLa, heq, hLm, hmn, hpres⟩
  · subst heq
    constructor
    · refine chain'_congr_mem _ ?_ hchain
      intro a ha b hab
      rw [hpres a ha]
      exact hab
    · intro a ha
      rw [hpres a (List.mem_of_mem_getLast? ha)]
      exact hlast a ha
  · subst heq
    constructor
    · rw [List.chain'_append]
      refine ⟨?_, List.chain'_singleton m, ?_⟩
      · refine chain'_congr_mem _ ?_ hchain
        intro a ha b hab
        by_cases haL : a = L
        · subst haL
          rw [hlast a hLa] at hab
          exact absurd hab (by simp)
        · rw [hpres a ha haL]
          exact hab
      · intro x hx y hy
        simp only [List.head?_cons, Option.mem_def, Option.some_inj] at hy
        subst hy
        rw [hLa, Option.mem_def, Option.some_inj] at hx
        subst hx
        exact hLm
    · intro a ha
      rw [List.getLast?_concat] at ha
      rw [Option.some_inj] at ha
      subst ha
      rw [hmn]
      exact hlast L hLa

/-- `insert_record` when the root does not overflow: the arena is updated in
place, the root and the success flag are unchanged, and the record counter
is incremented. -/
theorem insertRecord_step_nosplit (db : CustomBPlusDB) (r : Record)
    (hfull : (insertIntoNode db.nodes.length db.nodes db.root r).2 = false) :
    (insertRecord db r).2 = true ∧
    (insertRecord db r).1.nodes =
      (insertIntoNode db.nodes.length db.nodes db.root r).1 ∧
    (insertRecord db r).1.root = db.root ∧
    (insertRecord db r).1.total_records = db.total_records + 1 ∧
    (insertRecord db r).1.tree_height = db.tree_height := by
  unfold insertRecord
  dsimp only
  rw [hfull, if_neg Bool.false_ne_true]
  by_cases hmod : (db.total_records + 1) % 1000 = 0
  · rw [if_pos hmod]
    exact ⟨rfl, rfl, rfl, rfl, rfl⟩
  · rw [if_neg hmod]
    exact ⟨rfl, rfl, rfl, rfl, rfl⟩

/-- `insert_record` when the root overflows: the root is split, a new root
holding the two halves is appended at the end of the arena, and the record
counter is incremented. -/
theorem insertRecord_step_split (db : CustomBPlusDB) (r : Record)
    (hfull : (insertIntoNode db.nodes.length db.nodes db.root r).2 = true) :
    (insertRecord db r).2 = true ∧
    (insertRecord db r).1.nodes =
      (splitNode (insertIntoNode db.nodes.length db.nodes db.root r).1 db.root).1 ++
      [{ is_leaf := false
         key_count := 1
         subtree_record_count := 0
         keys := [((getNode
            (splitNode (insertIntoNode db.nodes.length db.nodes db.root r).1 db.root).1
            (splitNode (insertIntoNode db.nodes.length db.nodes db.root r).1 db.root).2).getD
            (BPlusTreeNode.mkNode true)).keys.headD 0]
         records := []
         children := [db.root,
           (splitNode (insertIntoNode db.nodes.length db.nodes db.root r).1 db.root).2]
         next_leaf := none }] ∧
    (insertRecord db r).1.root =
      (splitNode (insertIntoNode db.nodes.length db.nodes db.root r).1 db.root).1.length ∧
    (insertRecord db r).1.total_records = db.total_records + 1 ∧
    (insertRecord db r).1.tree_height = db.tree_height + 1 := by
  unfold insertRecord
  dsimp only
  rw [hfull, if_pos rfl]
  by_cases hmod : (db.total_records + 1) % 1000 = 0
  · rw [if_pos hmod]
    exact ⟨rfl, rfl, rfl, rfl, rfl⟩
  · rw [if_neg hmod]
    exact ⟨rfl, rfl, rfl, rfl, rfl⟩

/-- `insert_record` preserves the database invariant when the new record's id
is at least every record id already stored; the record sequence gains exactly
`r` and the call reports success. -/
theorem insertRecord_inv {db : CustomBPlusDB} {ids lvs : List ℕ}
    {rs : List Record} {ks : List Int}
    (hinv : DBInv db ids lvs rs ks) (r : Record)
    (hmono : ∀ x ∈ rs, x.id ≤ r.id) :
    ∃ ids' lvs' rs' ks',
      DBInv (insertRecord db r).1 ids' lvs' rs' ks' ∧ rs'.Perm (r :: rs) ∧
      (insertRecord db r).2 = true := by
  have hksle : ∀ k ∈ ks, k ≤ r.id := by
    intro k hk
    obtain ⟨x, hx, hle⟩ := hinv.keysLe k hk
    exact le_trans hle (hmono x hx)
  obtain ⟨ids', lvs', rs', ks', hlen, hframe, hfullrep, hnorep, hperm, hsort,
    hmem, hnd, hksm, hcu⟩ :=
    insertIntoNode_mono db.nodes.length db.nodes db.root r ids lvs rs ks
      hinv.rep hinv.ids_le_nodes hmono hksle hinv.sorted
  have hkeysLe' : ∀ k ∈ ks', ∃ x ∈ rs', k ≤ x.id := by
    intro k hk
    rcases hksm k hk with h | ⟨x, hx, hle⟩
    · obtain ⟨x, hx, hle⟩ := hinv.keysLe k h
      exact ⟨x, hperm.mem_iff.mpr (List.mem_cons_of_mem r hx), hle⟩
    · exact ⟨x, hperm.mem_iff.mpr hx, hle⟩
  cases hfull : (insertIntoNode db.nodes.length db.nodes db.root r).2 with
  | false =>
    obtain ⟨hret, hnodes, hroot, htot, hth⟩ := insertRecord_step_nosplit db r hfull
    have hrep := hnorep hfull
    obtain ⟨hchain', hlast'⟩ := chainUpd_chain hcu hinv.chain hinv.lastNone
    refine ⟨ids', lvs', rs', ks', ⟨?_, ?_, ?_, ?_, hsort, hkeysLe'⟩, hperm, hret⟩
    · rw [hnodes, hroot]
      exact hrep
    · rw [hnodes]
      exact hchain'
    · intro a ha
      rw [hnodes]
      exact hlast' a ha
    · rw [htot, hinv.total, hperm.length_eq, List.length_cons]
  | true =>
    obtain ⟨hret, hnodes, hroot, htot, hth⟩ := insertRecord_step_split db r hfull
    have hrepF := hfullrep hfull
    have hboundF : ∀ j ∈ ids',
        j < (insertIntoNode db.nodes.length db.nodes db.root r).1.length := by
      intro j hjm
      rcases hmem j hjm with h | h
      · exact lt_of_lt_of_le (rep_ids_bound.1 _ _ _ _ _ _ hinv.rep j h) hlen
      · exact h.2
    obtain ⟨idsL, idsR, lvsL, lvsR, rsL, rsR, ksL, ksR, hsp2, hsplen, hframeS,
      hrepL, hrepR, hrsLR, hlvsLne, hidsLmem, hidsRmem, hdisjLR, hksLmem,
      hksRmem, ⟨nR, hgetnR, hsep⟩, hchainS⟩ :=
      splitNode_of_repFull hrepF hboundF
    have hkeyseq : ((getNode
        (splitNode (insertIntoNode db.nodes.length db.nodes db.root r).1 db.root).1
        (splitNode (insertIntoNode db.nodes.length db.nodes db.root r).1 db.root).2).getD
        (BPlusTreeNode.mkNode true)).keys.headD 0 = nR.keys.headD 0 := by
      rw [hsp2, hgetnR]
      rfl
    have hboundL : ∀ j ∈ idsL,
        j < (splitNode (insertIntoNode db.nodes.length db.nodes db.root r).1 db.root).1.length := by
      intro j hjm
      rw [hsplen]
      exact lt_of_lt_of_le (hboundF j (hidsLmem j hjm)) (Nat.le_succ _)
    have hboundR : ∀ j ∈ idsR,
        j < (splitNode (insertIntoNode db.nodes.length db.nodes db.root r).1 db.root).1.length := by
      intro j hjm
      rw [hsplen]
      rcases hidsRmem j hjm with h | h
      · exact lt_of_lt_of_le (hboundF j h) (Nat.le_succ _)
      · omega
    have hrepL' : RepN (insertRecord db r).1.nodes db.root idsL lvsL rsL ksL := by
      rw [hnodes]
      refine rep_frame.1 _ _ _ _ _ _ hrepL _ ?_
      intro j hjm
      exact getNode_append_frame _ _ j (hboundL j hjm)
    have hrepR' : RepN (insertRecord db r).1.nodes
        (splitNode (insertIntoNode db.nodes.length db.nodes db.root r).1 db.root).2
        idsR lvsR rsR ksR := by
      rw [hnodes, hsp2]
      refine rep_frame.1 _ _ _ _ _ _ hrepR _ ?_
      intro j hjm
      exact getNode_append_frame _ _ j (hboundR j hjm)
    have hgetRoot : getNode (insertRecord db r).1.nodes
        (splitNode (insertIntoNode db.nodes.length db.nodes db.root r).1 db.root).1.length =
        some { is_leaf := false
               key_count := 1
               subtree_record_count := 0
               keys := [nR.keys.headD 0]
               records := []
               children := [db.root,
                 (splitNode (insertIntoNode db.nodes.length db.nodes db.root r).1 db.root).2]
               next_leaf := none } := by
      rw [hnodes, ← hkeyseq]
      exact getNode_append_new _ _
    have hchroot : RepChildren (insertRecord db r).1.nodes
        [db.root, (splitNode (insertIntoNode db.nodes.length db.nodes db.root r).1 db.root).2]
        (idsL ++ idsR) (lvsL ++ lvsR) (rsL ++ rsR) (ksL ++ ksR) :=
      RepChildren.cons _ db.root _ idsL lvsL idsR lvsR rsL rsR ksL ksR hrepL'
        (repChildren_single hrepR')
    have hndroot : ((splitNode (insertIntoNode db.nodes.length db.nodes db.root r).1 db.root).1.length ::
        (idsL ++ idsR)).Nodup := by
      rw [List.nodup_cons, List.nodup_append]
      refine ⟨?_, hrepL.ids_nodup, hrepR.ids_nodup, hdisjLR⟩
      intro hmem2
      rcases List.mem_append.mp hmem2 with h | h
      · exact absurd (hboundL _ h) (by omega)
      · exact absurd (hboundR _ h) (by omega)
    have hreproot : RepN (insertRecord db r).1.nodes (insertRecord db r).1.root
        ((splitNode (insertIntoNode db.nodes.length db.nodes db.root r).1 db.root).1.length ::
          (idsL ++ idsR))
        (lvsL ++ lvsR) (rsL ++ rsR) ([nR.keys.headD 0] ++ (ksL ++ ksR)) := by
      rw [hroot]
      exact RepN.internal _ _ _ (idsL ++ idsR) (lvsL ++ lvsR) (rsL ++ rsR)
        (ksL ++ ksR) hgetRoot rfl rfl rfl (by norm_num [MAX_KEYS]) hchroot hndroot
    have hpresN : ∀ a ∈ lvsL ++ lvsR,
        nextOf (insertRecord db r).1.nodes a =
        nextOf (splitNode (insertIntoNode db.nodes.length db.nodes db.root r).1 db.root).1 a := by
      intro a ha
      rw [hnodes]
      refine nextOf_congr (getNode_append_frame _ _ a ?_)
      rcases List.mem_append.mp ha with h | h
      · exact hboundL a ((rep_lvs_sublist.1 _ _ _ _ _ _ hrepL).mem h)
      · exact hboundR a ((rep_lvs_sublist.1 _ _ _ _ _ _ hrepR).mem h)
    have hcuS : ChainUpd db.nodes
        (splitNode (insertIntoNode db.nodes.length db.nodes db.root r).1 db.root).1
        lvs (lvsL ++ lvsR) :=
      chainUpd_split_compose hcu (rep_lvs_ne_nil hinv.rep) hchainS
    have hcuFinal : ChainUpd db.nodes (insertRecord db r).1.nodes lvs (lvsL ++ lvsR) :=
      hcuS.pres_right hpresN
    obtain ⟨hchain', hlast'⟩ := chainUpd_chain hcuFinal hinv.chain hinv.lastNone
    have hsepLe : ∃ x ∈ rsL ++ rsR, nR.keys.headD 0 ≤ x.id := by
      rcases hsep with h | h
      · obtain ⟨x, hx, hle⟩ := hkeysLe' _ h
        rw [hrsLR] at hx
        exact ⟨x, hx, hle⟩
      · obtain ⟨x, hx, hle⟩ := h
        exact ⟨x, List.mem_append_right _ hx, hle⟩
    refine ⟨_, lvsL ++ lvsR, rsL ++ rsR, [nR.keys.headD 0] ++ (ksL ++ ksR),
      ⟨hreproot, hchain', hlast', ?_, ?_, ?_⟩, ?_, hret⟩
    · rw [htot, hinv.total]
      have := hperm.length_eq
      rw [hrsLR] at this
      rw [this, List.length_cons]
    · rw [← hrsLR]
      exact hsort
    · intro k hk
      rcases List.mem_append.mp hk with h | h
      · simp only [List.mem_singleton] at h
        subst h
        exact hsepLe
      · have hk' : k ∈ ks' := by
          rcases List.mem_append.mp h with h2 | h2
          · exact hksLmem k h2
          · exact hksRmem k h2
        obtain ⟨x, hx, hle⟩ := hkeysLe' k hk'
        rw [hrsLR] at hx
        exact ⟨x, hx, hle⟩
    · rw [← hrsLR]
      exact hperm

/-- A freshly created database satisfies the invariant with a single empty
root leaf. -/
theorem emptyDB_inv : DBInv emptyDB [0] [0] [] [] := by
  refine ⟨?_, List.chain'_singleton 0, ?_, rfl, List.sorted_nil, ?_⟩
  · exact RepN.leaf _ 0 (BPlusTreeNode.mkNode true) rfl
      ⟨rfl, rfl, rfl, rfl, List.sorted_nil⟩
      (by show (0 : ℕ) < MAX_KEYS; norm_num [MAX_KEYS])
  · intro a ha
    simp only [List.getLast?_singleton, Option.some_inj] at ha
    subst ha
    rfl
  · intro k hk
    simp at hk

/-- One step of the `insert_batch` loop on a successful insertion. -/
theorem insertList_step (db : CustomBPlusDB) (r : Record) (rest : List Record)
    (hret : (insertRecord db r).2 = true) :
    insertList db (r :: rest) = insertList (insertRecord db r).1 rest := by
  simp only [insertList]
  rw [hret, if_pos rfl]

/-- Sequential insertion of an id-sorted batch into an invariant-satisfying
database preserves the invariant; the final record sequence is a permutation
of the old records followed by the batch, and the loop reports success. -/
theorem insertList_inv :
    ∀ (rl : List Record) (db : CustomBPlusDB) (ids lvs : List ℕ)
      (rs : List Record) (ks : List Int),
      DBInv db ids lvs rs ks →
      List.Sorted (fun x y : Record => x.id ≤ y.id) (rs ++ rl) →
      ∃ ids' lvs' rs' ks',
        DBInv (insertList db rl).1 ids' lvs' rs' ks' ∧
        rs'.Perm (rs ++ rl) ∧ (insertList db rl).2 = true := by
  intro rl
  induction rl with
  | nil =>
      intro db ids lvs rs ks hinv _
      exact ⟨ids, lvs, rs, ks, hinv, by simp, rfl⟩
  | cons r rest ihr =>
      intro db ids lvs rs ks hinv hsortall
      have hparts := List.pairwise_append.mp hsortall
      have hmono : ∀ x ∈ rs, x.id ≤ r.id := by
        intro x hx
        exact hparts.2.2 x hx r (by simp)
      obtain ⟨ids1, lvs1, rs1, ks1, hinv1, hperm1, hret1⟩ :=
        insertRecord_inv hinv r hmono
      rw [insertList_step db r rest hret1]
      have hsorted' : List.Sorted (fun x y : Record => x.id ≤ y.id) (rs1 ++ rest) := by
        refine List.pairwise_append.mpr ⟨hinv1.sorted, ?_, ?_⟩
        · exact (List.pairwise_cons.mp hparts.2.1).2
        · intro a ha b hb
          rcases List.mem_cons.mp (hperm1.mem_iff.mp ha) with h | h
          · subst h
            exact (List.pairwise_cons.mp hparts.2.1).1 b hb
          · exact hparts.2.2 a h b (List.mem_cons_of_mem r hb)
      obtain ⟨ids2, lvs2, rs2, ks2, hinv2, hperm2, hret2⟩ :=
        ihr _ ids1 lvs1 rs1 ks1 hinv1 hsorted'
      refine ⟨ids2, lvs2, rs2, ks2, hinv2, ?_, hret2⟩
      exact (hperm2.trans (hperm1.append_right rest)).trans List.perm_middle.symm

/-- Two id-sorted permutations of each other with pairwise-distinct ids are
equal. -/
theorem sorted_perm_eq_of_nodup_ids :
    ∀ (l1 l2 : List Record), l1.Perm l2 →
      List.Sorted (fun x y : Record => x.id ≤ y.id) l1 →
      List.Sorted (fun x y : Record => x.id ≤ y.id) l2 →
      (l1.map Record.id).Nodup → l1 = l2 := by
  intro l1
  induction l1 with
  | nil =>
      intro l2 hp _ _ _
      exact (hp.symm.eq_nil).symm
  | cons a t1 ih =>
      intro l2 hp hs1 hs2 hnd
      cases l2 with
      | nil =>
          have := hp.eq_nil
          simp at this
      | cons b t2 =>
          have hbmem : b ∈ a :: t1 := hp.mem_iff.mpr (by simp)
          have hamem : a ∈ b :: t2 := hp.mem_iff.mp (by simp)
          have hab : a.id ≤ b.id := by
            rcases List.mem_cons.mp hbmem with h | h
            · rw [h]
            · exact (List.pairwise_cons.mp hs1).1 b h
          have hba : b.id ≤ a.id := by
            rcases List.mem_cons.mp hamem with h | h
            · rw [h]
            · exact (List.pairwise_cons.mp hs2).1 a h
          have hideq : a.id = b.id := le_antisymm hab hba
          have haeqb : a = b := by
            by_contra hne
            have hbt1 : b ∈ t1 := by
              rcases List.mem_cons.mp hbmem with h | h
              · exact absurd h.symm hne
              · exact h
            have hmem2 : a.id ∈ t1.map Record.id := by
              rw [hideq]
              exact List.mem_map_of_mem Record.id hbt1
            have hnd2 : a.id ∉ t1.map Record.id := by
              rw [List.map_cons] at hnd
              exact (List.nodup_cons.mp hnd).1
            exact hnd2 hmem2
          subst haeqb
          have ht := ih t2 hp.cons_inv (List.pairwise_cons.mp hs1).2
            (List.pairwise_cons.mp hs2).2
            (by
              rw [List.map_cons] at hnd
              exact (List.nodup_cons.mp hnd).2)
          rw [ht]

/-- Any database object whose tree fields have just been reset (as in
`load_from_file`) satisfies the invariant with an empty root leaf. -/
theorem dbinv_of_reset (db' : CustomBPlusDB)
    (hn : db'.nodes = [BPlusTreeNode.mkNode true]) (hr : db'.root = 0)
    (ht : db'.total_records = 0) : DBInv db' [0] [0] [] [] := by
  refine ⟨?_, List.chain'_singleton 0, ?_, ht, List.sorted_nil, ?_⟩
  · rw [hr]
    exact RepN.leaf _ 0 (BPlusTreeNode.mkNode true) (by rw [hn]; rfl)
      ⟨rfl, rfl, rfl, rfl, List.sorted_nil⟩
      (by show (0 : ℕ) < MAX_KEYS; norm_num [MAX_KEYS])
  · intro a ha
    simp only [List.getLast?_singleton, Option.some_inj] at ha
    subst ha
    unfold nextOf
    rw [hn]
    rfl
  · intro k hk
    simp at hk

/-- The id-comparator merge sort used by `insert_batch` produces an id-sorted
list. -/
theorem sorted_mergeSort_records (l : List Record) :
    List.Sorted (fun x y : Record => x.id ≤ y.id)
      (l.mergeSort (fun a b => a.id ≤ b.id)) := by
  have h := @List.sorted_mergeSort Record (fun a b : Record => decide (a.id ≤ b.id))
    (by
      intro a b c hab hbc
      simp only [decide_eq_true_eq] at hab hbc ⊢
      omega)
    (by
      intro a b
      simp only [Bool.or_eq_true, decide_eq_true_eq]
      omega) l
  refine List.Pairwise.imp ?_ h
  intro a b hab
  simpa using hab

/-- C2, amended.  For every invariant tree — duplicate ids included —
`save_to_file` followed by `load_from_file` on a fresh tree yields a tree
whose `collect_leaf_records()` is an id-sorted permutation of the original
record sequence with the same length, with `get_total_records()` preserved
and the load reporting success; when the ids are pairwise distinct the
reloaded sequence is exactly the original sequence sorted by id.  (With
duplicate ids it can be a different permutation: the `lower_bound` insertion
position reverses the relative order of equal ids — see the
counterexample.) -/
theorem save_load_roundtrip_sorted {db db2 : CustomBPlusDB} {ids lvs : List ℕ}
    {rs : List Record} {ks : List Int}
    (hinv : DBInv db ids lvs rs ks) :
    (collectLeafRecords (loadFromFile db2 (saveToFile db)).1).Perm
      (collectAllRecords db) ∧
    List.Sorted (fun x y : Record => x.id ≤ y.id)
      (collectLeafRecords (loadFromFile db2 (saveToFile db)).1) ∧
    (collectLeafRecords (loadFromFile db2 (saveToFile db)).1).length =
      (collectAllRecords db).length ∧
    getTotalRecords (loadFromFile db2 (saveToFile db)).1 = getTotalRecords db ∧
    (loadFromFile db2 (saveToFile db)).2 = true ∧
    (((collectAllRecords db).map Record.id).Nodup →
      collectLeafRecords (loadFromFile db2 (saveToFile db)).1 =
        (collectAllRecords db).mergeSort (fun a b => a.id ≤ b.id)) := by
  have hrs : collectAllRecords db = rs := hinv.collectAll
  have hload : loadFromFile db2 (saveToFile db) =
      insertList
        { db2 with
          nodes := [BPlusTreeNode.mkNode true]
          root := 0
          total_records := 0
          tree_height := 1 }
        ((collectAllRecords db).mergeSort (fun a b => a.id ≤ b.id)) := rfl
  have hinv0 : DBInv
      { db2 with
        nodes := [BPlusTreeNode.mkNode true]
        root := 0
        total_records := 0
        tree_height := 1 } [0] [0] [] [] :=
    dbinv_of_reset _ rfl rfl rfl
  have hsortM : List.Sorted (fun x y : Record => x.id ≤ y.id)
      (([] : List Record) ++ (collectAllRecords db).mergeSort (fun a b => a.id ≤ b.id)) := by
    rw [List.nil_append]
    exact sorted_mergeSort_records _
  obtain ⟨ids', lvs', rs', ks', hinv', hperm', hret'⟩ :=
    insertList_inv ((collectAllRecords db).mergeSort (fun a b => a.id ≤ b.id))
      _ [0] [0] [] [] hinv0 hsortM
  have hpermM : rs'.Perm ((collectAllRecords db).mergeSort (fun a b => a.id ≤ b.id)) := by
    have := hperm'
    rw [List.nil_append] at this
    exact this
  have hpermAll : rs'.Perm (collectAllRecords db) :=
    hpermM.trans (List.mergeSort_perm _ _)
  have hout : collectLeafRecords (loadFromFile db2 (saveToFile db)).1 = rs' := by
    rw [hload]
    exact hinv'.collectLeaf
  refine ⟨by rw [hout]; exact hpermAll, by rw [hout]; exact hinv'.sorted,
    by rw [hout]; exact hpermAll.length_eq, ?_, by rw [hload]; exact hret', ?_⟩
  · show (loadFromFile db2 (saveToFile db)).1.total_records = db.total_records
    rw [hload, hinv'.total, hpermM.length_eq, (List.mergeSort_perm _ _).length_eq,
      hrs, hinv.total]
  · intro hnodup
    have hndrs' : (rs'.map Record.id).Nodup := by
      have hp2 : (rs'.map Record.id).Perm ((collectAllRecords db).map Record.id) :=
        hpermAll.map Record.id
      exact hp2.nodup_iff.mpr hnodup
    have hfinal : rs' = (collectAllRecords db).mergeSort (fun a b => a.id ≤ b.id) :=
      sorted_perm_eq_of_nodup_ids rs' _ hpermM hinv'.sorted
        (sorted_mergeSort_records _) hndrs'
    rw [hout, hfinal]

/-- A tree holding two records with the same id 5 (built by two
`insert_record` calls), distinguished by their timestamps. -/
def tieDB : CustomBPlusDB :=
  (insertList emptyDB [⟨5, 0, 0, 0, 1⟩, ⟨5, 0, 0, 0, 2⟩]).1

/-- C2 counterexample to the unamended claim: with a duplicated id the
reloaded tree's `collect_leaf_records()` differs from the original record
sequence sorted by id (the insertion position `lower_bound` places a
re-inserted record before its equal-id predecessor, reversing ties). -/
theorem save_load_tie_counterexample :
    collectLeafRecords (loadFromFile emptyDB (saveToFile tieDB)).1 ≠
      (collectAllRecords tieDB).mergeSort (fun a b => a.id ≤ b.id) := by
  simp [tieDB, insertList, insertRecord, insertIntoNode, nodeInsertRecord,
    lowerBound, lowerBoundFrom, splitNode, getNode, emptyDB, BPlusTreeNode.mkNode,
    collectLeafRecords, walkLeaves, leftmostFrom, collectAllRecords, getAllRecords,
    saveToFile, loadFromFile, insertBatch, List.mergeSort, getTotalRecords,
    MAX_KEYS, Record.default0]

/-! ## Sampler behaviour at extreme percentages -/

/-- A database consisting of a single leaf holding `recs` (the state after
inserting `recs` in id order while staying below the split threshold). -/
def oneLeafDB (recs : List Record) : CustomBPlusDB :=
  { nodes := [⟨true, recs.length, recs.length, recs.map Record.id, recs, [], none⟩]
    root := 0
    total_records := recs.length
    tree_height := 1
    memory_mapped := false
    cached_records := [] }

theorem collectLeafRecords_oneLeaf (recs : List Record) :
    collectLeafRecords (oneLeafDB recs) = recs := by
  unfold collectLeafRecords oneLeafDB
  simp only [List.length_singleton]
  unfold leftmostFrom walkLeaves
  simp [getNode, List.take_length]
  rfl

/-- The unit-stride emission loop with sufficient budget copies the suffix. -/
theorem strideGo_one (L : List Record) :
    ∀ (rem i : ℕ), L.length ≤ i + rem →
      strideGo L 1 L.length rem i = L.drop i := by
  intro rem
  induction rem with
  | zero =>
      intro i h
      rw [List.drop_eq_nil_of_le (by omega)]
      rfl
  | succ m ih =>
      intro i h
      simp only [strideGo]
      by_cases hi : i < L.length
      · rw [if_pos hi, ih (i + 1) (by omega), List.getD_eq_getElem L _ hi]
        exact (List.drop_eq_getElem_cons hi).symm
      · rw [if_neg hi, List.drop_eq_nil_of_le (by omega)]

/-- `slow_pointer_sample` with `p ≥ 100` returns the full sequence (provided
the truncated target stays inside the modelled integer range). -/
theorem slowPointerCore_ge100 (L : List Record) (p : ℚ) (hp : 100 ≤ p)
    (hcap : cppTrunc ((L.length : ℚ) * p / 100) < 2 ^ 63) :
    slowPointerCore L p = L := by
  by_cases hL : L = []
  · rw [slowPointerCore, if_pos hL, hL]
  · rw [slowPointerCore, if_neg hL]
    have hq : ((L.length : ℚ)) ≤ (L.length : ℚ) * p / 100 := by
      have h0 : (0 : ℚ) ≤ (L.length : ℚ) := Nat.cast_nonneg _
      have h1 : (L.length : ℚ) * 100 ≤ (L.length : ℚ) * p :=
        mul_le_mul_of_nonneg_left hp h0
      calc (L.length : ℚ) = (L.length : ℚ) * 100 / 100 := by ring
      _ ≤ (L.length : ℚ) * p / 100 := (div_le_div_right (by norm_num)).mpr h1
    have htr : cppTrunc ((L.length : ℚ) * p / 100) = ⌊(L.length : ℚ) * p / 100⌋ :=
      cppTrunc_eq_floor_of_nonneg _ (le_trans (Nat.cast_nonneg _) hq)
    have hge : (L.length : ℤ) ≤ cppTrunc ((L.length : ℚ) * p / 100) := by
      rw [htr]
      exact Int.le_floor.mpr (by exact_mod_cast hq)
    have hNpos : 0 < L.length := List.length_pos.mpr hL
    have htgt0 : cppTrunc ((L.length : ℚ) * p / 100) ≠ 0 := by
      intro hcon
      rw [hcon] at hge
      exact_mod_cast absurd hge (by simp [hNpos]; omega)
    rw [if_neg htgt0]
    have hu : toUSize (cppTrunc ((L.length : ℚ) * p / 100)) =
        (cppTrunc ((L.length : ℚ) * p / 100)).toNat := by
      unfold toUSize
      omega
    have huge : L.length ≤ toUSize (cppTrunc ((L.length : ℚ) * p / 100)) := by
      rw [hu]
      omega
    have hdivle : L.length / toUSize (cppTrunc ((L.length : ℚ) * p / 100)) ≤ 1 := by
      calc L.length / toUSize (cppTrunc ((L.length : ℚ) * p / 100)) ≤
          L.length / L.length := Nat.div_le_div_left huge hNpos
      _ = 1 := Nat.div_self hNpos
    have hstep : max 1 (L.length / toUSize (cppTrunc ((L.length : ℚ) * p / 100))) = 1 := by
      omega
    rw [hstep, strideGo_one L _ 0 (by omega), List.drop_zero]

/-- `slow_pointer_sample` with a sufficiently negative `p`: the truncated
target is negative, the `size_t` conversion turns it into a huge budget, and
the sampler emits the FULL sequence instead of an empty one. -/
theorem slowPointerCore_neg (L : List Record) (p : ℚ) (hL : L ≠ [])
    (hneg : cppTrunc ((L.length : ℚ) * p / 100) < 0)
    (hcap : -(2 ^ 63) ≤ cppTrunc ((L.length : ℚ) * p / 100))
    (hlen : (L.length : ℤ) < 2 ^ 63) :
    slowPointerCore L p = L := by
  rw [slowPointerCore, if_neg hL, if_neg (by omega)]
  have hu : (2 ^ 63 : ℕ) ≤ toUSize (cppTrunc ((L.length : ℚ) * p / 100)) := by
    unfold toUSize
    omega
  have huge : L.length ≤ toUSize (cppTrunc ((L.length : ℚ) * p / 100)) := by
    omega
  have hNpos : 0 < L.length := List.length_pos.mpr hL
  have hdivle : L.length / toUSize (cppTrunc ((L.length : ℚ) * p / 100)) ≤ 1 := by
    calc L.length / toUSize (cppTrunc ((L.length : ℚ) * p / 100)) ≤
        L.length / L.length := Nat.div_le_div_left huge hNpos
    _ = 1 := Nat.div_self hNpos
  have hstep : max 1 (L.length / toUSize (cppTrunc ((L.length : ℚ) * p / 100))) = 1 := by
    omega
  rw [hstep, strideGo_one L _ 0 (by omega), List.drop_zero]

/-- C5, amended.  At the extreme percentages the samplers behave as follows:
`slow_pointer_sample` returns the full sequence for `p ≥ 100` (within the
integer range of the target) and the empty sequence for `p = 0`;
`fast_pointer_sample`, `dual_pointer_sample` and `block_sample` return the
empty sequence for `p = 0`; `optimized_sequential_sample` returns the full
sequence for `p ≥ 100` and the empty sequence for all `p ≤ 0`.  (The original
claim fails in two ways: `fast_pointer_sample` at `p ≥ 100` strides by
`step_size` and skips records, and for negative `p` the pointer samplers'
`size_t` wrap turns the negative target into a huge budget so the full
sequence is returned instead of an empty one — see the counterexample.) -/
theorem sampler_extreme_percentages (db : CustomBPlusDB) (p : ℚ) (soff : ℚ)
    (step_size : ℕ) :
    (100 ≤ p → cppTrunc (((collectLeafRecords db).length : ℚ) * p / 100) < 2 ^ 63 →
      slowPointerSample db p = collectLeafRecords db) ∧
    (100 ≤ p → optimizedSequentialSample db p soff = collectAllRecords db) ∧
    (p ≤ 0 → optimizedSequentialSample db p soff = []) ∧
    slowPointerSample db 0 = [] ∧
    fastPointerSample db 0 step_size = [] ∧
    dualPointerSample db 0 = some [] ∧
    blockSample db 0 step_size = some [] := by
  have hzero : ∀ L : List Record, cppTrunc ((L.length : ℚ) * 0 / 100) = 0 := by
    intro L
    rw [mul_zero, zero_div, cppTrunc_zero]
  refine ⟨?_, ?_, ?_, ?_, ?_, ?_, ?_⟩
  · intro hp hcap
    exact slowPointerCore_ge100 _ p hp hcap
  · intro hp
    rw [optimizedSequentialSample, if_pos hp]
  · intro hp
    rw [optimizedSequentialSample,
      if_neg (by intro hcon; exact absurd (le_trans hcon hp) (by norm_num)),
      if_pos hp]
  · rw [slowPointerSample, slowPointerCore]
    by_cases hL : collectLeafRecords db = []
    · rw [if_pos hL]
    · rw [if_neg hL, if_pos (hzero _)]
  · rw [fastPointerSample, fastPointerCore]
    by_cases hL : collectLeafRecords db = []
    · rw [if_pos hL]
    · rw [if_neg hL, if_pos (hzero _)]
  · rw [dualPointerSample, dualPointerCore]
    by_cases hL : collectLeafRecords db = []
    · rw [if_pos hL]
    · rw [if_neg hL, if_pos (hzero _)]
  · rw [blockSample, blockSampleCore]
    by_cases hL : collectLeafRecords db = []
    · rw [if_pos hL]
    · rw [if_neg hL, if_pos (hzero _)]

/-- Witness for `sampler_extreme_percentages` on a concrete two-record tree at
`p = 100` and `p = 0`. -/
theorem sampler_extreme_percentages_witness :
    ((100 : ℚ) ≤ 100) ∧
    cppTrunc (((collectLeafRecords (oneLeafDB
      [⟨1, 0, 0, 0, 0⟩, ⟨2, 0, 0, 0, 0⟩])).length : ℚ) * 100 / 100) < 2 ^ 63 ∧
    slowPointerSample (oneLeafDB [⟨1, 0, 0, 0, 0⟩, ⟨2, 0, 0, 0, 0⟩]) 100 =
      collectLeafRecords (oneLeafDB [⟨1, 0, 0, 0, 0⟩, ⟨2, 0, 0, 0, 0⟩]) ∧
    optimizedSequentialSample (oneLeafDB [⟨1, 0, 0, 0, 0⟩, ⟨2, 0, 0, 0, 0⟩]) 0 0 = [] :=
  ⟨le_refl 100,
    by rw [collectLeafRecords_oneLeaf]; norm_num [cppTrunc],
    (sampler_extreme_percentages (oneLeafDB [⟨1, 0, 0, 0, 0⟩, ⟨2, 0, 0, 0, 0⟩])
      100 0 2).1 (le_refl 100)
      (by rw [collectLeafRecords_oneLeaf]; norm_num [cppTrunc]),
    (sampler_extreme_percentages (oneLeafDB [⟨1, 0, 0, 0, 0⟩, ⟨2, 0, 0, 0, 0⟩])
      0 0 2).2.2.1 (by norm_num)⟩

/-- C5 counterexample to the unamended claim: on a two-record tree,
`fast_pointer_sample` at `p = 100` with `step_size = 2` skips a record
(not the full sequence), and `slow_pointer_sample` at `p = -50` returns the
full sequence (not the empty one): the negative target (`-1`) wraps to a huge
`size_t` budget. -/
theorem sampler_extreme_percentages_counterexample :
    fastPointerSample (oneLeafDB [⟨1, 0, 0, 0, 0⟩, ⟨2, 0, 0, 0, 0⟩]) 100 2 ≠
      collectLeafRecords (oneLeafDB [⟨1, 0, 0, 0, 0⟩, ⟨2, 0, 0, 0, 0⟩]) ∧
    slowPointerSample (oneLeafDB [⟨1, 0, 0, 0, 0⟩, ⟨2, 0, 0, 0, 0⟩]) (-50) ≠ [] := by
  constructor
  · rw [fastPointerSample, collectLeafRecords_oneLeaf]
    norm_num [fastPointerCore, cppTrunc, toUSize, strideGo, Record.default0,
      List.cons_ne_nil]
  · rw [slowPointerSample, collectLeafRecords_oneLeaf]
    rw [slowPointerCore_neg _ (-50) (List.cons_ne_nil _ _) (by norm_num [cppTrunc])
      (by norm_num [cppTrunc]) (by norm_num)]
    exact List.cons_ne_nil _ _

/-- One hundred records with ids `0..99` (the materialized leaf sequence of a
100-record tree). -/
def recs100 : List Record :=
  (List.range 100).map (fun k : ℕ => ⟨(k : ℤ), 0, 0, 0, 0⟩)

/-- C6: divergence witness.  On a tree of 100 records with `p = 1` (inside
`(0,100)`), `dual_pointer_sample` computes `target_count = 1`,
`fast_target = target_count / 3 = 0`, and then divides
`all_records.size()` by `fast_target` — a `size_t` division by zero
(undefined behaviour), modelled as `none`.  The claimed sample-size bounds
are therefore unsatisfiable on this input. -/
theorem dualPointer_divides_by_zero :
    dualPointerSample (oneLeafDB recs100) 1 = none := by
  have hlen : recs100.length = 100 := by
    rw [recs100, List.length_map, List.length_range]
  rw [dualPointerSample, collectLeafRecords_oneLeaf, dualPointerCore]
  rw [if_neg (by
    intro hcon
    rw [hcon] at hlen
    simp at hlen)]
  rw [hlen]
  have htgt : cppTrunc (((100 : ℕ) : ℚ) * 1 / 100) = 1 := by norm_num [cppTrunc]
  rw [htgt, if_neg (by norm_num), if_pos (by decide)]

/-! ## Random pointer sampling: determinism and position ordering -/

theorem mem_insertSortedNodup (x : ℕ) :
    ∀ (l : List ℕ) (b : ℕ), b ∈ insertSortedNodup x l ↔ b = x ∨ b ∈ l := by
  intro l
  induction l with
  | nil =>
      intro b
      simp [insertSortedNodup]
  | cons y ys ih =>
      intro b
      unfold insertSortedNodup
      by_cases h1 : x < y
      · rw [if_pos h1]
        simp only [List.mem_cons]
      · rw [if_neg h1]
        by_cases h2 : x = y
        · rw [if_pos h2]
          simp only [List.mem_cons]
          subst h2
          tauto
        · rw [if_neg h2]
          simp only [List.mem_cons, ih b]
          tauto

theorem insertSortedNodup_sorted (x : ℕ) :
    ∀ l : List ℕ, List.Sorted (· < ·) l →
      List.Sorted (· < ·) (insertSortedNodup x l) := by
  intro l
  induction l with
  | nil =>
      intro _
      simp [insertSortedNodup]
  | cons y ys ih =>
      intro hs
      have hys := (List.pairwise_cons.mp hs).2
      have hyall := (List.pairwise_cons.mp hs).1
      unfold insertSortedNodup
      by_cases h1 : x < y
      · rw [if_pos h1]
        refine List.pairwise_cons.mpr ⟨?_, hs⟩
        intro b hb
        rcases List.mem_cons.mp hb with h | h
        · omega
        · have := hyall b h
          omega
      · rw [if_neg h1]
        by_cases h2 : x = y
        · rw [if_pos h2]
          exact hs
        · rw [if_neg h2]
          refine List.pairwise_cons.mpr ⟨?_, ih hys⟩
          intro b hb
          rcases (mem_insertSortedNodup x ys b).mp hb with h | h
          · omega
          · exact hyall b h

theorem randomPositionsGo_sorted (stream : ℕ → ℕ) (n tgt : ℕ) :
    ∀ (fuel k : ℕ) (acc : List ℕ), List.Sorted (· < ·) acc →
      List.Sorted (· < ·) (randomPositionsGo stream n tgt fuel k acc) := by
  intro fuel
  induction fuel with
  | zero =>
      intro k acc hs
      exact hs
  | succ m ih =>
      intro k acc hs
      unfold randomPositionsGo
      by_cases hc : acc.length < tgt ∧ acc.length < n
      · rw [if_pos hc]
        exact ih (k + 1) _ (insertSortedNodup_sorted _ _ hs)
      · rw [if_neg hc]
        exact hs

theorem randomPositionsGo_zero_tgt (stream : ℕ → ℕ) (n : ℕ) :
    ∀ (fuel k : ℕ), randomPositionsGo stream n 0 fuel k [] = [] := by
  intro fuel k
  cases fuel with
  | zero => rfl
  | succ m =>
      unfold randomPositionsGo
      rw [if_neg (by simp)]

/-- C8: `random_pointer_sample` is deterministic — its output is a function
of the materialized record sequence, the percentage and the seeded draw
stream alone — and the sampled positions form a strictly increasing (hence
duplicate-free) sequence, the order in which the records are emitted. -/
theorem randomPointer_deterministic (db1 db2 : CustomBPlusDB) (p : ℚ)
    (stream : ℕ → ℕ) (fuel : ℕ)
    (h : collectLeafRecords db1 = collectLeafRecords db2) :
    randomPointerSample db1 p stream fuel = randomPointerSample db2 p stream fuel ∧
    List.Sorted (· < ·) (randomPointerPositions (collectLeafRecords db1) p stream fuel) ∧
    randomPointerSample db1 p stream fuel =
      (randomPointerPositions (collectLeafRecords db1) p stream fuel).map
        (fun pos => (collectLeafRecords db1).getD pos Record.default0) := by
  refine ⟨by rw [randomPointerSample, h, randomPointerSample], ?_, ?_⟩
  · unfold randomPointerPositions
    exact randomPositionsGo_sorted _ _ _ _ _ _ List.sorted_nil
  · unfold randomPointerSample randomPointerCore randomPointerPositions
    by_cases hL : collectLeafRecords db1 = []
    · rw [if_pos hL, hL]
      simp only [List.length_nil, Nat.cast_zero, zero_mul, zero_div, cppTrunc_zero]
      rw [show toUSize 0 = 0 from rfl, randomPositionsGo_zero_tgt]
      rfl
    · rw [if_neg hL]
      by_cases htgt : cppTrunc (((collectLeafRecords db1).length : ℚ) * p / 100) = 0
      · rw [if_pos htgt, htgt]
        rw [show toUSize 0 = 0 from rfl, randomPositionsGo_zero_tgt]
        rfl
      · rw [if_neg htgt]

/-- Witness for `randomPointer_deterministic` on a concrete two-record tree
with the identity draw stream. -/
theorem randomPointer_deterministic_witness :
    collectLeafRecords (oneLeafDB [⟨1, 0, 0, 0, 0⟩, ⟨2, 0, 0, 0, 0⟩]) =
      collectLeafRecords (oneLeafDB [⟨1, 0, 0, 0, 0⟩, ⟨2, 0, 0, 0, 0⟩]) ∧
    (randomPointerSample (oneLeafDB [⟨1, 0, 0, 0, 0⟩, ⟨2, 0, 0, 0, 0⟩]) 50
        (fun k => k) 5 =
      randomPointerSample (oneLeafDB [⟨1, 0, 0, 0, 0⟩, ⟨2, 0, 0, 0, 0⟩]) 50
        (fun k => k) 5 ∧
    List.Sorted (· < ·) (randomPointerPositions
      (collectLeafRecords (oneLeafDB [⟨1, 0, 0, 0, 0⟩, ⟨2, 0, 0, 0, 0⟩])) 50
      (fun k => k) 5) ∧
    randomPointerSample (oneLeafDB [⟨1, 0, 0, 0, 0⟩, ⟨2, 0, 0, 0, 0⟩]) 50
        (fun k => k) 5 =
      (randomPointerPositions
        (collectLeafRecords (oneLeafDB [⟨1, 0, 0, 0, 0⟩, ⟨2, 0, 0, 0, 0⟩])) 50
        (fun k => k) 5).map
        (fun pos => (collectLeafRecords
          (oneLeafDB [⟨1, 0, 0, 0, 0⟩, ⟨2, 0, 0, 0, 0⟩])).getD pos
          Record.default0)) :=
  ⟨rfl, randomPointer_deterministic _ _ 50 (fun k => k) 5 rfl⟩

/-! ## C1: ordered collection after arbitrary insertion sequences
(height ≤ 2)

The internal-node split of `BPlusTreeNode::split` copies the upper keys from
`mid + 1` but pushes the new child's own first key as the parent separator,
dropping `keys[mid]`; separator-based descent is therefore only reliable while
no internal node has ever been split, i.e. while the tree height is at most 2
(a root leaf, or a root whose children are all leaves).  The development
below verifies the claim in that regime. -/

/-- A row of chained leaves under a height-2 root: `cs` are the leaf ids in
order, `seps` the parent separators between them, `bss` their record blocks.
Each block is bounded above by the separator to its right, every later block
is bounded below by it, consecutive leaves are linked and the last link is
null. -/
inductive Leaves2 (ar : Arena) : List ℕ → List Int → List (List Record) → Prop
  | single (c : ℕ) (nc : BPlusTreeNode)
      (hget : getNode ar c = some nc)
      (hsh : LeafShape nc)
      (hcap : nc.keys.length < MAX_KEYS)
      (hne : nc.records ≠ [])
      (hnext : nextOf ar c = none) :
      Leaves2 ar [c] [] [nc.records]
  | cons (c : ℕ) (nc : BPlusTreeNode) (s : Int) (cs : List ℕ) (seps : List Int)
      (bss : List (List Record))
      (hget : getNode ar c = some nc)
      (hsh : LeafShape nc)
      (hcap : nc.keys.length < MAX_KEYS)
      (hne : nc.records ≠ [])
      (hub : ∀ x ∈ nc.records, x.id ≤ s)
      (hlb : ∀ b ∈ bss, ∀ x ∈ b, s ≤ x.id)
      (hnotin : c ∉ cs)
      (hnext : nextOf ar c = cs.head?)
      (htail : Leaves2 ar cs seps bss) :
      Leaves2 ar (c :: cs) (s :: seps) (nc.records :: bss)

theorem Leaves2.cs_ne_nil {ar cs seps bss} (h : Leaves2 ar cs seps bss) :
    cs ≠ [] := by
  cases h <;> simp

theorem Leaves2.lengths {ar cs seps bss} (h : Leaves2 ar cs seps bss) :
    cs.length = seps.length + 1 ∧ bss.length = cs.length := by
  induction h with
  | single c nc hget hsh hcap hne hnext => simp
  | cons c nc s cs seps bss hget hsh hcap hne hub hlb hnotin hnext htail ih =>
      simp only [List.length_cons]
      omega

theorem Leaves2.nodup {ar cs seps bss} (h : Leaves2 ar cs seps bss) :
    cs.Nodup := by
  induction h with
  | single c nc hget hsh hcap hne hnext => simp
  | cons c nc s cs seps bss hget hsh hcap hne hub hlb hnotin hnext htail ih =>
      exact List.nodup_cons.mpr ⟨hnotin, ih⟩

theorem Leaves2.bounded {ar cs seps bss} (h : Leaves2 ar cs seps bss) :
    ∀ c ∈ cs, c < ar.length := by
  induction h with
  | single c nc hget hsh hcap hne hnext =>
      intro j hj
      simp only [List.mem_singleton] at hj
      subst hj
      exact getNode_lt hget
  | cons c nc s cs seps bss hget hsh hcap hne hub hlb hnotin hnext htail ih =>
      intro j hj
      rcases List.mem_cons.mp hj with h2 | h2
      · subst h2
        exact getNode_lt hget
      · exact ih j h2

theorem Leaves2.frame {ar cs seps bss} (h : Leaves2 ar cs seps bss)
    (ar2 : Arena) (hagree : ∀ c ∈ cs, getNode ar2 c = getNode ar c) :
    Leaves2 ar2 cs seps bss := by
  induction h with
  | single c nc hget hsh hcap hne hnext =>
      refine Leaves2.single c nc ?_ hsh hcap hne ?_
      · rw [hagree c (by simp)]
        exact hget
      · rw [nextOf_congr (hagree c (by simp))]
        exact hnext
  | cons c nc s cs seps bss hget hsh hcap hne hub hlb hnotin hnext htail ih =>
      refine Leaves2.cons c nc s cs seps bss ?_ hsh hcap hne hub hlb hnotin ?_
        (ih (fun j hj => hagree j (List.mem_cons_of_mem c hj)))
      · rw [hagree c (by simp)]
        exact hget
      · rw [nextOf_congr (hagree c (by simp))]
        exact hnext

theorem Leaves2.chain {ar cs seps bss} (h : Leaves2 ar cs seps bss) :
    List.Chain' (fun a b => nextOf ar a = some b) cs ∧
    (∀ a, cs.getLast? = some a → nextOf ar a = none) := by
  induction h with
  | single c nc hget hsh hcap hne hnext =>
      refine ⟨List.chain'_singleton c, ?_⟩
      intro a ha
      simp only [List.getLast?_singleton, Option.some_inj] at ha
      subst ha
      exact hnext
  | cons c nc s cs seps bss hget hsh hcap hne hub hlb hnotin hnext htail ih =>
      have hcsne := htail.cs_ne_nil
      constructor
      · rw [List.chain'_cons']
        refine ⟨?_, ih.1⟩
        intro y hy
        rw [hnext]
        exact hy
      · intro a ha
        have hgl : (c :: cs).getLast? = cs.getLast? := by
          cases cs with
          | nil => exact absurd rfl hcsne
          | cons d ds => rw [List.getLast?_cons_cons]
        rw [hgl] at ha
        exact ih.2 a ha

theorem Leaves2.blocks_sorted {ar cs seps bss} (h : Leaves2 ar cs seps bss) :
    ∀ b ∈ bss, List.Sorted (fun x y : Record => x.id ≤ y.id) b := by
  induction h with
  | single c nc hget hsh hcap hne hnext =>
      intro b hb
      simp only [List.mem_singleton] at hb
      subst hb
      have := hsh.2.2.2.2
      rw [hsh.2.2.2.1] at this
      exact List.pairwise_map.mp this
  | cons c nc s cs seps bss hget hsh hcap hne hub hlb hnotin hnext htail ih =>
      intro b hb
      rcases List.mem_cons.mp hb with h2 | h2
      · subst h2
        have := hsh.2.2.2.2
        rw [hsh.2.2.2.1] at this
        exact List.pairwise_map.mp this
      · exact ih b h2

theorem Leaves2.flatten_sorted {ar cs seps bss} (h : Leaves2 ar cs seps bss) :
    List.Sorted (fun x y : Record => x.id ≤ y.id) bss.flatten := by
  induction h with
  | single c nc hget hsh hcap hne hnext =>
      simp only [List.flatten, List.append_nil]
      have := hsh.2.2.2.2
      rw [hsh.2.2.2.1] at this
      exact List.pairwise_map.mp this
  | cons c nc s cs seps bss hget hsh hcap hne hub hlb hnotin hnext htail ih =>
      rw [List.flatten_cons]
      refine List.pairwise_append.mpr ⟨?_, ih, ?_⟩
      · have := hsh.2.2.2.2
        rw [hsh.2.2.2.1] at this
        exact List.pairwise_map.mp this
      · intro x hx y hy
        obtain ⟨b, hb, hyb⟩ := List.mem_flatten.mp hy
        exact le_trans (hub x hx) (hlb b hb y hyb)

theorem Leaves2.leafRecordsAt {ar cs seps bss} (h : Leaves2 ar cs seps bss) :
    List.Forall₂ (LeafRecordsAt ar) cs bss := by
  induction h with
  | single c nc hget hsh hcap hne hnext =>
      exact List.Forall₂.cons ⟨nc, hget, hsh, rfl⟩ List.Forall₂.nil
  | cons c nc s cs seps bss hget hsh hcap hne hub hlb hnotin hnext htail ih =>
      exact List.Forall₂.cons ⟨nc, hget, hsh, rfl⟩ ih

/-- Replacing the `j`-th leaf's node object in place (the no-split insertion)
preserves the leaf row, with the `j`-th block replaced, provided the new
block respects the separators around position `j`. -/
theorem leaves2_set (ar : Arena) {cs : List ℕ} {seps : List Int}
    {bss : List (List Record)} :
    ∀ (j : ℕ), Leaves2 ar cs seps bss →
      ∀ (cj : ℕ), cs[j]? = some cj →
      ∀ (n' : BPlusTreeNode),
      LeafShape n' → n'.keys.length < MAX_KEYS → n'.records ≠ [] →
      n'.next_leaf = nextOf ar cj →
      (∀ x ∈ n'.records, (∀ m, m < j → seps.getD m 0 ≤ x.id) ∧
        (j < seps.length → x.id ≤ seps.getD j 0)) →
      Leaves2 (ar.set cj n') cs seps (bss.set j n'.records) := by
  intro j h
  induction h generalizing j with
  | single c nc hget hsh hcap hne hnext =>
      intro cj hcj n' hsh' hcap' hne' hnext' hmem
      match j, hcj with
      | 0, hcj =>
        simp only [List.getElem?_cons_zero, Option.some_inj] at hcj
        subst hcj
        have hc : c < ar.length := getNode_lt hget
        refine Leaves2.single c n' (getNode_set_self ar c n' hc) hsh' hcap' hne' ?_
        unfold nextOf
        rw [getNode_set_self ar c n' hc]
        show n'.next_leaf = none
        rw [hnext']
        exact hnext
  | cons c nc s cs seps bss hget hsh hcap hne hub hlb hnotin hnext htail ih =>
      intro cj hcj n' hsh' hcap' hne' hnext' hmem
      have hc : c < ar.length := getNode_lt hget
      match j, hcj with
      | 0, hcj =>
        simp only [List.getElem?_cons_zero, Option.some_inj] at hcj
        subst hcj
        have hframe2 : ∀ a ∈ cs, getNode (ar.set c n') a = getNode ar a := by
          intro a ha
          exact getNode_set_ne ar c a n' (fun he => hnotin (he ▸ ha))
        refine Leaves2.cons c n' s cs seps bss (getNode_set_self ar c n' hc)
          hsh' hcap' hne' ?_ hlb hnotin ?_ (htail.frame _ hframe2)
        · intro x hx
          exact (hmem x hx).2 (by simp)
        · unfold nextOf
          rw [getNode_set_self ar c n' hc]
          show n'.next_leaf = cs.head?
          rw [hnext']
          exact hnext
      | m + 1, hcj =>
        simp only [List.getElem?_cons_succ] at hcj
        have hcjmem : cj ∈ cs := by
          obtain ⟨hlt, he⟩ := List.getElem?_eq_some_iff.mp hcj
          exact he ▸ List.getElem_mem hlt
        have hcne : c ≠ cj := fun he => hnotin (he ▸ hcjmem)
        have hih := ih m cj hcj n' hsh' hcap' hne' hnext' ?_
        · show Leaves2 (ar.set cj n') (c :: cs) (s :: seps)
            ((nc.records :: bss).set (m + 1) n'.records)
          refine Leaves2.cons c nc s cs seps (bss.set m n'.records)
            (by rw [getNode_set_ne ar cj c n' hcne]; exact hget)
            hsh hcap hne hub ?_ hnotin ?_ hih
          · intro b hb x hx
            rcases List.mem_or_eq_of_mem_set hb with h2 | h2
            · exact hlb b h2 x hx
            · subst h2
              exact (hmem x hx).1 0 (by omega)
          · rw [nextOf_congr (getNode_set_ne ar cj c n' hcne)]
            exact hnext
        · intro x hx
          refine ⟨?_, ?_⟩
          · intro m2 hm2
            have := (hmem x hx).1 (m2 + 1) (by omega)
            simpa using this
          · intro hlt
            have := (hmem x hx).2 (by simp only [List.length_cons]; omega)
            simpa using this

/-- Overwriting the `j`-th leaf with a just-filled node and then splitting it
(the split insertion path): the row gains a fresh leaf after position `j`, the
separator list gains the new leaf's first key at position `j`, and the `j`-th
block is divided in half. -/
theorem leaves2_insert_split (ar : Arena) {cs : List ℕ} {seps : List Int}
    {bss : List (List Record)} :
    ∀ (j : ℕ), Leaves2 ar cs seps bss →
      ∀ (cj : ℕ), cs[j]? = some cj →
      ∀ (n' : BPlusTreeNode),
      LeafShape n' → n'.keys.length = MAX_KEYS →
      n'.next_leaf = nextOf ar cj →
      (∀ x ∈ n'.records, (∀ m, m < j → seps.getD m 0 ≤ x.id) ∧
        (j < seps.length → x.id ≤ seps.getD j 0)) →
      ∃ nR, getNode (splitNode (ar.set cj n') cj).1 ar.length = some nR ∧
        (splitNode (ar.set cj n') cj).2 = ar.length ∧
        (splitNode (ar.set cj n') cj).1.length = ar.length + 1 ∧
        (∀ a, a ≠ cj → a < ar.length →
          getNode (splitNode (ar.set cj n') cj).1 a = getNode ar a) ∧
        Leaves2 (splitNode (ar.set cj n') cj).1
          (cs.insertIdx (j + 1) ar.length)
          (seps.insertIdx j (nR.keys.headD 0))
          ((bss.set j (n'.records.take (MAX_KEYS / 2))).insertIdx (j + 1)
            (n'.records.drop (MAX_KEYS / 2))) := by
  intro j h
  induction h generalizing j with
  | single c nc hget hsh hcap hne hnext =>
      intro cj hcj n' hsh' hfull' hnext' hmem
      match j, hcj with
      | 0, hcj =>
        simp only [List.getElem?_cons_zero, Option.some_inj] at hcj
        subst hcj
        have hc : c < ar.length := getNode_lt hget
        have hget1 : getNode (ar.set c n') c = some n' := getNode_set_self ar c n' hc
        obtain ⟨nL, nR, hsp2, hsplen, hframe, hgetL, hgetR, hshL, hshR, hlenL,
          hlenR, hrecL, hrecR, hnextL, hnextR⟩ :=
          splitNode_leaf_spec (ar.set c n') c n' hget1 hsh' hfull'
        have hlen1 : (ar.set c n').length = ar.length := List.length_set ar c n'
        rw [hlen1] at hsp2 hsplen hframe hgetR hnextL
        have hreclen : n'.records.length = MAX_KEYS := by
          rw [hsh'.2.2.1, hfull']
        have hrecsort : List.Sorted (fun x y : Record => x.id ≤ y.id) n'.records := by
          have := hsh'.2.2.2.2
          rw [hsh'.2.2.2.1] at this
          exact List.pairwise_map.mp this
        have hdropne : n'.records.drop (MAX_KEYS / 2) ≠ [] := by
          intro hcon
          have := congrArg List.length hcon
          rw [List.length_drop, hreclen] at this
          norm_num [MAX_KEYS] at this
      -- the new separator is the first id of the upper half
        have hsep : nR.keys.headD 0 =
            ((n'.records.drop (MAX_KEYS / 2)).map Record.id).headD 0 := by
          rw [hshR.2.2.2.1, hrecR]
        have hsepmem : ∃ y ∈ n'.records.drop (MAX_KEYS / 2),
            y.id = nR.keys.headD 0 := by
          rcases hx : n'.records.drop (MAX_KEYS / 2) with _ | ⟨y, t⟩
          · exact absurd hx hdropne
          · refine ⟨y, by simp, ?_⟩
            rw [hsep, hx]
            simp
        have hcross : ∀ x ∈ n'.records.take (MAX_KEYS / 2),
            ∀ y ∈ n'.records.drop (MAX_KEYS / 2), x.id ≤ y.id := by
          have := hrecsort
          rw [← List.take_append_drop (MAX_KEYS / 2) n'.records] at this
          exact (List.pairwise_append.mp this).2.2
        have hubL : ∀ x ∈ n'.records.take (MAX_KEYS / 2), x.id ≤ nR.keys.headD 0 := by
          intro x hx
          obtain ⟨y, hy, hyid⟩ := hsepmem
          rw [← hyid]
          exact hcross x hx y hy
        have hlbR : ∀ y ∈ n'.records.drop (MAX_KEYS / 2), nR.keys.headD 0 ≤ y.id := by
          obtain ⟨y0, hy0, hy0id⟩ := hsepmem
          have hsortdrop : List.Sorted (fun x y : Record => x.id ≤ y.id)
              (n'.records.drop (MAX_KEYS / 2)) := by
            have := hrecsort
            rw [← List.take_append_drop (MAX_KEYS / 2) n'.records] at this
            exact (List.pairwise_append.mp this).2.1
          intro y hy
          rcases hx : n'.records.drop (MAX_KEYS / 2) with _ | ⟨z, t⟩
          · exact absurd hx hdropne
          · have hzid : z.id = nR.keys.headD 0 := by
              rw [hsep, hx]
              simp
            rw [← hzid]
            rw [hx] at hy
            rcases List.mem_cons.mp hy with h2 | h2
            · rw [h2]
            · rw [hx] at hsortdrop
              exact (List.pairwise_cons.mp hsortdrop).1 y h2
        have htakene : n'.records.take (MAX_KEYS / 2) ≠ [] := by
          intro hcon
          have := congrArg List.length hcon
          rw [List.length_take, hreclen] at this
          norm_num [MAX_KEYS] at this
        refine ⟨nR, hgetR, hsp2, hsplen, ?_, ?_⟩
        · intro a hane halt
          rw [hframe a hane halt]
          exact getNode_set_ne ar c a n' hane
        · show Leaves2 (splitNode (ar.set c n') c).1 [c, ar.length]
            [nR.keys.headD 0]
            [n'.records.take (MAX_KEYS / 2), n'.records.drop (MAX_KEYS / 2)]
          have hLrec : nL.records = n'.records.take (MAX_KEYS / 2) := hrecL
          have hRrec : nR.records = n'.records.drop (MAX_KEYS / 2) := hrecR
          have hcol : nL.records :: [nR.records] =
              [n'.records.take (MAX_KEYS / 2), n'.records.drop (MAX_KEYS / 2)] := by
            rw [hLrec, hRrec]
          rw [← hcol]
          refine Leaves2.cons c nL (nR.keys.headD 0) [ar.length] []
            [nR.records] hgetL hshL
            (by rw [hlenL]; norm_num [MAX_KEYS])
            (by rw [hLrec]; exact htakene) ?_ ?_ ?_ ?_ ?_
          · intro x hx
            rw [hLrec] at hx
            exact hubL x hx
          · intro b hb x hx
            simp only [List.mem_singleton] at hb
            subst hb
            rw [hRrec] at hx
            exact hlbR x hx
          · simp only [List.mem_singleton]
            omega
          · unfold nextOf
            rw [hgetL]
            show nL.next_leaf = _
            rw [hnextL]
            rfl
          · refine Leaves2.single ar.length nR hgetR hshR
              (by rw [hlenR]; norm_num [MAX_KEYS])
              (by rw [hRrec]; exact hdropne) ?_
            unfold nextOf
            rw [hgetR]
            show nR.next_leaf = none
            rw [hnextR, hnext']
            exact hnext
  | cons c nc s cs seps bss hget hsh hcap hne hub hlb hnotin hnext htail ih =>
      intro cj hcj n' hsh' hfull' hnext' hmem
      have hc : c < ar.length := getNode_lt hget
      match j, hcj with
      | 0, hcj =>
        simp only [List.getElem?_cons_zero, Option.some_inj] at hcj
        subst hcj
        have hget1 : getNode (ar.set c n') c = some n' := getNode_set_self ar c n' hc
        obtain ⟨nL, nR, hsp2, hsplen, hframe, hgetL, hgetR, hshL, hshR, hlenL,
          hlenR, hrecL, hrecR, hnextL, hnextR⟩ :=
          splitNode_leaf_spec (ar.set c n') c n' hget1 hsh' hfull'
        have hlen1 : (ar.set c n').length = ar.length := List.length_set ar c n'
        rw [hlen1] at hsp2 hsplen hframe hgetR hnextL
        have hreclen : n'.records.length = MAX_KEYS := by
          rw [hsh'.2.2.1, hfull']
        have hrecsort : List.Sorted (fun x y : Record => x.id ≤ y.id) n'.records := by
          have := hsh'.2.2.2.2
          rw [hsh'.2.2.2.1] at this
          exact List.pairwise_map.mp this
        have hdropne : n'.records.drop (MAX_KEYS / 2) ≠ [] := by
          intro hcon
          have := congrArg List.length hcon
          rw [List.length_drop, hreclen] at this
          norm_num [MAX_KEYS] at this
        have hsep : nR.keys.headD 0 =
            ((n'.records.drop (MAX_KEYS / 2)).map Record.id).headD 0 := by
          rw [hshR.2.2.2.1, hrecR]
        have hsepmem : ∃ y ∈ n'.records.drop (MAX_KEYS / 2),
            y.id = nR.keys.headD 0 := by
          rcases hx : n'.records.drop (MAX_KEYS / 2) with _ | ⟨y, t⟩
          · exact absurd hx hdropne
          · refine ⟨y, by simp, ?_⟩
            rw [hsep, hx]
            simp
        have hcross : ∀ x ∈ n'.records.take (MAX_KEYS / 2),
            ∀ y ∈ n'.records.drop (MAX_KEYS / 2), x.id ≤ y.id := by
          have := hrecsort
          rw [← List.take_append_drop (MAX_KEYS / 2) n'.records] at this
          exact (List.pairwise_append.mp this).2.2
        have hubL : ∀ x ∈ n'.records.take (MAX_KEYS / 2), x.id ≤ nR.keys.headD 0 := by
          intro x hx
          obtain ⟨y, hy, hyid⟩ := hsepmem
          rw [← hyid]
          exact hcross x hx y hy
        have hlbR : ∀ y ∈ n'.records.drop (MAX_KEYS / 2), nR.keys.headD 0 ≤ y.id := by
          obtain ⟨y0, hy0, hy0id⟩ := hsepmem
          have hsortdrop : List.Sorted (fun x y : Record => x.id ≤ y.id)
              (n'.records.drop (MAX_KEYS / 2)) := by
            have := hrecsort
            rw [← List.take_append_drop (MAX_KEYS / 2) n'.records] at this
            exact (List.pairwise_append.mp this).2.1
          intro y hy
          rcases hx : n'.records.drop (MAX_KEYS / 2) with _ | ⟨z, t⟩
          · exact absurd hx hdropne
          · have hzid : z.id = nR.keys.headD 0 := by
              rw [hsep, hx]
              simp
            rw [← hzid]
            rw [hx] at hy
            rcases List.mem_cons.mp hy with h2 | h2
            · rw [h2]
            · rw [hx] at hsortdrop
              exact (List.pairwise_cons.mp hsortdrop).1 y h2
        have htakene : n'.records.take (MAX_KEYS / 2) ≠ [] := by
          intro hcon
          have := congrArg List.length hcon
          rw [List.length_take, hreclen] at this
          norm_num [MAX_KEYS] at this
        have hseple : seps.length = 0 ∨ nR.keys.headD 0 ≤ s → True := fun _ => trivial
        have hcsbound : ∀ a ∈ cs, a < ar.length := htail.bounded
        have hframetail : ∀ a ∈ cs, getNode (splitNode (ar.set c n') c).1 a =
            getNode ar a := by
          intro a ha
          have hane : a ≠ c := fun he => hnotin (he ▸ ha)
          rw [hframe a hane (hcsbound a ha)]
          exact getNode_set_ne ar c a n' hane
        have hsepS : nR.keys.headD 0 ≤ s := by
          obtain ⟨y, hy, hyid⟩ := hsepmem
          rw [← hyid]
          exact (hmem y (List.mem_of_mem_drop hy)).2 (by simp)
        refine ⟨nR, hgetR, hsp2, hsplen, ?_, ?_⟩
        · intro a hane halt
          rw [hframe a hane halt]
          exact getNode_set_ne ar c a n' hane
        · show Leaves2 (splitNode (ar.set c n') c).1 (c :: ar.length :: cs)
            (nR.keys.headD 0 :: s :: seps)
            (n'.records.take (MAX_KEYS / 2) :: n'.records.drop (MAX_KEYS / 2) :: bss)
          have hfreshnotin : (ar.length : ℕ) ∉ cs := by
            intro hmem2
            exact absurd (hcsbound _ hmem2) (by omega)
          rw [← hrecL, ← hrecR]
          refine Leaves2.cons c nL (nR.keys.headD 0) (ar.length :: cs) (s :: seps)
            (nR.records :: bss) hgetL hshL
            (by rw [hlenL]; norm_num [MAX_KEYS])
            (by rw [hrecL]; exact htakene) ?_ ?_ ?_ ?_ ?_
          · intro x hx
            rw [hrecL] at hx
            exact hubL x hx
          · intro b hb x hx
            rcases List.mem_cons.mp hb with h2 | h2
            · subst h2
              rw [hrecR] at hx
              exact hlbR x hx
            · exact le_trans hsepS (hlb b h2 x hx)
          · intro hmem2
            rcases List.mem_cons.mp hmem2 with h2 | h2
            · omega
            · exact hnotin h2
          · unfold nextOf
            rw [hgetL]
            show nL.next_leaf = _
            rw [hnextL]
            rfl
          · refine Leaves2.cons ar.length nR s cs seps bss hgetR hshR
              (by rw [hlenR]; norm_num [MAX_KEYS])
              (by rw [hrecR]; exact hdropne) ?_ hlb hfreshnotin ?_
              (htail.frame _ hframetail)
            · intro x hx
              rw [hrecR] at hx
              exact (hmem x (List.mem_of_mem_drop hx)).2 (by simp)
            · unfold nextOf
              rw [hgetR]
              show nR.next_leaf = cs.head?
              rw [hnextR, hnext']
              exact hnext
      | m + 1, hcj =>
        simp only [List.getElem?_cons_succ] at hcj
        have hcjmem : cj ∈ cs := by
          obtain ⟨hlt, he⟩ := List.getElem?_eq_some_iff.mp hcj
          exact he ▸ List.getElem_mem hlt
        have hcne : c ≠ cj := fun he => hnotin (he ▸ hcjmem)
        have hcjlt : cj < ar.length := htail.bounded cj hcjmem
        have hih := ih m cj hcj n' hsh' hfull' hnext' ?_
        · obtain ⟨nR, hgetR, hsp2, hsplen, hframeA, hrow⟩ := hih
          refine ⟨nR, hgetR, hsp2, hsplen, hframeA, ?_⟩
          show Leaves2 (splitNode (ar.set cj n') cj).1
            (c :: cs.insertIdx (m + 1) ar.length)
            (s :: seps.insertIdx m (nR.keys.headD 0))
            (nc.records :: (bss.set m (n'.records.take (MAX_KEYS / 2))).insertIdx
              (m + 1) (n'.records.drop (MAX_KEYS / 2)))
          have hlensb : bss.length = cs.length := by
            have h1 := htail.lengths
            omega
          have hmlt : m < cs.length := (List.getElem?_eq_some_iff.mp hcj).1
          have hgetc : getNode (splitNode (ar.set cj n') cj).1 c = getNode ar c :=
            hframeA c hcne hc
          refine Leaves2.cons c nc s (cs.insertIdx (m + 1) ar.length)
            (seps.insertIdx m (nR.keys.headD 0))
            ((bss.set m (n'.records.take (MAX_KEYS / 2))).insertIdx
              (m + 1) (n'.records.drop (MAX_KEYS / 2)))
            (by rw [hgetc]; exact hget) hsh hcap hne hub ?_ ?_ ?_ hrow
          · intro b hb x hx
            have hble : (bss.set m (n'.records.take (MAX_KEYS / 2))).length =
                bss.length := List.length_set bss _ _
            rcases (List.mem_insertIdx (by rw [hble]; omega)).mp hb with h2 | h2
            · subst h2
              exact (hmem x (List.mem_of_mem_drop hx)).1 0 (by omega)
            · rcases List.mem_or_eq_of_mem_set h2 with h3 | h3
              · exact hlb b h3 x hx
              · subst h3
                exact (hmem x (List.mem_of_mem_take hx)).1 0 (by omega)
          · intro hmem2
            rcases (List.mem_insertIdx (by omega)).mp hmem2 with h2 | h2
            · omega
            · exact hnotin h2
          · cases hcs : cs with
            | nil =>
                rw [hcs] at hmlt
                simp at hmlt
            | cons d ds =>
                have hdne : d ≠ cj ∨ d = cj := by tauto
                show nextOf (splitNode (ar.set cj n') cj).1 c =
                  ((d :: ds).insertIdx (m + 1) ar.length).head?
                have hhead : ((d :: ds).insertIdx (m + 1) ar.length).head? = some d := rfl
                rw [hhead, nextOf_congr hgetc, hnext, hcs]
                rfl
        · intro x hx
          refine ⟨?_, ?_⟩
          · intro m2 hm2
            have := (hmem x hx).1 (m2 + 1) (by omega)
            simpa using this
          · intro hlt
            have := (hmem x hx).2 (by simp only [List.length_cons]; omega)
            simpa using this

/-- Access to the `j`-th leaf of a row, with its block and separator bounds. -/
theorem Leaves2.get {ar cs seps bss} :
    Leaves2 ar cs seps bss →
    ∀ (j : ℕ) (cj : ℕ), cs[j]? = some cj →
      ∃ nc b, getNode ar cj = some nc ∧ LeafShape nc ∧
        nc.keys.length < MAX_KEYS ∧ nc.records = b ∧ bss[j]? = some b ∧
        (∀ x ∈ b, (∀ m, m < j → seps.getD m 0 ≤ x.id) ∧
          (j < seps.length → x.id ≤ seps.getD j 0)) := by
  intro h
  induction h with
  | single c nc hget hsh hcap hne hnext =>
      intro j cj hcj
      match j, hcj with
      | 0, hcj =>
        simp only [List.getElem?_cons_zero, Option.some_inj] at hcj
        subst hcj
        exact ⟨nc, nc.records, hget, hsh, hcap, rfl, by simp, fun x hx =>
          ⟨fun m hm => by omega, fun hlt => by simp at hlt⟩⟩
  | cons c nc s cs seps bss hget hsh hcap hne hub hlb hnotin hnext htail ih =>
      intro j cj hcj
      match j, hcj with
      | 0, hcj =>
        simp only [List.getElem?_cons_zero, Option.some_inj] at hcj
        subst hcj
        refine ⟨nc, nc.records, hget, hsh, hcap, rfl, by simp, ?_⟩
        intro x hx
        exact ⟨fun m hm => by omega, fun _ => hub x hx⟩
      | m + 1, hcj =>
        simp only [List.getElem?_cons_succ] at hcj
        obtain ⟨nc2, b, hget2, hsh2, hcap2, hrec2, hb2, hbound2⟩ := ih m cj hcj
        refine ⟨nc2, b, hget2, hsh2, hcap2, hrec2, by simpa using hb2, ?_⟩
        intro x hx
        refine ⟨?_, ?_⟩
        · intro m2 hm2
          cases m2 with
          | zero =>
              have hbmem : b ∈ bss := by
                obtain ⟨hlt, he⟩ := List.getElem?_eq_some_iff.mp hb2
                exact he ▸ List.getElem_mem hlt
              exact (hlb b hbmem x hx : s ≤ x.id)
          | succ m3 =>
              have := (hbound2 x hx).1 m3 (by omega)
              simpa using this
        · intro hlt
          have := (hbound2 x hx).2 (by simp only [List.length_cons] at hlt; omega)
          simpa using this

/-- Replacing one block of a flattened family by a permutation of `r ::` it
permutes the flattening accordingly. -/
theorem flatten_set_perm (r : Record) :
    ∀ (bss : List (List Record)) (j : ℕ) (b b' : List Record),
      bss[j]? = some b → b'.Perm (r :: b) →
      (bss.set j b').flatten.Perm (r :: bss.flatten) := by
  intro bss
  induction bss with
  | nil =>
      intro j b b' hj _
      simp at hj
  | cons b0 rest ih =>
      intro j b b' hj hp
      match j, hj with
      | 0, hj =>
        simp only [List.getElem?_cons_zero, Option.some_inj] at hj
        subst hj
        show (b' :: rest).flatten.Perm (r :: (b0 :: rest).flatten)
        rw [List.flatten_cons, List.flatten_cons]
        exact hp.append_right rest.flatten
      | m + 1, hj =>
        simp only [List.getElem?_cons_succ] at hj
        show (b0 :: rest.set m b').flatten.Perm (r :: (b0 :: rest).flatten)
        rw [List.flatten_cons, List.flatten_cons]
        exact ((ih m b b' hj hp).append_left b0).trans List.perm_middle

/-- Splitting one block of a flattened family into two halves that jointly
permute `r ::` it. -/
theorem flatten_split_perm (r : Record) :
    ∀ (bss : List (List Record)) (j : ℕ) (b bL bR : List Record),
      bss[j]? = some b → (bL ++ bR).Perm (r :: b) →
      ((bss.set j bL).insertIdx (j + 1) bR).flatten.Perm (r :: bss.flatten) := by
  intro bss
  induction bss with
  | nil =>
      intro j b bL bR hj _
      simp at hj
  | cons b0 rest ih =>
      intro j b bL bR hj hp
      match j, hj with
      | 0, hj =>
        simp only [List.getElem?_cons_zero, Option.some_inj] at hj
        subst hj
        show (bL :: bR :: rest).flatten.Perm (r :: (b0 :: rest).flatten)
        rw [List.flatten_cons, List.flatten_cons, List.flatten_cons,
          ← List.append_assoc]
        exact hp.append_right rest.flatten
      | m + 1, hj =>
        simp only [List.getElem?_cons_succ] at hj
        show (b0 :: (rest.set m bL).insertIdx (m + 1) bR).flatten.Perm
          (r :: (b0 :: rest).flatten)
        rw [List.flatten_cons, List.flatten_cons]
        exact ((ih m b bL bR hj hp).append_left b0).trans List.perm_middle

/-- The height-≤-2 well-formedness invariant: the root is either a leaf with
a null chain pointer (height 1), or an internal node over a well-separated
row of leaves (height 2).  `rs` is the in-order record sequence. -/
def Inv2 (db : CustomBPlusDB) (rs : List Record) : Prop :=
  db.total_records = rs.length ∧
  ((db.tree_height = 1 ∧ ∃ n, getNode db.nodes db.root = some n ∧ LeafShape n ∧
      n.keys.length < MAX_KEYS ∧ n.next_leaf = none ∧ n.records = rs) ∨
   (db.tree_height = 2 ∧ ∃ n bss, getNode db.nodes db.root = some n ∧
      n.is_leaf = false ∧ n.key_count = n.keys.length ∧
      n.children.length = n.keys.length + 1 ∧ n.keys.length < MAX_KEYS ∧
      db.root ∉ n.children ∧
      Leaves2 db.nodes n.children n.keys bss ∧
      rs = bss.flatten))

theorem inv2_emptyDB : Inv2 emptyDB [] := by
  refine ⟨rfl, Or.inl ⟨rfl, BPlusTreeNode.mkNode true, rfl,
    ⟨rfl, rfl, rfl, rfl, List.sorted_nil⟩, ?_, rfl, rfl⟩⟩
  show (0 : ℕ) < MAX_KEYS
  norm_num [MAX_KEYS]

/-- Under the height-≤-2 invariant, `collect_leaf_records` walks the chain
and returns the in-order record sequence, which is sorted by id and counted
by `total_records`. -/
theorem inv2_collect {db : CustomBPlusDB} {rs : List Record} (h : Inv2 db rs) :
    collectLeafRecords db = rs ∧
    List.Sorted (fun x y : Record => x.id ≤ y.id) rs ∧
    db.total_records = rs.length := by
  obtain ⟨htot, hA | hB⟩ := h
  · obtain ⟨hh, n, hget, hsh, hcap, hnext, hrec⟩ := hA
    have hr : db.root < db.nodes.length := getNode_lt hget
    obtain ⟨f, hf⟩ : ∃ f, db.nodes.length = f + 1 := ⟨db.nodes.length - 1, by omega⟩
    refine ⟨?_, ?_, htot⟩
    · unfold collectLeafRecords
      rw [hf, leftmostFrom_step db.nodes f db.root n hget,
        if_neg (by rw [hsh.1]; simp),
        walkLeaves_step db.nodes f db.root n hget]
      have htake : n.records.take n.key_count = n.records := by
        rw [hsh.2.1, ← hsh.2.2.1]
        exact List.take_length n.records
      rw [htake, hnext, hrec]
      cases f <;> simp [walkLeaves]
    · rw [← hrec]
      have := hsh.2.2.2.2
      rw [hsh.2.2.2.1] at this
      exact List.pairwise_map.mp this
  · obtain ⟨hh, n, bss, hget, hleaf, hkc, hcl, hcap, hrootnotin, hrow, hflat⟩ := hB
    have hr : db.root < db.nodes.length := getNode_lt hget
    have hcsne : n.children ≠ [] := by
      intro hcon
      rw [hcon] at hcl
      simp at hcl
    obtain ⟨c0, cs', hcs⟩ : ∃ c0 cs', n.children = c0 :: cs' := by
      cases hx : n.children with
      | nil => exact absurd hx hcsne
      | cons a b => exact ⟨a, b, rfl⟩
    obtain ⟨nc0, b0, hget0, hsh0, hcap0, hrec0, hb0, hbd0⟩ :=
      hrow.get 0 c0 (by rw [hcs]; simp)
    have hc0lt : c0 < db.nodes.length := getNode_lt hget0
    have hc0ne : c0 ≠ db.root := by
      intro he
      exact hrootnotin (by rw [← he, hcs]; simp)
    have hlen2 : 2 ≤ db.nodes.length := by
      have h1 : db.root < db.nodes.length := hr
      have h2 : c0 < db.nodes.length := hc0lt
      omega
    obtain ⟨f, hf⟩ : ∃ f, db.nodes.length = f + 2 := ⟨db.nodes.length - 2, by omega⟩
    have hlvslen : n.children.length ≤ db.nodes.length :=
      nodup_length_le_of_lt n.children db.nodes.length hrow.nodup hrow.bounded
    have hchain := hrow.chain
    refine ⟨?_, ?_, htot⟩
    · unfold collectLeafRecords
      have hstep1 : leftmostFrom db.nodes db.nodes.length db.root = c0 := by
        rw [hf]
        rw [leftmostFrom_step db.nodes (f + 1) db.root n hget,
          if_pos ⟨hleaf, hcsne⟩]
        have hhead : n.children.headD 0 = c0 := by
          rw [hcs]
          rfl
        rw [hhead, leftmostFrom_step db.nodes f c0 nc0 hget0,
          if_neg (by rw [hsh0.1]; simp)]
      rw [hstep1]
      have hwalk := walkLeaves_eq db.nodes n.children bss db.nodes.length
        hlvslen hrow.leafRecordsAt hchain.1 hchain.2
      have hhd : n.children.head? = some c0 := by
        rw [hcs]
        rfl
      rw [← hhd, hwalk, hflat]
    · rw [hflat]
      exact hrow.flatten_sorted

/-- One insertion into a height-1 tree (root leaf): the invariant is
preserved (splitting the root into a height-2 tree when it fills up). -/
theorem insertRecord_inv2_leaf {db : CustomBPlusDB} {rs : List Record}
    (htot : db.total_records = rs.length) (hh : db.tree_height = 1)
    (n : BPlusTreeNode) (hget : getNode db.nodes db.root = some n)
    (hsh : LeafShape n) (hcap : n.keys.length < MAX_KEYS)
    (hnextnone : n.next_leaf = none) (hrec : n.records = rs) (r : Record) :
    ∃ rs', Inv2 (insertRecord db r).1 rs' ∧ rs'.Perm (r :: rs) := by
  have hr : db.root < db.nodes.length := getNode_lt hget
  obtain ⟨f, hf⟩ : ∃ f, db.nodes.length = f + 1 := ⟨db.nodes.length - 1, by omega⟩
  obtain ⟨hsh', hklen', hperm', hnext', hkeys'⟩ := nodeInsertRecord_spec n r hsh
  have hstepL : insertIntoNode db.nodes.length db.nodes db.root r =
      (db.nodes.set db.root (nodeInsertRecord n r),
        decide ((nodeInsertRecord n r).key_count ≥ MAX_KEYS)) := by
    rw [hf]
    exact insertIntoNode_step_leaf f db.nodes db.root r n hget hsh.1
  have hkcval : (nodeInsertRecord n r).key_count = n.keys.length + 1 := by
    rw [hsh'.2.1, hklen']
  have hpermrs : (nodeInsertRecord n r).records.Perm (r :: rs) := by
    rw [← hrec]
    exact hperm'
  by_cases hfull : n.keys.length + 1 ≥ MAX_KEYS
  · -- the root fills up and is split: the tree becomes height 2
    have hres2 : (insertIntoNode db.nodes.length db.nodes db.root r).2 = true := by
      rw [hstepL]
      show decide ((nodeInsertRecord n r).key_count ≥ MAX_KEYS) = true
      rw [decide_eq_true_eq, hkcval]
      exact hfull
    obtain ⟨hret, hnodes, hroot, htot', hth⟩ := insertRecord_step_split db r hres2
    have hfull' : (nodeInsertRecord n r).keys.length = MAX_KEYS := by
      rw [hklen']
      omega
    have hnonempty : n.records ≠ [] := by
      intro hcon
      have h1 := hsh.2.2.1
      rw [hcon] at h1
      simp only [List.length_nil] at h1
      rw [← h1] at hfull
      norm_num [MAX_KEYS] at hfull
    have hrowOld : Leaves2 db.nodes [db.root] [] [n.records] :=
      Leaves2.single db.root n hget hsh hcap hnonempty
        (by unfold nextOf; rw [hget]; exact hnextnone)
    obtain ⟨nR, hgetnR, hsp2, hsplen, hframeS, hrow2⟩ :=
      leaves2_insert_split db.nodes 0 hrowOld db.root (by simp)
        (nodeInsertRecord n r) hsh' hfull'
        (by rw [hnext']; unfold nextOf; rw [hget])
        (fun x hx => ⟨fun m hm => by omega, fun hlt => by simp at hlt⟩)
    simp only [hstepL] at hnodes hroot
    rw [hsp2, hgetnR] at hnodes
    simp only [Option.getD_some] at hnodes
    refine ⟨(nodeInsertRecord n r).records, ⟨?_, Or.inr ⟨by rw [hth, hh], ?_⟩⟩,
      hpermrs⟩
    · rw [htot', htot, hpermrs.length_eq, List.length_cons]
    · refine ⟨{ is_leaf := false
                key_count := 1
                subtree_record_count := 0
                keys := [nR.keys.headD 0]
                records := []
                children := [db.root, db.nodes.length]
                next_leaf := none },
        [(nodeInsertRecord n r).records.take (MAX_KEYS / 2),
          (nodeInsertRecord n r).records.drop (MAX_KEYS / 2)], ?_, rfl, rfl, ?_,
        ?_, ?_, ?_, ?_⟩
      · rw [hnodes, hroot]
        exact getNode_append_new _ _
      · simp
      · show (1 : ℕ) < MAX_KEYS
        norm_num [MAX_KEYS]
      · rw [hroot]
        intro hmem
        rcases List.mem_cons.mp hmem with h2 | h2
        · rw [hsplen] at h2
          omega
        · simp only [List.mem_singleton] at h2
          rw [hsplen] at h2
          omega
      · show Leaves2 (insertRecord db r).1.nodes
          [db.root, db.nodes.length]
          [nR.keys.headD 0] _
        rw [hnodes]
        have hbound2 : ∀ a ∈ ([db.root].insertIdx (0 + 1) db.nodes.length),
            a < (splitNode (db.nodes.set db.root (nodeInsertRecord n r)) db.root).1.length := by
          intro a ha
          rcases (List.mem_insertIdx (by simp)).mp ha with h2 | h2
          · rw [h2, hsplen]
            omega
          · simp only [List.mem_singleton] at h2
            rw [h2, hsplen]
            omega
        have hframe3 := hrow2.frame
          ((splitNode (db.nodes.set db.root (nodeInsertRecord n r)) db.root).1 ++
            [{ is_leaf := false
               key_count := 1
               subtree_record_count := 0
               keys := [nR.keys.headD 0]
               records := []
               children := [db.root, db.nodes.length]
               next_leaf := none }])
          (fun a ha => getNode_append_frame _ _ a (hbound2 a ha))
        simpa using hframe3
      · show (nodeInsertRecord n r).records =
          ([(nodeInsertRecord n r).records.take (MAX_KEYS / 2),
            (nodeInsertRecord n r).records.drop (MAX_KEYS / 2)] :
              List (List Record)).flatten
        simp [List.take_append_drop]
  · -- the root still has room: plain in-place update
    have hres2 : (insertIntoNode db.nodes.length db.nodes db.root r).2 = false := by
      rw [hstepL]
      show decide ((nodeInsertRecord n r).key_count ≥ MAX_KEYS) = false
      rw [decide_eq_false_iff_not, hkcval]
      exact hfull
    obtain ⟨hret, hnodes, hroot, htot', hth⟩ := insertRecord_step_nosplit db r hres2
    simp only [hstepL] at hnodes
    refine ⟨(nodeInsertRecord n r).records, ⟨?_, Or.inl ⟨by rw [hth, hh], ?_⟩⟩,
      hpermrs⟩
    · rw [htot', htot, hpermrs.length_eq, List.length_cons]
    · refine ⟨nodeInsertRecord n r, ?_, hsh', by rw [hklen']; omega, ?_, rfl⟩
      · rw [hnodes, hroot]
        exact getNode_set_self db.nodes db.root _ hr
      · rw [hnext']
        exact hnextnone

/-- One insertion into a height-2 tree (internal root over a row of leaves):
either the invariant is preserved — splitting the target leaf in place when
it fills up — or the root itself overflows and the tree grows to height 3. -/
theorem insertRecord_inv2_internal {db : CustomBPlusDB} {rs : List Record}
    (htot : db.total_records = rs.length) (hh : db.tree_height = 2)
    (n : BPlusTreeNode) (bss : List (List Record))
    (hget : getNode db.nodes db.root = some n)
    (hleaf : n.is_leaf = false) (hkc : n.key_count = n.keys.length)
    (hcl : n.children.length = n.keys.length + 1)
    (hcap : n.keys.length < MAX_KEYS)
    (hrootnotin : db.root ∉ n.children)
    (hrow : Leaves2 db.nodes n.children n.keys bss)
    (hflat : rs = bss.flatten) (r : Record) :
    (∃ rs', Inv2 (insertRecord db r).1 rs' ∧ rs'.Perm (r :: rs)) ∨
      3 ≤ (insertRecord db r).1.tree_height := by
  have hr : db.root < db.nodes.length := getNode_lt hget
  obtain ⟨hj0, hjle, hjlow, hjhigh⟩ :=
    descendFrom_spec n.keys n.key_count r.id 0 (Nat.zero_le _)
  have hjlt : descendFrom n.keys n.key_count r.id 0 < n.children.length := by
    omega
  obtain ⟨cj, hc⟩ :
      ∃ cj, n.children[descendFrom n.keys n.key_count r.id 0]? = some cj := by
    rw [List.getElem?_eq_getElem hjlt]
    exact ⟨_, rfl⟩
  have hcjmem : cj ∈ n.children := by
    obtain ⟨hlt, he⟩ := List.getElem?_eq_some_iff.mp hc
    exact he ▸ List.getElem_mem hlt
  have hcjne : cj ≠ db.root := fun he => hrootnotin (he ▸ hcjmem)
  obtain ⟨nc, b, hgetc, hshc, hcapc, hrecc, hb, hbd⟩ :=
    hrow.get (descendFrom n.keys n.key_count r.id 0) cj hc
  have hcjlt : cj < db.nodes.length := getNode_lt hgetc
  obtain ⟨f, hf⟩ : ∃ f, db.nodes.length = f + 2 :=
    ⟨db.nodes.length - 2, by omega⟩
  obtain ⟨hsh', hklen', hperm', hnext', hkeys'⟩ := nodeInsertRecord_spec nc r hshc
  have hstepC : insertIntoNode (f + 1) db.nodes cj r =
      (db.nodes.set cj (nodeInsertRecord nc r),
        decide ((nodeInsertRecord nc r).key_count ≥ MAX_KEYS)) :=
    insertIntoNode_step_leaf f db.nodes cj r nc hgetc hshc.1
  have hkcval : (nodeInsertRecord nc r).key_count = nc.keys.length + 1 := by
    rw [hsh'.2.1, hklen']
  have hpermb : (nodeInsertRecord nc r).records.Perm (r :: b) := by
    rw [← hrecc]
    exact hperm'
  have hbounds : ∀ x ∈ (nodeInsertRecord nc r).records,
      (∀ m, m < descendFrom n.keys n.key_count r.id 0 →
        n.keys.getD m 0 ≤ x.id) ∧
      (descendFrom n.keys n.key_count r.id 0 < n.keys.length →
        x.id ≤ n.keys.getD (descendFrom n.keys n.key_count r.id 0) 0) := by
    intro x hx
    rcases List.mem_cons.mp (hpermb.mem_iff.mp hx) with hxr | hxb
    · subst hxr
      refine ⟨fun m hm => hjlow m (Nat.zero_le _) hm, fun hlt => ?_⟩
      exact le_of_lt (hjhigh (by omega))
    · exact ⟨(hbd x hxb).1, fun hlt => (hbd x hxb).2 hlt⟩
  by_cases hfull : nc.keys.length + 1 ≥ MAX_KEYS
  · -- the target leaf fills up and is split inside the row
    have hdec : decide ((nodeInsertRecord nc r).key_count ≥ MAX_KEYS) = true := by
      rw [decide_eq_true_eq, hkcval]
      exact hfull
    have hresC : insertIntoNode (f + 1) db.nodes cj r =
        (db.nodes.set cj (nodeInsertRecord nc r), true) := by
      rw [hstepC, hdec]
    have hfull' : (nodeInsertRecord nc r).keys.length = MAX_KEYS := by
      rw [hklen']
      omega
    obtain ⟨nR, hgetnR, hsp2, hsplen, hframeS, hrow2⟩ :=
      leaves2_insert_split db.nodes (descendFrom n.keys n.key_count r.id 0)
        hrow cj hc (nodeInsertRecord nc r) hsh' hfull'
        (by rw [hnext']; unfold nextOf; rw [hgetc]) hbounds
    have hstepRoot : insertIntoNode db.nodes.length db.nodes db.root r =
        ((splitNode (db.nodes.set cj (nodeInsertRecord nc r)) cj).1.set db.root
          { n with
            keys := n.keys.insertIdx (descendFrom n.keys n.key_count r.id 0)
              (nR.keys.headD 0)
            children := n.children.insertIdx
              (descendFrom n.keys n.key_count r.id 0 + 1)
              (splitNode (db.nodes.set cj (nodeInsertRecord nc r)) cj).2
            key_count := n.key_count + 1 },
          decide (n.key_count + 1 ≥ MAX_KEYS)) := by
      rw [hf]
      exact insertIntoNode_step_internal_split (f + 1) db.nodes db.root cj r n n
        nR (db.nodes.set cj (nodeInsertRecord nc r)) hget hleaf hc hresC
        (by rw [hframeS db.root (Ne.symm hcjne) hr]; exact hget)
        (by rw [hsp2]; exact hgetnR)
    rw [hsp2] at hstepRoot
    by_cases hrfull : n.keys.length + 1 ≥ MAX_KEYS
    · -- the root fills up too: the tree grows past height 2
      right
      have hres2 : (insertIntoNode db.nodes.length db.nodes db.root r).2 =
          true := by
        rw [hstepRoot]
        show decide (n.key_count + 1 ≥ MAX_KEYS) = true
        rw [decide_eq_true_eq, hkc]
        exact hrfull
      obtain ⟨_, _, _, _, hth⟩ := insertRecord_step_split db r hres2
      rw [hth, hh]
    · -- the root gains one separator and one child pointer
      left
      have hres2 : (insertIntoNode db.nodes.length db.nodes db.root r).2 =
          false := by
        rw [hstepRoot]
        show decide (n.key_count + 1 ≥ MAX_KEYS) = false
        rw [decide_eq_false_iff_not, hkc]
        exact hrfull
      obtain ⟨hret, hnodes, hroot, htot', hth⟩ :=
        insertRecord_step_nosplit db r hres2
      simp only [hstepRoot] at hnodes
      have hperm2 : (((bss.set (descendFrom n.keys n.key_count r.id 0)
          ((nodeInsertRecord nc r).records.take (MAX_KEYS / 2))).insertIdx
          (descendFrom n.keys n.key_count r.id 0 + 1)
          ((nodeInsertRecord nc r).records.drop (MAX_KEYS / 2))).flatten).Perm
          (r :: rs) := by
        rw [hflat]
        exact flatten_split_perm r bss _ b _ _ hb
          (by rw [List.take_append_drop]; exact hpermb)
      refine ⟨((bss.set (descendFrom n.keys n.key_count r.id 0)
          ((nodeInsertRecord nc r).records.take (MAX_KEYS / 2))).insertIdx
          (descendFrom n.keys n.key_count r.id 0 + 1)
          ((nodeInsertRecord nc r).records.drop (MAX_KEYS / 2))).flatten,
        ⟨?_, Or.inr ⟨by rw [hth, hh], ?_⟩⟩, hperm2⟩
      · rw [htot', htot, hperm2.length_eq, List.length_cons]
      · refine ⟨{ n with
            keys := n.keys.insertIdx (descendFrom n.keys n.key_count r.id 0)
              (nR.keys.headD 0)
            children := n.children.insertIdx
              (descendFrom n.keys n.key_count r.id 0 + 1) db.nodes.length
            key_count := n.key_count + 1 },
          (bss.set (descendFrom n.keys n.key_count r.id 0)
            ((nodeInsertRecord nc r).records.take (MAX_KEYS / 2))).insertIdx
            (descendFrom n.keys n.key_count r.id 0 + 1)
            ((nodeInsertRecord nc r).records.drop (MAX_KEYS / 2)),
          ?_, hleaf, ?_, ?_, ?_, ?_, ?_, rfl⟩
        · rw [hnodes, hroot]
          exact getNode_set_self _ _ _ (by rw [hsplen]; omega)
        · show n.key_count + 1 =
            (n.keys.insertIdx (descendFrom n.keys n.key_count r.id 0)
              (nR.keys.headD 0)).length
          rw [List.length_insertIdx _ _ (by omega), hkc]
        · show (n.children.insertIdx
              (descendFrom n.keys n.key_count r.id 0 + 1)
              db.nodes.length).length =
            (n.keys.insertIdx (descendFrom n.keys n.key_count r.id 0)
              (nR.keys.headD 0)).length + 1
          rw [List.length_insertIdx _ _ (by omega),
            List.length_insertIdx _ _ (by omega), hcl]
        · show (n.keys.insertIdx (descendFrom n.keys n.key_count r.id 0)
              (nR.keys.headD 0)).length < MAX_KEYS
          rw [List.length_insertIdx _ _ (by omega)]
          omega
        · rw [hroot]
          intro hmem
          have hmem2 : db.root ∈ n.children.insertIdx
              (descendFrom n.keys n.key_count r.id 0 + 1) db.nodes.length :=
            hmem
          rcases (List.mem_insertIdx (by omega)).mp hmem2 with h2 | h2
          · omega
          · exact hrootnotin h2
        · show Leaves2 (insertRecord db r).1.nodes
            (n.children.insertIdx
              (descendFrom n.keys n.key_count r.id 0 + 1) db.nodes.length)
            (n.keys.insertIdx (descendFrom n.keys n.key_count r.id 0)
              (nR.keys.headD 0)) _
          rw [hnodes]
          refine hrow2.frame _ (fun a ha => ?_)
          have hane : a ≠ db.root := by
            rcases (List.mem_insertIdx (by omega)).mp ha with h2 | h2
            · omega
            · exact fun he => hrootnotin (by rw [← he]; exact h2)
          exact getNode_set_ne _ _ _ _ hane
  · -- the target leaf still has room: plain in-place update of one leaf
    left
    have hcap' : (nodeInsertRecord nc r).keys.length < MAX_KEYS := by
      rw [hklen']
      omega
    have hdec : decide ((nodeInsertRecord nc r).key_count ≥ MAX_KEYS) =
        false := by
      rw [decide_eq_false_iff_not, hkcval]
      exact hfull
    have hresC : insertIntoNode (f + 1) db.nodes cj r =
        (db.nodes.set cj (nodeInsertRecord nc r), false) := by
      rw [hstepC, hdec]
    have hstepRoot : insertIntoNode db.nodes.length db.nodes db.root r =
        (db.nodes.set cj (nodeInsertRecord nc r), false) := by
      rw [hf]
      exact insertIntoNode_step_internal_nosplit (f + 1) db.nodes db.root cj r
        n _ hget hleaf hc hresC
    have hres2 : (insertIntoNode db.nodes.length db.nodes db.root r).2 =
        false := by
      rw [hstepRoot]
    obtain ⟨hret, hnodes, hroot, htot', hth⟩ :=
      insertRecord_step_nosplit db r hres2
    simp only [hstepRoot] at hnodes
    have hne' : (nodeInsertRecord nc r).records ≠ [] := by
      intro hcon
      have hl2 := hpermb.length_eq
      rw [hcon] at hl2
      simp at hl2
    have hnextOK : (nodeInsertRecord nc r).next_leaf = nextOf db.nodes cj := by
      rw [hnext']
      unfold nextOf
      rw [hgetc]
    have hperm2 : ((bss.set (descendFrom n.keys n.key_count r.id 0)
        (nodeInsertRecord nc r).records).flatten).Perm (r :: rs) := by
      rw [hflat]
      exact flatten_set_perm r bss _ b _ hb hpermb
    refine ⟨(bss.set (descendFrom n.keys n.key_count r.id 0)
        (nodeInsertRecord nc r).records).flatten,
      ⟨?_, Or.inr ⟨by rw [hth, hh], ?_⟩⟩, hperm2⟩
    · rw [htot', htot, hperm2.length_eq, List.length_cons]
    · refine ⟨n, bss.set (descendFrom n.keys n.key_count r.id 0)
          (nodeInsertRecord nc r).records, ?_, hleaf, hkc, hcl, hcap, ?_, ?_,
          rfl⟩
      · rw [hnodes, hroot, getNode_set_ne _ _ _ _ (Ne.symm hcjne)]
        exact hget
      · rw [hroot]
        exact hrootnotin
      · rw [hnodes]
        exact leaves2_set db.nodes _ hrow cj hc _ hsh' hcap' hne' hnextOK
          hbounds

/-- One insertion under the height-≤-2 invariant: the invariant is preserved
with the record sequence gaining exactly `r`, unless the tree grows past
height 2. -/
theorem insertRecord_inv2 {db : CustomBPlusDB} {rs : List Record}
    (h : Inv2 db rs) (r : Record) :
    (∃ rs', Inv2 (insertRecord db r).1 rs' ∧ rs'.Perm (r :: rs)) ∨
      3 ≤ (insertRecord db r).1.tree_height := by
  obtain ⟨htot, hA | hB⟩ := h
  · obtain ⟨hh, n, hget, hsh, hcap, hnext, hrec⟩ := hA
    exact Or.inl (insertRecord_inv2_leaf htot hh n hget hsh hcap hnext hrec r)
  · obtain ⟨hh, n, bss, hget, hleaf, hkc, hcl, hcap, hnotin, hrow, hflat⟩ := hB
    exact insertRecord_inv2_internal htot hh n bss hget hleaf hkc hcl hcap
      hnotin hrow hflat r

/-- `insert_record` never decreases the tree height. -/
theorem insertRecord_height_mono (db : CustomBPlusDB) (r : Record) :
    db.tree_height ≤ (insertRecord db r).1.tree_height := by
  rcases Bool.eq_false_or_eq_true
      (insertIntoNode db.nodes.length db.nodes db.root r).2 with hb | hb
  · obtain ⟨_, _, _, _, hth⟩ := insertRecord_step_split db r hb
    omega
  · obtain ⟨_, _, _, _, hth⟩ := insertRecord_step_nosplit db r hb
    omega

/-- Sequential insertion never decreases the tree height. -/
theorem insertList_height_mono :
    ∀ (l : List Record) (db : CustomBPlusDB),
      db.tree_height ≤ (insertList db l).1.tree_height := by
  intro l
  induction l with
  | nil =>
      intro db
      exact le_rfl
  | cons r rest ih =>
      intro db
      rw [insertList_step db r rest rfl]
      exact (insertRecord_height_mono db r).trans (ih _)

/-- Sequential insertion of an arbitrary batch under the height-≤-2
invariant: either the invariant survives with the record sequence gaining
exactly the batch, or the final tree has height at least 3. -/
theorem insertList_inv2 :
    ∀ (l : List Record) (db : CustomBPlusDB) (rs : List Record),
      Inv2 db rs →
      (∃ rs', Inv2 (insertList db l).1 rs' ∧ rs'.Perm (rs ++ l)) ∨
        3 ≤ (insertList db l).1.tree_height := by
  intro l
  induction l with
  | nil =>
      intro db rs hinv
      exact Or.inl ⟨rs, hinv, by simp⟩
  | cons r rest ih =>
      intro db rs hinv
      rw [insertList_step db r rest rfl]
      rcases insertRecord_inv2 hinv r with ⟨rs1, hinv1, hperm1⟩ | hh3
      · rcases ih (insertRecord db r).1 rs1 hinv1 with ⟨rs2, hinv2, hperm2⟩ | hh3
        · refine Or.inl ⟨rs2, hinv2, ?_⟩
          exact (hperm2.trans (hperm1.append_right rest)).trans
            List.perm_middle.symm
        · exact Or.inr hh3
      · exact Or.inr
          (le_trans hh3 (insertList_height_mono rest (insertRecord db r).1))

/-- Stop case of the `lower_bound` scan, as a conditional rewrite usable by
the simplifier on concrete inputs. -/
theorem lowerBoundFrom_stop (keys : List Int) (kc : ℕ) (id : Int) (i : ℕ)
    (h : ¬(i < kc ∧ keys.getD i 0 < id)) :
    lowerBoundFrom keys kc id i = i := by
  rw [lowerBoundFrom, dif_neg h]

/-- C1.  After a sequence of `insert_record` calls starting from the empty
tree, `collect_leaf_records()` returns exactly the inserted records in
strictly increasing id order, and its length equals `total_records` —
provided the inserted ids are pairwise distinct and the resulting tree has
height at most 2.  (As stated the claim is false: inserting a duplicate id
produces a chain that is not strictly increasing, see the counterexample.) -/
theorem insert_sequence_collect_sorted (l : List Record)
    (hh : (insertList emptyDB l).1.tree_height ≤ 2)
    (hnd : (l.map Record.id).Nodup) :
    (collectLeafRecords (insertList emptyDB l).1).Perm l ∧
    List.Pairwise (fun x y : Record => x.id < y.id)
      (collectLeafRecords (insertList emptyDB l).1) ∧
    (insertList emptyDB l).1.total_records =
      (collectLeafRecords (insertList emptyDB l).1).length := by
  rcases insertList_inv2 l emptyDB [] inv2_emptyDB with ⟨rs', hinv, hperm⟩ | h3
  · obtain ⟨hcoll, hsorted, htot⟩ := inv2_collect hinv
    have hperm' : rs'.Perm l := by simpa using hperm
    rw [hcoll]
    have hnd2 : (rs'.map Record.id).Nodup :=
      ((hperm'.map Record.id).nodup_iff).mpr hnd
    have hpne : List.Pairwise (fun x y : Record => x.id ≠ y.id) rs' :=
      List.pairwise_map.mp hnd2
    exact ⟨hperm',
      (hsorted.and hpne).imp (fun hab => lt_of_le_of_ne hab.1 hab.2),
      htot⟩
  · omega

/-- Witness for C1: inserting ids 5 then 2 (out of order) yields a height-1
tree whose leaf chain lists both records in increasing id order. -/
theorem insert_sequence_collect_sorted_witness :
    ((insertList emptyDB [⟨5, 1, 0, 0, 0⟩, ⟨2, 2, 0, 0, 0⟩]).1.tree_height ≤ 2 ∧
      (([⟨5, 1, 0, 0, 0⟩, ⟨2, 2, 0, 0, 0⟩] : List Record).map Record.id).Nodup) ∧
    (collectLeafRecords (insertList emptyDB
        [⟨5, 1, 0, 0, 0⟩, ⟨2, 2, 0, 0, 0⟩]).1).Perm
      [⟨5, 1, 0, 0, 0⟩, ⟨2, 2, 0, 0, 0⟩] ∧
    List.Pairwise (fun x y : Record => x.id < y.id)
      (collectLeafRecords (insertList emptyDB
        [⟨5, 1, 0, 0, 0⟩, ⟨2, 2, 0, 0, 0⟩]).1) ∧
    (insertList emptyDB [⟨5, 1, 0, 0, 0⟩, ⟨2, 2, 0, 0, 0⟩]).1.total_records =
      (collectLeafRecords (insertList emptyDB
        [⟨5, 1, 0, 0, 0⟩, ⟨2, 2, 0, 0, 0⟩]).1).length := by
  have h1 : (insertList emptyDB
      [(⟨5, 1, 0, 0, 0⟩ : Record), ⟨2, 2, 0, 0, 0⟩]).1.tree_height ≤ 2 := by
    norm_num [insertList, insertRecord, insertIntoNode, getNode,
      nodeInsertRecord, emptyDB, BPlusTreeNode.mkNode, lowerBound,
      lowerBoundFrom_stop, List.getD, MAX_KEYS]
  have h2 : (([⟨5, 1, 0, 0, 0⟩, ⟨2, 2, 0, 0, 0⟩] :
      List Record).map Record.id).Nodup := by
    decide
  exact ⟨⟨h1, h2⟩, insert_sequence_collect_sorted _ h1 h2⟩

/-- Counterexample to C1 as stated: inserting the same id twice is a legal
insert sequence, but the resulting leaf chain repeats id 5 and is therefore
not strictly increasing. -/
theorem insert_sequence_collect_sorted_counterexample :
    ¬ List.Pairwise (fun x y : Record => x.id < y.id)
      (collectLeafRecords (insertList emptyDB
        [⟨5, 1, 0, 0, 0⟩, ⟨5, 2, 0, 0, 0⟩]).1) := by
  norm_num [insertList, insertRecord, insertIntoNode, getNode,
    nodeInsertRecord, emptyDB, BPlusTreeNode.mkNode, lowerBound,
    lowerBoundFrom_stop, List.getD, MAX_KEYS, collectLeafRecords,
    leftmostFrom, walkLeaves]

/-- A single-leaf database built from a short id-sorted record list satisfies
the B+ layout invariant. -/
theorem oneLeafDB_inv (recs : List Record) (hlen : recs.length < MAX_KEYS)
    (hsorted : List.Sorted (fun x y : Record => x.id ≤ y.id) recs) :
    DBInv (oneLeafDB recs) [0] [0] recs (recs.map Record.id) := by
  refine ⟨?_, List.chain'_singleton 0, ?_, rfl, hsorted, ?_⟩
  · have hget : getNode (oneLeafDB recs).nodes 0 =
        some ⟨true, recs.length, recs.length, recs.map Record.id, recs, [],
          none⟩ := rfl
    exact RepN.leaf _ 0 _ hget
      ⟨rfl, by simp, by simp, rfl, List.pairwise_map.mpr hsorted⟩
      (by simpa using hlen)
  · intro a ha
    simp only [List.getLast?_singleton, Option.some_inj] at ha
    subst ha
    rfl
  · intro k hk
    obtain ⟨r0, hr0, hkr⟩ := List.mem_map.mp hk
    exact ⟨r0, hr0, le_of_eq hkr.symm⟩

/-- Witness for `save_load_roundtrip_sorted` at a two-record tree with
distinct ids 3 and 7. -/
theorem save_load_roundtrip_sorted_witness :
    DBInv (oneLeafDB [⟨3, 1, 0, 0, 0⟩, ⟨7, 2, 0, 0, 0⟩]) [0] [0]
      [⟨3, 1, 0, 0, 0⟩, ⟨7, 2, 0, 0, 0⟩]
      (([⟨3, 1, 0, 0, 0⟩, ⟨7, 2, 0, 0, 0⟩] : List Record).map Record.id) ∧
    ((collectLeafRecords (loadFromFile emptyDB
          (saveToFile (oneLeafDB [⟨3, 1, 0, 0, 0⟩, ⟨7, 2, 0, 0, 0⟩]))).1).Perm
        (collectAllRecords (oneLeafDB [⟨3, 1, 0, 0, 0⟩, ⟨7, 2, 0, 0, 0⟩])) ∧
      List.Sorted (fun x y : Record => x.id ≤ y.id)
        (collectLeafRecords (loadFromFile emptyDB
          (saveToFile (oneLeafDB [⟨3, 1, 0, 0, 0⟩, ⟨7, 2, 0, 0, 0⟩]))).1) ∧
      (collectLeafRecords (loadFromFile emptyDB
          (saveToFile (oneLeafDB [⟨3, 1, 0, 0, 0⟩, ⟨7, 2, 0, 0, 0⟩]))).1).length =
        (collectAllRecords (oneLeafDB [⟨3, 1, 0, 0, 0⟩, ⟨7, 2, 0, 0, 0⟩])).length ∧
      getTotalRecords (loadFromFile emptyDB
          (saveToFile (oneLeafDB [⟨3, 1, 0, 0, 0⟩, ⟨7, 2, 0, 0, 0⟩]))).1 =
        getTotalRecords (oneLeafDB [⟨3, 1, 0, 0, 0⟩, ⟨7, 2, 0, 0, 0⟩]) ∧
      (loadFromFile emptyDB
          (saveToFile (oneLeafDB [⟨3, 1, 0, 0, 0⟩, ⟨7, 2, 0, 0, 0⟩]))).2 = true ∧
      (((collectAllRecords
            (oneLeafDB [⟨3, 1, 0, 0, 0⟩, ⟨7, 2, 0, 0, 0⟩])).map Record.id).Nodup →
        collectLeafRecords (loadFromFile emptyDB
            (saveToFile (oneLeafDB [⟨3, 1, 0, 0, 0⟩, ⟨7, 2, 0, 0, 0⟩]))).1 =
          (collectAllRecords (oneLeafDB [⟨3, 1, 0, 0, 0⟩, ⟨7, 2, 0, 0, 0⟩])).mergeSort
            (fun a b => a.id ≤ b.id))) := by
  have hinv : DBInv (oneLeafDB [⟨3, 1, 0, 0, 0⟩, ⟨7, 2, 0, 0, 0⟩]) [0] [0]
      [⟨3, 1, 0, 0, 0⟩, ⟨7, 2, 0, 0, 0⟩]
      (([⟨3, 1, 0, 0, 0⟩, ⟨7, 2, 0, 0, 0⟩] : List Record).map Record.id) :=
    oneLeafDB_inv [⟨3, 1, 0, 0, 0⟩, ⟨7, 2, 0, 0, 0⟩]
      (by norm_num [MAX_KEYS]) (by decide)
  exact ⟨hinv, save_load_roundtrip_sorted hinv⟩
